import Mathlib

/-! # NifSkope codec layer: mesh parser and cube-map filter

A shallow embedding of `src/io/MeshFile.cpp` and `src/gl/sfcube.cpp`.

Conventions of the embedding

* A byte buffer is a `List Nat` whose entries are below 256 (`IsBytes`).
* `quint32`, `size_t` and friends are natural numbers; where the source can wrap, the
  reduction modulo `2 ^ 32` or `2 ^ 64` is written out.
* Floating-point values are `Flt`: NaN, the two infinities, or an exact rational.
  Rounding and overflow to infinity are not modelled: an operation on finite values
  yields the exact rational result.
* A result `none` of `readMesh` or `convertImage` means that the call has no defined
  result: an index out of range, a signed overflow, or an exception of the standard library.
* Memory allocation never fails.
-/

namespace NifSkope

/-! ## Byte helpers -/

/-- Every entry of the buffer is a byte. -/
def IsBytes (l : List Nat) : Prop := ∀ b ∈ l, b < 256

instance (l : List Nat) : Decidable (IsBytes l) := by
  unfold IsBytes
  infer_instance

/-- Little-endian value of a byte sequence. -/
def leValue : List Nat → Nat
  | [] => 0
  | b :: bs => b + 256 * leValue bs

/-- The four bytes of a 32-bit word, least significant first. -/
def le32 (n : Nat) : List Nat :=
  [n % 256, n / 256 % 256, n / 65536 % 256, n / 16777216 % 256]

/-- The two bytes of a 16-bit word, least significant first. -/
def le16 (n : Nat) : List Nat :=
  [n % 256, n / 256 % 256]

/-! ## Floating-point values -/

/-- A floating-point value: NaN, an infinity with its sign, or a finite value. -/
inductive Flt where
  | nan : Flt
  | inf (neg : Bool) : Flt
  | fin (q : ℚ) : Flt
  deriving DecidableEq

namespace Flt

/-- Floating-point product (exact on finite values). -/
def mul : Flt → Flt → Flt
  | nan, _ => nan
  | _, nan => nan
  | inf a, inf b => inf (a != b)
  | inf a, fin q => if q = 0 then nan else inf (a != decide (q < 0))
  | fin q, inf a => if q = 0 then nan else inf (a != decide (q < 0))
  | fin p, fin q => fin (p * q)

/-- Floating-point negation. -/
def neg : Flt → Flt
  | nan => nan
  | inf a => inf (!a)
  | fin q => fin (-q)

/-- Floating-point sum (exact on finite values). -/
def add : Flt → Flt → Flt
  | nan, _ => nan
  | _, nan => nan
  | inf a, inf b => if a = b then inf a else nan
  | inf a, fin _ => inf a
  | fin _, inf a => inf a
  | fin p, fin q => fin (p + q)

/-- Floating-point difference. -/
def sub (a b : Flt) : Flt := add a (neg b)

/-- The comparison `v <= 0.0`; false on NaN. -/
def le0 : Flt → Bool
  | nan => false
  | inf a => a
  | fin q => decide (q ≤ 0)

/-- The comparison `v > 0.0`; false on NaN. -/
def gt0 : Flt → Bool
  | nan => false
  | inf a => !a
  | fin q => decide (0 < q)

end Flt

/-- The value of an IEEE-754 single-precision bit pattern. -/
def float32OfBits (n : Nat) : Flt :=
  let sign : ℚ := if n / 2 ^ 31 % 2 = 1 then -1 else 1
  let e : Nat := n / 2 ^ 23 % 256
  let mant : Nat := n % 2 ^ 23
  if e = 255 then (if mant = 0 then Flt.inf (decide (n / 2 ^ 31 % 2 = 1)) else Flt.nan)
  else if e = 0 then Flt.fin (sign * (mant : ℚ) / 2 ^ 149)
  else Flt.fin (sign * (2 ^ 23 + (mant : ℚ)) * 2 ^ e / 2 ^ 150)

/-- Two's-complement value of a 16-bit word (`int16_t`). -/
def toInt16 (u : Nat) : Int :=
  if u % 65536 < 32768 then (u % 65536 : Nat) else (u % 65536 : Nat) - 65536

/-! ## `MeshFile.cpp` -/

/-- The function `double snormToDouble(int16_t x)`; the quotient is the exact rational. -/
def snormToDouble (x : Int) : ℚ :=
  if x < 0 then (x : ℚ) / 32768 else (x : ℚ) / 32767

/-- A 3D vector of floats (`Vector3`). -/
structure Vector3 where
  x : Flt
  y : Flt
  z : Flt
  deriving DecidableEq

/-- A 2D vector of floats (`Vector2`). -/
structure Vector2 where
  x : Flt
  y : Flt
  deriving DecidableEq

/-- A 4D vector of floats (`Vector4`). -/
structure Vector4 where
  x : Flt
  y : Flt
  z : Flt
  w : Flt
  deriving DecidableEq

/-- An RGBA colour (`Color4`). -/
structure Color4 where
  r : Flt
  g : Flt
  b : Flt
  a : Flt
  deriving DecidableEq

/-- Three vertex indices (`Triangle`). -/
structure Triangle where
  v0 : Nat
  v1 : Nat
  v2 : Nat
  deriving DecidableEq

/-- Modelled from the spec: the per-vertex bone-weight structure. Its constructor
`BoneWeightsUNorm(weightsUNORM, i)` is defined outside `MeshFile.cpp`; the structure holds
the (bone-index, weight) pairs it was given and the index of the vertex. -/
structure BoneWeightsUNorm where
  weightsUNORM : List (Nat × Nat)
  vertex : Nat
  deriving DecidableEq

/-! Default-constructed entries, as `QVector::resize` appends them. In a newly constructed
`MeshFile` every appended entry is overwritten by the loop that follows the resize. -/

instance : Inhabited Vector3 := ⟨⟨Flt.fin 0, Flt.fin 0, Flt.fin 0⟩⟩
instance : Inhabited Vector2 := ⟨⟨Flt.fin 0, Flt.fin 0⟩⟩
instance : Inhabited Vector4 := ⟨⟨Flt.fin 0, Flt.fin 0, Flt.fin 0, Flt.fin 0⟩⟩
instance : Inhabited Color4 := ⟨⟨Flt.fin 1, Flt.fin 1, Flt.fin 1, Flt.fin 1⟩⟩
instance : Inhabited Triangle := ⟨⟨0, 0, 0⟩⟩
instance : Inhabited BoneWeightsUNorm := ⟨⟨[], 0⟩⟩

/-- Modelled from the spec: the operator `Vector3 * float`, which is defined with the type
`Vector3` outside `MeshFile.cpp`: each component is multiplied by the scalar. -/
def Vector3.scale (v : Vector3) (s : Flt) : Vector3 :=
  ⟨Flt.mul v.x s, Flt.mul v.y s, Flt.mul v.z s⟩

/-- Modelled from the spec: the function `Vector3::crossproduct(a, b)`, which is defined with
the type `Vector3` outside `MeshFile.cpp`: the vector
`(a.y * b.z - a.z * b.y, a.z * b.x - a.x * b.z, a.x * b.y - a.y * b.x)`. -/
def Vector3.crossproduct (a b : Vector3) : Vector3 :=
  ⟨Flt.sub (Flt.mul a.y b.z) (Flt.mul a.z b.y),
   Flt.sub (Flt.mul a.z b.x) (Flt.mul a.x b.z),
   Flt.sub (Flt.mul a.x b.y) (Flt.mul a.y b.x)⟩

/-- The packed-vector decoders `FloatVector4::convertFloat16`, restricted to the two lanes
the parser uses, and `FloatVector4::convertX10Y10Z10`. They are defined in `fp32vec4.hpp`,
outside `MeshFile.cpp`, and are parameters of the parser. -/
structure Codec where
  convertFloat16 : Nat → Flt × Flt
  convertX10Y10Z10 : Nat → Flt × Flt × Flt

/-- The function `Vector3 UnpackUDEC3(quint32 n, bool& invertBitangent)`: the vector it
returns and the flag it sets. -/
def UnpackUDEC3 (C : Codec) (n : Nat) : Vector3 × Bool :=
  let v := C.convertX10Y10Z10 n
  (⟨v.1, v.2.1, v.2.2⟩, decide ((n / 2 ^ 31) % 2 = 1))

/-! ### The stream reader

`QDataStream` over a `QBuffer`, little-endian, single precision. The state is the list of
unread bytes. A read that finds fewer bytes than it needs consumes what is left, yields
zero and lets the parse go on (the stream status is never inspected by `readMesh`). -/

/-- The unread bytes of the stream. -/
abbrev Stream := List Nat

/-- Read an unsigned little-endian integer of `n` bytes (`in >> v`). -/
def readUInt (n : Nat) (s : Stream) : Nat × Stream :=
  if n ≤ s.length then (leValue (s.take n), s.drop n) else (0, [])

/-- The read `in >> v` for a `quint32`. -/
def readU32 (s : Stream) : Nat × Stream := readUInt 4 s

/-- The read `in >> v` for a `quint16`. -/
def readU16 (s : Stream) : Nat × Stream := readUInt 2 s

/-- The read `in >> v` for a `uint8_t`. -/
def readU8 (s : Stream) : Nat × Stream := readUInt 1 s

/-- The read `in >> v` for an `int16_t`. -/
def readI16 (s : Stream) : Int × Stream :=
  let r := readU16 s
  (toInt16 r.1, r.2)

/-- The read `in >> v` for a `float` with `QDataStream::SinglePrecision`. -/
def readFloat (s : Stream) : Flt × Stream :=
  let r := readU32 s
  (float32OfBits r.1, r.2)

/-- Modelled from the spec: the read `in >> tri` for a `Triangle`. The stream operator is
defined outside `MeshFile.cpp`; a triangle is three 16-bit indices read in order. -/
def readTriangle (s : Stream) : Triangle × Stream :=
  let a := readU16 s
  let b := readU16 a.2
  let c := readU16 b.2
  (⟨a.1, b.1, c.1⟩, c.2)

/-- The method `QVector::resize`: truncate, or extend with default-constructed entries. -/
def resize {α : Type} [Inhabited α] (n : Nat) (v : List α) : List α :=
  v.take n ++ List.replicate (n - v.length) default

/-- The loop `for (i = i0; i < i0 + n; i++) v[i] = read(i, in);`, used where the bound
keeps `i` inside `v`. -/
def fillLoop {α : Type} (rd : Nat → Stream → α × Stream) :
    Nat → Nat → List α → Stream → List α × Stream
  | 0, _, v, s => (v, s)
  | n + 1, i, v, s => fillLoop rd n (i + 1) (v.set i (rd i s).1) (rd i s).2

/-- The state of a `MeshFile` object: the raw bytes and the parsed arrays. -/
structure MeshFile where
  data : List Nat
  triangles : List Triangle
  positions : List Vector3
  coords : List (List Vector2)
  colors : List Color4
  normals : List Vector3
  tangents : List Vector3
  tangentsBasis : List Vector4
  bitangents : List Vector3
  weights : List BoneWeightsUNorm
  weightsPerVertex : Nat
  lods : List (List Triangle)
  deriving DecidableEq

/-- A newly constructed `MeshFile` holding the bytes of the file: every array is empty. -/
def MeshFile.fresh (data : List Nat) : MeshFile :=
  { data := data, triangles := [], positions := [], coords := [], colors := [],
    normals := [], tangents := [], tangentsBasis := [], bitangents := [], weights := [],
    weightsPerVertex := 0, lods := [] }

/-- Body of the position loop: three `int16_t` reads, decoded and scaled. -/
def readPosition (scale : Flt) (s : Stream) : Vector3 × Stream :=
  let x := readI16 s
  let y := readI16 x.2
  let z := readI16 y.2
  (Vector3.scale ⟨Flt.fin (snormToDouble x.1), Flt.fin (snormToDouble y.1),
    Flt.fin (snormToDouble z.1)⟩ scale, z.2)

/-- Body of a UV loop: one packed word through `convertFloat16`. -/
def readCoord (C : Codec) (s : Stream) : Vector2 × Stream :=
  let uv := readU32 s
  (⟨(C.convertFloat16 uv.1).1, (C.convertFloat16 uv.1).2⟩, uv.2)

/-- Body of the colour loop: bytes `b, g, r, a` in stream order. -/
def readColor (s : Stream) : Color4 × Stream :=
  let b := readU8 s
  let g := readU8 b.2
  let r := readU8 g.2
  let a := readU8 r.2
  (⟨Flt.fin ((r.1 : ℚ) / 255), Flt.fin ((g.1 : ℚ) / 255), Flt.fin ((b.1 : ℚ) / 255),
    Flt.fin ((a.1 : ℚ) / 255)⟩, a.2)

/-- Body of the normal loop. -/
def readNormal (C : Codec) (s : Stream) : Vector3 × Stream :=
  let n := readU32 s
  ((UnpackUDEC3 C n.1).1, n.2)

/-- The tangent loop `for (i = 0; i < tangents.count(); i++)`, writing `tangents`,
`tangentsBasis` and `bitangents` and reading `normals[i]`; `k` iterations are left. -/
def tangentLoop (C : Codec) : Nat → Nat → MeshFile → Stream → Option (MeshFile × Stream)
  | 0, _, m, s => some (m, s)
  | k + 1, i, m, s =>
    let n := readU32 s
    let u := UnpackUDEC3 C n.1
    let tan := u.1
    if i < m.tangentsBasis.length ∧ i < m.bitangents.length ∧ i < m.normals.length then
      let nrm := m.normals.getD i default
      let bit := if u.2 then Vector3.crossproduct nrm tan else Vector3.crossproduct tan nrm
      tangentLoop C k (i + 1)
        { m with tangents := m.tangents.set i tan,
                 tangentsBasis := m.tangentsBasis.set i
                   ⟨tan.x, tan.y, tan.z, if u.2 then Flt.fin 1 else Flt.fin (-1)⟩,
                 bitangents := m.bitangents.set i bit } n.2
    else none

/-- The inner loop `for (j = 0; j < 8; j++)` of the weight block; `k` iterations are left. -/
def readWeightPairs (numWeightsPerVertex : Nat) : Nat → Nat → Stream → List (Nat × Nat) × Stream
  | 0, _, s => ([], s)
  | k + 1, j, s =>
    if j < numWeightsPerVertex then
      let b := readU16 s
      let w := readU16 b.2
      let r := readWeightPairs numWeightsPerVertex k (j + 1) w.2
      ((b.1, w.1) :: r.1, r.2)
    else
      let r := readWeightPairs numWeightsPerVertex k (j + 1) s
      ((0, 0) :: r.1, r.2)

/-- Body of the weight loop for vertex `i`. -/
def readWeight (numWeightsPerVertex : Nat) (i : Nat) (s : Stream) : BoneWeightsUNorm × Stream :=
  let r := readWeightPairs numWeightsPerVertex 8 0 s
  (⟨r.1, i⟩, r.2)

/-- The LOD loop `for (i = 0; i < numLODs; i++)`; `k` iterations are left. -/
def lodLoop : Nat → Nat → List (List Triangle) → Stream → List (List Triangle) × Stream
  | 0, _, v, s => (v, s)
  | k + 1, i, v, s =>
    let n := readU32 s
    let r := fillLoop (fun _ => readTriangle) (n.1 / 3) 0 (resize (n.1 / 3) (v.getD i [])) n.2
    lodLoop k (i + 1) (v.set i r.1) r.2

/-- UV channel 0 (source lines 91 to 107). In every block a container size of `2 ^ 31` or
more does not fit the `int` sizes and counters of the loops: no result. -/
def readCoords0 (C : Codec) (m : MeshFile) (s : Stream) : Option (MeshFile × Stream) :=
  let numCoord1 := readU32 s
  if 2 ^ 31 ≤ numCoord1.1 then none else
  let coords := m.coords ++ [[]]
  let c0 := resize numCoord1.1 (coords.getD 0 [])
  let c0r := fillLoop (fun _ => readCoord C) c0.length 0 c0 numCoord1.2
  some ({ m with coords := coords.set 0 c0r.1 }, c0r.2)

/-- UV channel 1 (source lines 109 to 125). -/
def readCoords1 (C : Codec) (m : MeshFile) (s : Stream) : Option (MeshFile × Stream) :=
  let numCoord2 := readU32 s
  if 2 ^ 31 ≤ numCoord2.1 then none else
  let coords := m.coords ++ [[]]
  let c1 := resize numCoord2.1 (coords.getD 1 [])
  let c1r := fillLoop (fun _ => readCoord C) c1.length 0 c1 numCoord2.2
  some ({ m with coords := coords.set 1 c1r.1 }, c1r.2)

/-- The colour block (source lines 127 to 139). -/
def readColors (m : MeshFile) (s : Stream) : Option (MeshFile × Stream) :=
  let numColor := readU32 s
  if 2 ^ 31 ≤ numColor.1 + m.colors.length then none else
  let colors := if 0 < numColor.1 then resize (numColor.1 + m.colors.length) m.colors
    else m.colors
  let cr := fillLoop (fun _ => readColor) numColor.1 0 colors numColor.2
  some ({ m with colors := cr.1 }, cr.2)

/-- The normal block (source lines 141 to 151). -/
def readNormals (C : Codec) (m : MeshFile) (s : Stream) : Option (MeshFile × Stream) :=
  let numNormal := readU32 s
  if 2 ^ 31 ≤ numNormal.1 + m.normals.length then none else
  let normals := if 0 < numNormal.1 then resize (numNormal.1 + m.normals.length) m.normals
    else m.normals
  let nr := fillLoop (fun _ => readNormal C) normals.length 0 normals numNormal.2
  some ({ m with normals := nr.1 }, nr.2)

/-- The tangent block (source lines 153 to 169). -/
def readTangents (C : Codec) (m : MeshFile) (s : Stream) : Option (MeshFile × Stream) :=
  let numTangent := readU32 s
  if 2 ^ 31 ≤ numTangent.1 + m.tangents.length ∨
      2 ^ 31 ≤ numTangent.1 + m.tangentsBasis.length ∨
      2 ^ 31 ≤ numTangent.1 + m.bitangents.length then none else
  let m := if 0 < numTangent.1 then
      { m with tangents := resize (numTangent.1 + m.tangents.length) m.tangents,
               tangentsBasis := resize (numTangent.1 + m.tangentsBasis.length) m.tangentsBasis,
               bitangents := resize (numTangent.1 + m.bitangents.length) m.bitangents }
    else m
  tangentLoop C m.tangents.length 0 m numTangent.2

/-- The quotient `a / b` of two `quint32` values as the C++ expression evaluates it: a zero
divisor gives no defined value. -/
def udiv (a b : Nat) : Option Nat :=
  if b = 0 then none else some (a / b)

/-- The guarded resize of `weights` (source lines 173 and 174): the quotient is evaluated
only inside the guard. -/
def resizeWeights (numWeights numWeightsPerVertex : Nat) (weights : List BoneWeightsUNorm) :
    Option (List BoneWeightsUNorm) :=
  if 0 < numWeights ∧ 0 < numWeightsPerVertex
  then (udiv numWeights numWeightsPerVertex).map fun q => resize q weights
  else some weights

/-- The weight block (source lines 171 to 189). -/
def readWeights (numWeightsPerVertex : Nat) (m : MeshFile) (s : Stream) :
    Option (MeshFile × Stream) :=
  let numWeights := readU32 s
  match resizeWeights numWeights.1 numWeightsPerVertex m.weights with
  | none => none
  | some weights =>
    if 2 ^ 31 ≤ weights.length then none else
    let wr := fillLoop (readWeight numWeightsPerVertex) weights.length 0 weights numWeights.2
    some ({ m with weights := wr.1 }, wr.2)

/-- The LOD block (source lines 191 to 204). -/
def readLODs (m : MeshFile) (s : Stream) : Option (MeshFile × Stream) :=
  let numLODs := readU32 s
  if 2 ^ 31 ≤ numLODs.1 then none else
  let lr := lodLoop numLODs.1 0 (resize numLODs.1 m.lods) numLODs.2
  some ({ m with lods := lr.1 }, lr.2)

/-- The part of `readMesh` from the first UV count to the end (source lines 91 to 206);
`numPositions` is the value to return. -/
def readMeshTail (C : Codec) (numPositions numWeightsPerVertex : Nat) (m : MeshFile)
    (s : Stream) : Option (Nat × MeshFile) :=
  (readCoords0 C m s).bind fun r0 =>
  (readCoords1 C r0.1 r0.2).bind fun r1 =>
  (readColors r1.1 r1.2).bind fun r2 =>
  (readNormals C r2.1 r2.2).bind fun r3 =>
  (readTangents C r3.1 r3.2).bind fun r4 =>
  (readWeights numWeightsPerVertex r4.1 r4.2).bind fun r5 =>
  (readLODs r5.1 r5.2).bind fun r6 =>
  some (numPositions, r6.1)

/-- The part of `readMesh` after the scale check (source lines 71 to 206). -/
def readMeshBody (C : Codec) (scale : Flt) (m : MeshFile) (s : Stream) :
    Option (Nat × MeshFile) :=
  let numWeightsPerVertex := readU32 s
  let m := { m with weightsPerVertex := numWeightsPerVertex.1 }
  let numPositions := readU32 numWeightsPerVertex.2
  if 2 ^ 31 ≤ numPositions.1 + m.positions.length then none else
  let pos := resize (numPositions.1 + m.positions.length) m.positions
  let pr := fillLoop (fun _ => readPosition scale) pos.length 0 pos numPositions.2
  readMeshTail C numPositions.1 numWeightsPerVertex.1 { m with positions := pr.1 } pr.2

/-- The method `quint32 MeshFile::readMesh()`: the returned count and the state of the
object after the call. Opening the `QBuffer` on the bytes read-only always succeeds. -/
def readMesh (C : Codec) (m : MeshFile) : Option (Nat × MeshFile) :=
  if m.data = [] then some (0, m) else
  let magic := readU32 m.data
  if magic.1 ≠ 1 then some (0, m) else
  let indicesSize := readU32 magic.2
  let tr := fillLoop (fun _ => readTriangle) (indicesSize.1 / 3) 0
    (resize (indicesSize.1 / 3) m.triangles) indicesSize.2
  let m := { m with triangles := tr.1 }
  let scale := readFloat tr.2
  if scale.1.le0 then some (0, m) else
  readMeshBody C scale.1 m scale.2

/-- Modelled from the spec: the value of an IEEE-754 half-precision bit pattern. -/
def halfOfBits (h : Nat) : Flt :=
  let sign : ℚ := if h / 2 ^ 15 % 2 = 1 then -1 else 1
  let e : Nat := h / 2 ^ 10 % 32
  let mant : Nat := h % 2 ^ 10
  if e = 31 then (if mant = 0 then Flt.inf (decide (h / 2 ^ 15 % 2 = 1)) else Flt.nan)
  else if e = 0 then Flt.fin (sign * (mant : ℚ) / 2 ^ 24)
  else Flt.fin (sign * (2 ^ 10 + (mant : ℚ)) * 2 ^ e / 2 ^ 25)

/-- Modelled from the spec: the decoders of `fp32vec4.hpp` as section 4.1 describes them. A
packed UV word holds two half-precision floats in its low and high 16 bits; a packed
10-10-10-2 word holds three unsigned 10-bit codes, each mapped onto the range [-1, 1]. -/
def Codec.spec : Codec where
  convertFloat16 := fun uv => (halfOfBits (uv % 65536), halfOfBits (uv / 65536 % 65536))
  convertX10Y10Z10 := fun n =>
    (Flt.fin ((2 * ((n % 1024 : Nat) : ℚ) - 1023) / 1023),
     Flt.fin ((2 * ((n / 1024 % 1024 : Nat) : ℚ) - 1023) / 1023),
     Flt.fin ((2 * ((n / 1048576 % 1024 : Nat) : ℚ) - 1023) / 1023))

/-! ## Serialized blocks

The byte layout of the blocks of a `.mesh` stream, used to state what `readMesh` makes of a
stream that holds them. -/

/-- The six bytes of a triangle in the stream. -/
def encTriangle (t : Triangle) : List Nat := le16 t.v0 ++ le16 t.v1 ++ le16 t.v2

/-- A triangle whose indices are 16-bit values. -/
def Triangle.Valid (t : Triangle) : Prop := t.v0 < 2 ^ 16 ∧ t.v1 < 2 ^ 16 ∧ t.v2 < 2 ^ 16

/-- The stream from the magic to the scale field: magic, index count, the triangles of the
base list, and the bit pattern of the scale. -/
def encHeader (magic indexCount : Nat) (tris : List Triangle) (scaleBits : Nat) : List Nat :=
  le32 magic ++ le32 indexCount ++ tris.flatMap encTriangle ++ le32 scaleBits

/-- The two bytes of an `int16_t` in the stream (two's complement). -/
def encI16 (x : Int) : List Nat := le16 (x % 65536).toNat

/-- The six bytes of a position triplet in the stream. -/
def encPosition (p : Int × Int × Int) : List Nat := encI16 p.1 ++ encI16 p.2.1 ++ encI16 p.2.2

/-- The four bytes of a colour quad in the stream. -/
def encColor (c : Nat × Nat × Nat × Nat) : List Nat := [c.1, c.2.1, c.2.2.1, c.2.2.2]

/-- The bytes of the weight pairs of one vertex in the stream. -/
def encWeight (ps : List (Nat × Nat)) : List Nat := ps.flatMap fun p => le16 p.1 ++ le16 p.2

/-- The bytes of one LOD entry in the stream: index count and triangles. -/
def encLod (l : Nat × List Triangle) : List Nat := le32 l.1 ++ l.2.flatMap encTriangle

/-- The content of a complete `.mesh` stream, field by field in stream order: the index
count and the base triangles, the bit pattern of the scale, the number of weights per
vertex, the position triplets, the packed UV words of the two channels, the colour quads
(stream bytes in order), the packed normals and tangents, the weight count with the pairs
stored for each vertex, and the LOD entries. -/
structure MeshStream where
  indexCount : Nat
  triangles : List Triangle
  scaleBits : Nat
  weightsPerVertex : Nat
  positions : List (Int × Int × Int)
  uv0 : List Nat
  uv1 : List Nat
  colors : List (Nat × Nat × Nat × Nat)
  normals : List Nat
  tangents : List Nat
  weightCount : Nat
  weights : List (List (Nat × Nat))
  lods : List (Nat × List Triangle)

namespace MeshStream

/-- The bytes of the stream, in the layout of the container format. -/
def encode (L : MeshStream) : List Nat :=
  encHeader 1 L.indexCount L.triangles L.scaleBits ++
  (le32 L.weightsPerVertex ++
  (le32 L.positions.length ++ (L.positions.flatMap encPosition ++
  (le32 L.uv0.length ++ (L.uv0.flatMap le32 ++
  (le32 L.uv1.length ++ (L.uv1.flatMap le32 ++
  (le32 L.colors.length ++ (L.colors.flatMap encColor ++
  (le32 L.normals.length ++ (L.normals.flatMap le32 ++
  (le32 L.tangents.length ++ (L.tangents.flatMap le32 ++
  (le32 L.weightCount ++ (L.weights.flatMap encWeight ++
  (le32 L.lods.length ++ L.lods.flatMap encLod))))))))))))))))

/-- The number of weight vertices the counts of the stream announce. -/
def weightVertices (L : MeshStream) : Nat :=
  if 0 < L.weightCount ∧ 0 < L.weightsPerVertex then L.weightCount / L.weightsPerVertex else 0

/-- The stream is well formed: every field fits its width, every block has the announced
number of entries, container sizes fit an `int`, and there are no more tangents than
normals. -/
structure WellFormed (L : MeshStream) : Prop where
  indexCount_lt : L.indexCount < 2 ^ 32
  triangles_length : L.triangles.length = L.indexCount / 3
  triangles_valid : ∀ t ∈ L.triangles, t.Valid
  scaleBits_lt : L.scaleBits < 2 ^ 32
  weightsPerVertex_lt : L.weightsPerVertex < 2 ^ 32
  positions_length : L.positions.length < 2 ^ 31
  positions_valid : ∀ p ∈ L.positions, (-32768 ≤ p.1 ∧ p.1 ≤ 32767) ∧
    (-32768 ≤ p.2.1 ∧ p.2.1 ≤ 32767) ∧ (-32768 ≤ p.2.2 ∧ p.2.2 ≤ 32767)
  uv0_length : L.uv0.length < 2 ^ 31
  uv0_valid : ∀ w ∈ L.uv0, w < 2 ^ 32
  uv1_length : L.uv1.length < 2 ^ 31
  uv1_valid : ∀ w ∈ L.uv1, w < 2 ^ 32
  colors_length : L.colors.length < 2 ^ 31
  colors_valid : ∀ c ∈ L.colors, c.1 < 256 ∧ c.2.1 < 256 ∧ c.2.2.1 < 256 ∧ c.2.2.2 < 256
  normals_length : L.normals.length < 2 ^ 31
  normals_valid : ∀ w ∈ L.normals, w < 2 ^ 32
  tangents_length : L.tangents.length ≤ L.normals.length
  tangents_valid : ∀ w ∈ L.tangents, w < 2 ^ 32
  weightCount_lt : L.weightCount < 2 ^ 32
  weights_length : L.weights.length = L.weightVertices
  weights_length_lt : L.weights.length < 2 ^ 31
  weights_valid : ∀ ps ∈ L.weights, ps.length = min L.weightsPerVertex 8 ∧
    ∀ p ∈ ps, p.1 < 2 ^ 16 ∧ p.2 < 2 ^ 16
  lods_length : L.lods.length < 2 ^ 31
  lods_valid : ∀ l ∈ L.lods, l.1 < 2 ^ 32 ∧ l.2.length = l.1 / 3 ∧ ∀ t ∈ l.2, t.Valid

end MeshStream

/-- The list `f i x₀, f (i + 1) x₁, ...` for the entries `x₀, x₁, ...` of a list. -/
def mapFrom {α β : Type} (f : Nat → β → α) : Nat → List β → List α
  | _, [] => []
  | i, x :: xs => f i x :: mapFrom f (i + 1) xs

/-- The position a triplet of the stream stands for. -/
def decPosition (scale : Flt) (p : Int × Int × Int) : Vector3 :=
  Vector3.scale ⟨Flt.fin (snormToDouble p.1), Flt.fin (snormToDouble p.2.1),
    Flt.fin (snormToDouble p.2.2)⟩ scale

/-- The texture coordinate a packed UV word stands for. -/
def decCoord (C : Codec) (uv : Nat) : Vector2 :=
  ⟨(C.convertFloat16 uv).1, (C.convertFloat16 uv).2⟩

/-- The colour a quad of stream bytes stands for. -/
def decColor (c : Nat × Nat × Nat × Nat) : Color4 :=
  ⟨Flt.fin ((c.2.2.1 : ℚ) / 255), Flt.fin ((c.2.1 : ℚ) / 255), Flt.fin ((c.1 : ℚ) / 255),
    Flt.fin ((c.2.2.2 : ℚ) / 255)⟩

/-- The tangent with its handedness sign. -/
def decTangentBasis (C : Codec) (n : Nat) : Vector4 :=
  ⟨(UnpackUDEC3 C n).1.x, (UnpackUDEC3 C n).1.y, (UnpackUDEC3 C n).1.z,
    if (UnpackUDEC3 C n).2 then Flt.fin 1 else Flt.fin (-1)⟩

/-- The bitangent of the tangent word `n` at index `i`, against the normal of that index. -/
def decBitangent (C : Codec) (normals : List Vector3) (i n : Nat) : Vector3 :=
  if (UnpackUDEC3 C n).2 then Vector3.crossproduct (normals.getD i default) (UnpackUDEC3 C n).1
  else Vector3.crossproduct (UnpackUDEC3 C n).1 (normals.getD i default)

/-- The weight structure of vertex `i`: the stored pairs, padded with `(0, 0)` to 8. -/
def decWeight (i : Nat) (ps : List (Nat × Nat)) : BoneWeightsUNorm :=
  ⟨ps ++ List.replicate (8 - ps.length) (0, 0), i⟩

/-- The mesh that a well-formed stream describes. -/
def MeshStream.mesh (C : Codec) (L : MeshStream) : MeshFile :=
  { data := L.encode
    triangles := L.triangles
    positions := L.positions.map (decPosition (float32OfBits L.scaleBits))
    coords := [L.uv0.map (decCoord C), L.uv1.map (decCoord C)]
    colors := L.colors.map decColor
    normals := L.normals.map fun n => (UnpackUDEC3 C n).1
    tangents := L.tangents.map fun n => (UnpackUDEC3 C n).1
    tangentsBasis := L.tangents.map (decTangentBasis C)
    bitangents := mapFrom (decBitangent C (L.normals.map fun n => (UnpackUDEC3 C n).1)) 0
      L.tangents
    weights := mapFrom decWeight 0 L.weights
    weightsPerVertex := L.weightsPerVertex
    lods := L.lods.map Prod.snd }

/-- The minimal valid stream: one triangle, scale 1.0, no weights, one position, and every
other block empty. -/
def minimalStream : MeshStream :=
  { indexCount := 3, triangles := [⟨0, 1, 2⟩], scaleBits := 0x3F800000, weightsPerVertex := 0,
    positions := [(32767, -32768, 0)], uv0 := [], uv1 := [], colors := [], normals := [],
    tangents := [], weightCount := 0, weights := [], lods := [] }

/-! ## `sfcube.cpp`: the cube-map filter -/

/-- The kernel that `threadFunction` applies to a mip level. -/
inductive Kernel where
  | copy : Kernel
  | specular (smoothness : ℚ) : Kernel
  | diffuse : Kernel
  deriving DecidableEq

/-- The branch taken by `SFCubeMapFilter::threadFunction` for mip index `m`: the copy kernel
for `m == 0`, the specular kernel with smoothness `(maxMip - 3 - m) / (maxMip - 3)` for
`m < maxMip - 2`, the diffuse kernel otherwise. -/
def threadFunctionKernel (m maxMip : Int) : Kernel :=
  if m = 0 then Kernel.copy
  else if m < maxMip - 2 then
    Kernel.specular ((((maxMip - 3) - m : Int) : ℚ) / ((maxMip - 3 : Int) : ℚ))
  else Kernel.diffuse

/-- What the filter takes from outside `sfcube.cpp`: the constants `width`, `height` and
`dxgiFormat` of `sfcube.hpp`, the value of `std::thread::hardware_concurrency()`, the
floating-point pixel pipeline, and the hash step of `filebuf.hpp`.
`texel k input m n y x` is the 32-bit word `tmp` that kernel `k` stores for mip `m` of the
chain, face `n`, row `y`, column `x`, computed from the pixels of the input buffer; the
arithmetic behind it (half-float decoding, exposure scaling, convolution, downsampling,
sRGB compression) is left uninterpreted. `hashStep64 h v` and `hashStep8 h v` are the
updated hash after `hashFunctionCRC32C` has consumed a 64-bit word or a byte. -/
structure CubeEnv where
  width : Nat
  height : Nat
  dxgiFormat : Nat
  hardwareConcurrency : Nat
  texel : Kernel → List Nat → Nat → Nat → Nat → Nat → Nat
  hashStep64 : Nat → Nat → Nat
  hashStep8 : Nat → Nat → Nat

/-- Modelled from the spec: `FileBuffer::readUInt32Fast(buf + off)` of `filebuf.hpp`, an
unchecked little-endian 32-bit read at a byte offset of the buffer. -/
def readUInt32Fast (buf : List Nat) (off : Nat) : Nat := leValue ((buf.drop off).take 4)

/-- Modelled from the spec: `FileBuffer::readUInt64Fast(buf + off)` of `filebuf.hpp`, an
unchecked little-endian 64-bit read at a byte offset of the buffer. -/
def readUInt64Fast (buf : List Nat) (off : Nat) : Nat := leValue ((buf.drop off).take 8)

/-- The variables of the mip-size loop of `convertImage` (source lines 223 to 245). -/
structure MipSizes where
  sizeRequired1 : Nat
  sizeRequired2 : Nat
  mipCnt : Nat
  maxMip : Int
  faceDataSize : Nat
  deriving DecidableEq

/-- The statement `w = w + size_t(!w)`: zero becomes one. -/
def fixZero (w : Nat) : Nat := w + (if w = 0 then 1 else 0)

/-- The updates of one iteration of the mip-size loop (source lines 234 to 241) for a mip of
`w` by `h` texels. -/
def mipSizeBody (width height w h : Nat) (st : MipSizes) : MipSizes :=
  { sizeRequired1 := if st.mipCnt = 0 then (st.sizeRequired1 + w * h) % 2 ^ 64
      else st.sizeRequired1
    sizeRequired2 := (st.sizeRequired2 + w * h) % 2 ^ 64
    mipCnt := st.mipCnt + 1
    maxMip := if w ≤ width ∧ h ≤ height then st.maxMip + 1 else st.maxMip
    faceDataSize := if w ≤ width ∧ h ≤ height then (st.faceDataSize + w * h) % 2 ^ 64
      else st.faceDataSize }

/-- The `do ... while (w | h)` loop of source lines 231 to 244, on `size_t` values. The first
argument bounds the number of iterations; `none` when the bound is reached. -/
def mipSizeLoop (width height : Nat) : Nat → Nat → Nat → MipSizes → Option MipSizes
  | 0, _, _, _ => none
  | fuel + 1, w, h, st =>
    if (fixZero w >>> 1) ||| (fixZero h >>> 1) ≠ 0 then
      mipSizeLoop width height fuel (fixZero w >>> 1) (fixZero h >>> 1)
        (mipSizeBody width height (fixZero w) (fixZero h) st)
    else some (mipSizeBody width height (fixZero w) (fixZero h) st)

/-- The four stores `p[0] .. p[3]` of a texel word at offset `off` of the buffer; `none` when
a store falls outside the buffer. -/
def storeTexel (buf : List Nat) (off tmp : Nat) : Option (List Nat) :=
  if off + 4 ≤ buf.length then
    some ((((buf.set off (tmp % 256)).set (off + 1) (tmp / 256 % 256)).set (off + 2)
      (tmp / 65536 % 256)).set (off + 3) (tmp / 16777216 % 256))
  else none

/-- The loop nest shared by `processImage_Copy`, `processImage_Diffuse` and
`processImage_Specular`: faces `n < 6`, rows `y0 <= y < y1`, columns `x < w`; the texel of
face `n` at `(y, x)` is stored at `outBufP + n * faceDataSize + 4 * (y * w) + 4 * x`. -/
def processImage (texel : Nat → Nat → Nat → Nat) (faceDataSize outBufP w y0 y1 : Nat)
    (buf : List Nat) : Option (List Nat) :=
  (List.range 6).foldlM (fun b n =>
    (List.range' y0 (y1 - y0)).foldlM (fun b y =>
      (List.range w).foldlM (fun b x =>
        storeTexel b (outBufP + n * faceDataSize + 4 * (y * w) + 4 * x) (texel n y x)) b) b) buf

/-- The function `SFCubeMapFilter::threadFunction` for rows `y0 <= y < y1` of mip `chain`
of the input chain, passed the mip index `m` and `maxMip`. -/
def threadFunction (E : CubeEnv) (input : List Nat) (faceDataSize outBufP w chain : Nat)
    (m maxMip : Int) (y0 y1 : Nat) (buf : List Nat) : Option (List Nat) :=
  processImage (E.texel (threadFunctionKernel m maxMip) input chain) faceDataSize outBufP w
    y0 y1 buf

/-- The variables carried through the loop over the mip levels: the buffer, the offset
`outBufP - buf`, and `threadCnt`. -/
structure FillState where
  buf : List Nat
  outBufP : Nat
  threadCnt : Nat

/-- One iteration of the loop over the mip levels (source lines 283 to 348). The worker
threads write disjoint rows, so they are run one after the other. -/
def mipStep (E : CubeEnv) (input : List Nat) (w0 h0 : Nat) (S : MipSizes) (faceDataSize : Nat)
    (st : FillState) (m : Nat) : Option FillState :=
  let w := fixZero (w0 >>> m)
  let h := fixZero (h0 >>> m)
  let filled : Option FillState :=
    if w ≤ E.width ∧ h ≤ E.height then
      let threadCnt := if h < 16 then 1 else if h >>> 3 < st.threadCnt then h >>> 3
        else st.threadCnt
      ((List.range threadCnt).foldlM (fun b i =>
        threadFunction E input faceDataSize st.outBufP w m
          ((m : Int) + S.maxMip - ((S.mipCnt : Int) - 1)) S.maxMip
          (i * h / threadCnt) ((i + 1) * h / threadCnt) b) st.buf).map
        fun b => { st with buf := b, threadCnt := threadCnt }
    else some st
  filled.map fun st => { st with outBufP := st.outBufP + 4 * (w * h) }

/-- The header patch of source lines 350 to 360. -/
def patchHeader (E : CubeEnv) (maxMip : Int) (buf : List Nat) : List Nat :=
  let buf := buf.set 10 (buf.getD 10 0 ||| 0x02)
  let buf := buf.set 12 (E.height % 256)
  let buf := buf.set 13 (E.height / 256 % 256)
  let buf := buf.set 16 (E.width % 256)
  let buf := buf.set 17 (E.width / 256 % 256)
  let buf := buf.set 20 (4 * E.width % 256)
  let buf := buf.set 21 (4 * E.width / 256 % 256)
  let buf := buf.set 28 ((maxMip + 1) % 256).toNat
  let buf := buf.set 108 (buf.getD 108 0 ||| 0x08)
  let buf := buf.set 113 (buf.getD 113 0 ||| 0xFE)
  buf.set 128 0x1D

/-- The method `SFCubeMapFilter::convertImage(unsigned char * buf, size_t bufSize)` with
`bufSize = buf.length`: the returned size and the buffer after the call. The type `size_t`
has 64 bits. An input that has passed the checks has no result (`none`) when
`6 * w0 * h0 >= 2 ^ 31`: for the largest of these sizes `inBuf.resize(w0 * h0 * 6)` throws
`std::length_error`, and for all of them the `int` index expressions of the loops
(`n * w * h + ...`, source line 337) overflow. -/
def convertImage (E : CubeEnv) (buf : List Nat) : Option (Nat × List Nat) :=
  let bufSize := buf.length
  if bufSize < 148 then some (bufSize, buf) else
  let w0 := readUInt32Fast buf 16
  let h0 := readUInt32Fast buf 12
  if readUInt32Fast buf 0 ≠ 0x20534444 ∨ readUInt32Fast buf 84 ≠ 0x30315844 ∨
      w0 ≠ h0 ∨ w0 < E.width ∨ w0 &&& (w0 - 1) ≠ 0 ∨
      readUInt32Fast buf 128 ≠ E.dxgiFormat then some (bufSize, buf) else
  match mipSizeLoop E.width E.height 64 w0 h0 ⟨0, 0, 0, -1, 0⟩ with
  | none => none
  | some S =>
    let sizeRequired1 := (S.sizeRequired1 * 8 * 6 + 148) % 2 ^ 64
    let sizeRequired2 := (S.sizeRequired2 * 8 * 6 + 148) % 2 ^ 64
    if bufSize ≠ sizeRequired1 ∧ bufSize ≠ sizeRequired2 then some (bufSize, buf) else
    let faceDataSize := S.faceDataSize * 4 % 2 ^ 64
    if 2 ^ 31 ≤ 6 * w0 * h0 then none else
    let threadCnt := min (max E.hardwareConcurrency 1) 16
    match (List.range S.mipCnt).foldlM (mipStep E buf w0 h0 S faceDataSize)
        ⟨buf, 148, threadCnt⟩ with
    | none => none
    | some st => some ((faceDataSize * 6 + 148) % 2 ^ 64, patchHeader E S.maxMip st.buf)

/-! ## `sfcube.cpp`: the cube-map cache -/

/-- The state of an `SFCubeMapCache`: the map `cachedTextures`, as the function from a key to
the bytes stored under it (the empty vector for a key that has none, as `operator[]`
yields), and a count of the filter runs, which the source does not keep. -/
structure CubeCache where
  cachedTextures : Nat → List Nat
  filterCalls : Nat

/-- The first loop of `SFCubeMapCache::convertImage`: `k` 64-bit words are left. -/
def hashWords (E : CubeEnv) : Nat → Nat → List Nat → Nat
  | 0, h, _ => h
  | k + 1, h, buf => hashWords E k (E.hashStep64 h (leValue (buf.take 8)) % 2 ^ 32) (buf.drop 8)

/-- The hash of the buffer: `bufSize / 8` little-endian 64-bit words, then the
`bufSize % 8` bytes of the tail (source lines 375 to 382). -/
def bufferHash (E : CubeEnv) (buf : List Nat) : Nat :=
  (buf.drop (8 * (buf.length / 8))).foldl (fun h b => E.hashStep8 h b % 2 ^ 32)
    (hashWords E (buf.length / 8) 0xFFFFFFFF buf)

/-- The key `(std::uint64_t(bufSize) << 32) | h` of source line 383. -/
def cacheKey (E : CubeEnv) (buf : List Nat) : Nat :=
  ((buf.length <<< 32) % 2 ^ 64) ||| bufferHash E buf

/-- The method `SFCubeMapCache::convertImage(unsigned char * buf, size_t bufSize)`: the
returned size, the buffer and the cache after the call. `none` when the filter has no result, or when
the bytes of a hit do not fit the buffer. -/
def CubeCache.convertImage (E : CubeEnv) (c : CubeCache) (buf : List Nat) :
    Option (Nat × List Nat × CubeCache) :=
  let k := cacheKey E buf
  let v := c.cachedTextures k
  if 0 < v.length then
    if v.length ≤ buf.length then some (v.length, v ++ buf.drop v.length, c) else none
  else
    match NifSkope.convertImage E buf with
    | none => none
    | some r =>
      let c := { c with filterCalls := c.filterCalls + 1 }
      if r.1 ≠ 0 ∧ r.1 < buf.length then
        some (r.1, r.2, { c with cachedTextures :=
          fun k' => if k' = k then r.2.take r.1 else c.cachedTextures k' })
      else some (r.1, r.2, c)

/-- The sum `4 ^ 0 + 4 ^ 1 + ... + 4 ^ a`: the number of texels of the faces of sizes
`2 ^ a, 2 ^ (a - 1), ..., 1`. -/
def geoSum4 : Nat → Nat
  | 0 => 1
  | a + 1 => geoSum4 a + 4 ^ (a + 1)

/-- The number of texels of one face over the mip levels `w0 >> m`, `m = 0 .. k`, that
are not larger than the target width. -/
def processedTexels (w0 k width : Nat) : Nat :=
  ((((List.range (k + 1)).map fun m => w0 >>> m).filter fun w => decide (w ≤ width)).map
    fun w => w * w).sum

/-- A 148-byte DDS header with a DX10 extension: the given width (offset 16), height
(offset 12) and format code (offset 128), every other field zero. -/
def ddsHeader (w h fmt : Nat) : List Nat :=
  [0x44, 0x44, 0x53, 0x20] ++ List.replicate 8 0 ++ le32 h ++ le32 w ++ List.replicate 64 0 ++
  [0x44, 0x58, 0x31, 0x30] ++ List.replicate 40 0 ++ le32 fmt ++ List.replicate 16 0

/-- A small environment for concrete evaluation: target size 2 by 2, format code 10, four
hardware threads; arbitrary computable functions stand for the texel pipeline and the hash
steps. -/
def sampleEnv : CubeEnv where
  width := 2
  height := 2
  dxgiFormat := 10
  hardwareConcurrency := 4
  texel := fun _ input m n y x => (input.length + 7 * m + 5 * n + 3 * y + x) % 2 ^ 32
  hashStep64 := fun h v => (31 * h + v) % 2 ^ 32
  hashStep8 := fun h v => (31 * h + v) % 2 ^ 32

/-- A cache with no entry and no filter run. -/
def CubeCache.empty : CubeCache := ⟨fun _ => [], 0⟩

/-- The caches that a sequence of `convertImage` calls can lead to from a given cache. -/
inductive CubeCache.Reach (E : CubeEnv) : CubeCache → CubeCache → Prop where
  | refl (c : CubeCache) : CubeCache.Reach E c c
  | step (c c1 c2 : CubeCache) (buf : List Nat) (n : Nat) (out : List Nat) :
      CubeCache.Reach E c c1 → CubeCache.convertImage E c1 buf = some (n, out, c2) →
      CubeCache.Reach E c c2

/-- Two calls of `SFCubeMapCache::convertImage` in a row, the buffer of the second call
holding the same bytes as that of the first: the result of the second call. -/
def CubeCache.convertTwice (E : CubeEnv) (c : CubeCache) (buf : List Nat) :
    Option (Nat × List Nat × CubeCache) :=
  (CubeCache.convertImage E c buf).bind fun r => CubeCache.convertImage E r.2.2 buf

/-! ## Sample streams -/

/-- A stream with every block filled: two triangles, two weights per vertex with five
announced weights (two weight vertices), a colour, two normals, two tangents of either
handedness, and two LOD entries. -/
def skinnedStream : MeshStream :=
  { indexCount := 6, triangles := [⟨0, 1, 2⟩, ⟨2, 1, 3⟩], scaleBits := 0x3F800000,
    weightsPerVertex := 2, positions := [(32767, -32768, 0)], uv0 := [0x3C003800], uv1 := [],
    colors := [(10, 20, 30, 255)], normals := [0x1FF, 0x7FC00],
    tangents := [0x80000001, 0x00000002], weightCount := 5,
    weights := [[(1, 65535), (2, 100)], [(3, 7), (0, 9)]],
    lods := [(3, [⟨0, 1, 2⟩]), (2, [])] }

/-- The minimal stream with the scale 0.5 in place of 1.0. -/
def halfScaleStream : MeshStream :=
  { minimalStream with scaleBits := 0x3F000000 }

/-- The minimal stream with a weight count of 7 and no weights per vertex. -/
def unweightedStream : MeshStream :=
  { minimalStream with weightCount := 7 }

/-! ## Acceptance of an input by `convertImage` -/

/-- The input gets past the early returns of source lines 212 to 221: it has a full header,
the two signatures, a square face size that is not below the target width and has no two
bits set, and the configured format code. -/
def headerChecks (E : CubeEnv) (buf : List Nat) : Prop :=
  148 ≤ buf.length ∧ readUInt32Fast buf 0 = 0x20534444 ∧ readUInt32Fast buf 84 = 0x30315844 ∧
  readUInt32Fast buf 16 = readUInt32Fast buf 12 ∧ E.width ≤ readUInt32Fast buf 16 ∧
  readUInt32Fast buf 16 &&& (readUInt32Fast buf 16 - 1) = 0 ∧
  readUInt32Fast buf 128 = E.dxgiFormat

instance (E : CubeEnv) (buf : List Nat) : Decidable (headerChecks E buf) := by
  unfold headerChecks
  infer_instance

/-- The values of `sizeRequired1` and `sizeRequired2` after source lines 245 and 246, for a
header that declares faces of `w0` by `h0` texels. -/
def acceptedLengths (E : CubeEnv) (w0 h0 : Nat) : Option (Nat × Nat) :=
  (mipSizeLoop E.width E.height 64 w0 h0 ⟨0, 0, 0, -1, 0⟩).map fun S =>
    ((S.sizeRequired1 * 8 * 6 + 148) % 2 ^ 64, (S.sizeRequired2 * 8 * 6 + 148) % 2 ^ 64)

/-- The input gets past the size check of source lines 247 and 248. -/
def lengthAccepted (E : CubeEnv) (buf : List Nat) : Bool :=
  match acceptedLengths E (readUInt32Fast buf 16) (readUInt32Fast buf 12) with
  | none => false
  | some p => decide (buf.length = p.1) || decide (buf.length = p.2)

/-- The input is accepted: `convertImage` gets past every early return and converts it. -/
def accepted (E : CubeEnv) (buf : List Nat) : Prop :=
  headerChecks E buf ∧ lengthAccepted E buf = true

instance (E : CubeEnv) (buf : List Nat) : Decidable (accepted E buf) := by
  unfold accepted
  infer_instance

/-! ## `glnode.cpp`: the comparator of the alpha sort -/

/-- What `compareNodesAlpha` observes of a node through its accessors: `isPresorted()`,
`id()`, whether `findProperty<AlphaProperty>()` finds a property, and `viewDepth()`. The view
depth is finite and is taken as an exact rational. -/
structure Node where
  presorted : Bool
  id : Int
  hasAlpha : Bool
  viewDepth : ℚ
  deriving DecidableEq

/-- The function `static bool compareNodesAlpha(const Node * node1, const Node * node2)`
(source lines 141 to 165). -/
def compareNodesAlpha (node1 node2 : Node) : Bool :=
  let p1 := node1.presorted
  let p2 := node2.presorted
  if p1 && p2 then decide (node1.id < node2.id) else
  let a1 := node1.hasAlpha
  let a2 := node2.hasAlpha
  let d1 := node1.viewDepth
  let d2 := node2.viewDepth
  if a1 = a2 then decide (d1 < d2) else a2

/-! ## The worker bands of a mip level -/

/-- The update of `threadCnt` for a mip of `h` rows (source lines 300 to 303). -/
def nextThreadCnt (h threadCnt : Nat) : Nat :=
  if h < 16 then 1 else if h >>> 3 < threadCnt then h >>> 3 else threadCnt

/-- The rows `y0 <= y < y1` passed to worker `i` of `threadCnt` workers for a mip of `h` rows
(source lines 307 and 308): the pair `(i * h / threadCnt, (i + 1) * h / threadCnt)`. -/
def rowBand (i h threadCnt : Nat) : Nat × Nat :=
  (i * h / threadCnt, (i + 1) * h / threadCnt)

/-- The value of `threadCnt` after the processed mips of the heights `hs`, from the value
`min(max(hardware_concurrency(), 1), 16)` of source line 279. -/
def threadCntAfter (hardwareConcurrency : Nat) (hs : List Nat) : Nat :=
  hs.foldl (fun t h => nextThreadCnt h t) (min (max hardwareConcurrency 1) 16)

/-- The caches that a sequence of `convertImage` calls on buffers shorter than 2^32 bytes can
lead to from a given cache. -/
inductive CubeCache.ReachShort (E : CubeEnv) : CubeCache → CubeCache → Prop where
  | refl (c : CubeCache) : CubeCache.ReachShort E c c
  | step (c c1 c2 : CubeCache) (buf : List Nat) (n : Nat) (out : List Nat) :
      CubeCache.ReachShort E c c1 → buf.length < 2 ^ 32 →
      CubeCache.convertImage E c1 buf = some (n, out, c2) → CubeCache.ReachShort E c c2

/-! ## The decoding loop of `convertImage` -/

/-- The byte offset `i` of the texel of face `n`, row `y`, column `x` in the input buffer, as
source lines 257 to 260 compute it in `size_t`. -/
def decodeOffset (bufSize w0 n y x : Nat) : Nat :=
  let i := (y * w0 % 2 ^ 64 + x) % 2 ^ 64
  let i := i * 8 % 2 ^ 64
  ((i + n * ((bufSize - 148) / 6) % 2 ^ 64) % 2 ^ 64 + 148) % 2 ^ 64

/-- The read `FileBuffer::readUInt64Fast(buf + i)` of source line 261 for the texel of face
`n`, row `y`, column `x`: no value when the eight bytes do not lie inside the buffer. -/
def decodeRead (buf : List Nat) (w0 n y x : Nat) : Option Nat :=
  if decodeOffset buf.length w0 n y x + 8 ≤ buf.length then
    some (readUInt64Fast buf (decodeOffset buf.length w0 n y x))
  else none

/-! ## The downsampling step of `convertImage` -/

/-- The expression `(c0 + c1 + c2 + c3) * 0.25f` of source line 342 for one lane of a
`FloatVector4`, on exact rationals. -/
def boxAverage (c0 c1 c2 c3 : ℚ) : ℚ := (c0 + c1 + c2 + c3) * (1 / 4)

/-- Body of the downsampling loop (source lines 333 to 343) for face `n`, row `y`, column `x`
of the smaller mip: four reads of `inBuf` and one store into it. `inBuf` holds one lane of
the texels; no result when an index is outside the vector. -/
def downsampleStep (w h : Nat) (inBuf : List ℚ) (n y x : Nat) : Option (List ℚ) :=
  let w2 := (w + 1) >>> 1
  let h2 := (h + 1) >>> 1
  let x0 := x <<< 1
  let x1 := x0 + (if x0 + 1 < w then 1 else 0)
  let y0 := y <<< 1
  let y1 := y0 + (if y0 + 1 < h then 1 else 0)
  (inBuf[n * w * h + (y0 * w + x0)]?).bind fun c0 =>
  (inBuf[n * w * h + (y0 * w + x1)]?).bind fun c1 =>
  (inBuf[n * w * h + (y1 * w + x0)]?).bind fun c2 =>
  (inBuf[n * w * h + (y1 * w + x1)]?).bind fun c3 =>
  if n * w2 * h2 + (y * w2 + x) < inBuf.length then
    some (inBuf.set (n * w2 * h2 + (y * w2 + x)) (boxAverage c0 c1 c2 c3))
  else none

/-- The downsampling of a mip of `w` by `h` texels in place (source lines 327 to 346): the
loop nest over the faces, rows and columns of the smaller mip, then the resize of `inBuf`.
No result when the `int` index expressions overflow. -/
def downsample (w h : Nat) (inBuf : List ℚ) : Option (List ℚ) :=
  if 2 ^ 31 ≤ 6 * w * h then none else
  let w2 := (w + 1) >>> 1
  let h2 := (h + 1) >>> 1
  ((List.range 6).foldlM (fun b n =>
    (List.range h2).foldlM (fun b y =>
      (List.range w2).foldlM (fun b x => downsampleStep w h b n y x) b) b) inBuf).map
    fun b => resize (w2 * h2 * 6) b

/-- The 2x2 box filter of a buffer `old` of six faces of `w` by `h` texels, as the
specification states it: a quarter of the sum of the texels of face `n` at the rows `2 * y`
and `min (2 * y + 1) (h - 1)` and the columns `2 * x` and `min (2 * x + 1) (w - 1)`. -/
def boxFilterSpec (w h : Nat) (old : List ℚ) (n y x : Nat) : ℚ :=
  (old.getD (n * w * h + (2 * y * w + 2 * x)) 0
    + old.getD (n * w * h + (2 * y * w + min (2 * x + 1) (w - 1))) 0
    + old.getD (n * w * h + (min (2 * y + 1) (h - 1) * w + 2 * x)) 0
    + old.getD (n * w * h + (min (2 * y + 1) (h - 1) * w + min (2 * x + 1) (w - 1))) 0) / 4

/-- The buffer `b` in the course of the downsampling of `old`, when the texels of the smaller
mip with an index below `t` have been written: these hold the box filter of `old`, and the
entries from `t` on are those of `old`. -/
def Downsampled (w h : Nat) (old : List ℚ) (t : Nat) (b : List ℚ) : Prop :=
  b.length = old.length ∧
  (∀ n y x, n < 6 → y < (h + 1) / 2 → x < (w + 1) / 2 →
    n * ((w + 1) / 2) * ((h + 1) / 2) + (y * ((w + 1) / 2) + x) < t →
    b[n * ((w + 1) / 2) * ((h + 1) / 2) + (y * ((w + 1) / 2) + x)]?
      = some (boxFilterSpec w h old n y x)) ∧
  ∀ i, t ≤ i → b[i]? = old[i]?

/-! ## `uvedit.cpp`: the export of the UV data of a `.mesh` file -/

/-- Modelled from the spec: `FileBuffer::readUInt32()` of `filebuf.hpp` at the read position
`pos`: the little-endian 32-bit value and the new position; no result (an exception) when
fewer than four bytes are left. -/
def fbReadUInt32 (data : List Nat) (pos : Nat) : Option (Nat × Nat) :=
  if pos + 4 ≤ data.length then some (readUInt32Fast data pos, pos + 4) else none

/-- Modelled from the spec: `FileBuffer::readUInt64()` of `filebuf.hpp` at the read position
`pos`; no result (an exception) when fewer than eight bytes are left. -/
def fbReadUInt64 (data : List Nat) (pos : Nat) : Option (Nat × Nat) :=
  if pos + 8 ≤ data.length then some (readUInt64Fast data pos, pos + 8) else none

/-- Modelled from the spec: `FileBuffer::writeUInt32Fast(p, v)` of `filebuf.hpp`, the four
little-endian bytes of `v` stored at offset `off`. -/
def writeUInt32Fast (buf : List Nat) (off v : Nat) : List Nat :=
  (((buf.set off (v % 256)).set (off + 1) (v / 256 % 256)).set (off + 2)
    (v / 65536 % 256)).set (off + 3) (v / 16777216 % 256)

/-- The part of `UVWidget::exportSFMesh` that finds the position of the UV data in the file
(source lines 1726 to 1749), for a widget that holds `numTex` texture coordinates: the offset
of `uvData`, or no result when the method returns without writing. `setPosition` moves the
read position without a check. -/
def exportOffset (data : List Nat) (numTex : Nat) : Option Nat :=
  (fbReadUInt32 data 0).bind fun version =>
  if ((version.1 + 2 ^ 32 - 1) % 2 ^ 32) &&& (2 ^ 32 - 2) ≠ 0 then none else
  (fbReadUInt32 data version.2).bind fun numIndices =>
  (fbReadUInt64 data (numIndices.2 + numIndices.1 * 2)).bind fun skipped =>
  (fbReadUInt32 data skipped.2).bind fun numVertices =>
  (fbReadUInt32 data (numVertices.2 + numVertices.1 * 6)).bind fun numTexCoords =>
  if numTexCoords.1 ≠ numTex then none else
  if numTexCoords.2 + numTexCoords.1 * 4 > data.length then none else
  some numTexCoords.2

/-- The loop that stores the new UV data (source lines 1752 to 1756): the packed words are
written one after the other from offset `off` on. -/
def storeWords : List Nat → Nat → List Nat → List Nat
  | buf, _, [] => buf
  | buf, off, v :: vs => storeWords (writeUInt32Fast buf off v) (off + 4) vs

/-- The method `UVWidget::exportSFMesh` on the bytes of the mesh file and the texture
coordinates of the widget: the bytes written to the output file, or no result when the
method returns before writing. `pack` stands for the conversion
`FloatVector4(v[0], v[1], 0, 0).convertToFloat16()` of `fp32vec4.hpp`; the file dialog and
the opening of the output file are taken to succeed. -/
def exportSFMesh (pack : Vector2 → Nat) (texcoords : List Vector2) (data : List Nat) :
    Option (List Nat) :=
  (exportOffset data texcoords.length).map fun off =>
    storeWords data off (texcoords.map fun v => pack v % 2 ^ 32)

/-- The stream position at which `MeshFile::readMesh` reads the first packed UV word of
channel 0 (source lines 50 to 97), for a new `MeshFile` over the bytes `data`: the reads of
`readMesh` up to `in >> numCoord1`, keeping only the stream. No result when `readMesh`
returns before it reaches the UV block. -/
def uvReadPosition (data : List Nat) : Option Nat :=
  if data = [] then none else
  let magic := readU32 data
  if magic.1 ≠ 1 then none else
  let indicesSize := readU32 magic.2
  let tr := fillLoop (fun _ => readTriangle) (indicesSize.1 / 3) 0
    (resize (indicesSize.1 / 3) []) indicesSize.2
  let scale := readFloat tr.2
  if scale.1.le0 then none else
  let numWeightsPerVertex := readU32 scale.2
  let numPositions := readU32 numWeightsPerVertex.2
  if 2 ^ 31 ≤ numPositions.1 then none else
  let pos := resize numPositions.1 ([] : List Vector3)
  let pr := fillLoop (fun _ => readPosition scale.1) pos.length 0 pos numPositions.2
  let numCoord1 := readU32 pr.2
  some (data.length - numCoord1.2.length)

/-- A stream of 40 bytes with an index count of 4, which both readers accept: `readMesh`
takes one triangle, the scale 1.0 at offset 14, one position and one UV word at offset 36;
`exportSFMesh` skips eight bytes of indices and finds no vertex and one UV word. -/
def oddIndexStream : List Nat :=
  [1, 0, 0, 0, 4, 0, 0, 0, 0, 0, 0, 0, 0, 0, 0, 0, 0x80, 0x3F, 0, 0, 0, 0, 1, 0, 0, 0, 0, 0,
   1, 0, 0, 0, 1, 0, 0, 0, 0x00, 0x38, 0x00, 0x3C]

/-- The three checks at which `readMesh`, run on a new `MeshFile`, returns 0 before it reads
the vertex data (source lines 41, 52 and 68): the value is `true` when the data is not
empty, the magic number is 1 and the scale is not `<= 0`. -/
def pastChecks (data : List Nat) : Bool :=
  if data = [] then false else
  let magic := readU32 data
  if magic.1 ≠ 1 then false else
  let indicesSize := readU32 magic.2
  let tr := fillLoop (fun _ => readTriangle) (indicesSize.1 / 3) 0
    (resize (indicesSize.1 / 3) ([] : List Triangle)) indicesSize.2
  let scale := readFloat tr.2
  !scale.1.le0

/-- The head of `readMesh` run on a new `MeshFile` (source lines 41 to 89): the position
count, the number of weights per vertex, the object and the stream at the point where the
first UV count is read (line 91). There is no such point when `readMesh` returns at one of
the three checks or when the size of `positions` does not fit an `int`. -/
def uvBlockEntry (data : List Nat) : Option (Nat × Nat × MeshFile × Stream) :=
  if data = [] then none else
  let magic := readU32 data
  if magic.1 ≠ 1 then none else
  let indicesSize := readU32 magic.2
  let tr := fillLoop (fun _ => readTriangle) (indicesSize.1 / 3) 0
    (resize (indicesSize.1 / 3) ([] : List Triangle)) indicesSize.2
  let scale := readFloat tr.2
  if scale.1.le0 then none else
  let numWeightsPerVertex := readU32 scale.2
  let numPositions := readU32 numWeightsPerVertex.2
  if 2 ^ 31 ≤ numPositions.1 then none else
  let pos := resize numPositions.1 ([] : List Vector3)
  let pr := fillLoop (fun _ => readPosition scale.1) pos.length 0 pos numPositions.2
  some (numPositions.1, numWeightsPerVertex.1,
    { MeshFile.fresh data with triangles := tr.1, weightsPerVertex := numWeightsPerVertex.1,
                               positions := pr.1 }, pr.2)

/-- A stream cut off after its position count: magic 1, no index, scale 1.0, no weight per
vertex and one position announced, of which no byte is left. -/
def cutStream : List Nat := [1, 0, 0, 0, 0, 0, 0, 0, 0, 0, 128, 63, 0, 0, 0, 0, 1, 0, 0, 0]

/-! # Theorems -/

/-! ## Lemmas on the stream reader -/

theorem readUInt_length_le (n : Nat) (s : Stream) :
    (readUInt n s).2.length ≤ s.length - n := by
  unfold readUInt
  split
  · simp
  · simp

theorem readU32_le32_mod (n : Nat) (rest : Stream) :
    readU32 (le32 n ++ rest) = (n % 2 ^ 32, rest) := by
  simp only [readU32, readUInt, le32, List.cons_append, List.nil_append, List.length_cons]
  rw [if_pos (by omega)]
  simp only [List.take_succ_cons, List.take_zero, List.drop_succ_cons, List.drop_zero, leValue]
  congr 1
  omega

theorem readU32_le32 (n : Nat) (rest : Stream) (h : n < 2 ^ 32) :
    readU32 (le32 n ++ rest) = (n, rest) := by
  rw [readU32_le32_mod, Nat.mod_eq_of_lt h]

theorem readUInt_drop (n : Nat) (s : Stream) (h : n ≤ s.length) :
    (readUInt n s).2 = s.drop n := by
  simp [readUInt, h]

theorem readTriangle_drop (s : Stream) (h : 6 ≤ s.length) :
    (readTriangle s).2 = s.drop 6 := by
  simp only [readTriangle, readU16]
  have h1 : (readUInt 2 s).2 = s.drop 2 := readUInt_drop 2 s (by omega)
  have h2 : (readUInt 2 (s.drop 2)).2 = (s.drop 2).drop 2 :=
    readUInt_drop 2 _ (by rw [List.length_drop]; omega)
  have h3 : (readUInt 2 ((s.drop 2).drop 2)).2 = ((s.drop 2).drop 2).drop 2 :=
    readUInt_drop 2 _ (by rw [List.length_drop, List.length_drop]; omega)
  rw [h1, h2, h3]
  simp

theorem fillLoop_drop {α : Type} (rd : Nat → Stream → α × Stream) (k : Nat)
    (hrd : ∀ i s, k ≤ s.length → (rd i s).2 = s.drop k) (n i : Nat) (v : List α) (s : Stream)
    (h : k * n ≤ s.length) : (fillLoop rd n i v s).2 = s.drop (k * n) := by
  induction n generalizing i v s with
  | zero => simp [fillLoop]
  | succ n ih =>
    have h3 : k * (n + 1) = k + k * n := by ring
    simp only [fillLoop]
    rw [hrd i s (by omega), ih _ _ _ (by rw [List.length_drop]; omega), List.drop_drop, h3]

theorem readU16_le16 (n : Nat) (rest : Stream) (h : n < 2 ^ 16) :
    readU16 (le16 n ++ rest) = (n, rest) := by
  simp only [readU16, readUInt, le16, List.cons_append, List.nil_append, List.length_cons]
  rw [if_pos (by omega)]
  simp only [List.take_succ_cons, List.take_zero, List.drop_succ_cons, List.drop_zero, leValue]
  congr 1
  omega

theorem readU32_short (s : Stream) (h : s.length < 4) : readU32 s = (0, []) := by
  simp only [readU32, readUInt]
  rw [if_neg (by omega)]

theorem readU32_ne_one (s : Stream) (hb : IsBytes s) (hp : ¬ [1, 0, 0, 0] <+: s) :
    (readU32 s).1 ≠ 1 := by
  match s, hb, hp with
  | [], _, _ => simp [readU32, readUInt]
  | [_], _, _ => simp [readU32, readUInt]
  | [_, _], _, _ => simp [readU32, readUInt]
  | [_, _, _], _, _ => simp [readU32, readUInt]
  | a :: b :: c :: d :: rest, hb, hp =>
    have ha : a < 256 := hb a (by simp)
    have hb' : b < 256 := hb b (by simp)
    have hc : c < 256 := hb c (by simp)
    have hd : d < 256 := hb d (by simp)
    simp only [readU32, readUInt, List.length_cons]
    rw [if_pos (by omega)]
    simp only [List.take_succ_cons, List.take_zero, leValue]
    intro h
    apply hp
    have h1 : a = 1 := by omega
    have h2 : b = 0 := by omega
    have h3 : c = 0 := by omega
    have h4 : d = 0 := by omega
    subst h1 h2 h3 h4
    exact ⟨rest, rfl⟩

theorem readTriangle_length_le (s : Stream) :
    (readTriangle s).2.length ≤ s.length - 6 := by
  have h1 := readUInt_length_le 2 s
  have h2 := readUInt_length_le 2 (readUInt 2 s).2
  have h3 := readUInt_length_le 2 (readUInt 2 (readUInt 2 s).2).2
  simp only [readTriangle, readU16]
  omega

theorem fillLoop_length_le {α : Type} (rd : Nat → Stream → α × Stream) (k : Nat)
    (hrd : ∀ i s, (rd i s).2.length ≤ s.length - k) (n i : Nat) (v : List α) (s : Stream) :
    (fillLoop rd n i v s).2.length ≤ s.length - k * n := by
  induction n generalizing i v s with
  | zero => simp [fillLoop]
  | succ n ih =>
    simp only [fillLoop]
    have h1 := ih (i + 1) (v.set i (rd i s).1) (rd i s).2
    have h2 := hrd i s
    have h3 : k * (n + 1) = k * n + k := by ring
    omega

theorem mapFrom_const {α β : Type} (f : β → α) (i : Nat) (xs : List β) :
    mapFrom (fun _ => f) i xs = xs.map f := by
  induction xs generalizing i with
  | nil => rfl
  | cons x xs ih => simp [mapFrom, ih]

theorem mapFrom_length {α β : Type} (f : Nat → β → α) (i : Nat) (xs : List β) :
    (mapFrom f i xs).length = xs.length := by
  induction xs generalizing i with
  | nil => rfl
  | cons x xs ih => simp [mapFrom, ih]

theorem fillLoop_encoded_idx {α β : Type} (rd : Nat → Stream → α × Stream)
    (enc : β → List Nat) (dec : Nat → β → α) (xs : List β)
    (hrd : ∀ i x, x ∈ xs → ∀ rest, rd i (enc x ++ rest) = (dec i x, rest))
    (pre mid post : List α) (rest : Stream) (hmid : mid.length = xs.length) :
    fillLoop rd xs.length pre.length (pre ++ mid ++ post) (xs.flatMap enc ++ rest)
      = (pre ++ mapFrom dec pre.length xs ++ post, rest) := by
  induction xs generalizing pre mid with
  | nil =>
    have : mid = [] := List.length_eq_zero.mp hmid
    simp [fillLoop, this, mapFrom]
  | cons x xs ih =>
    match mid, hmid with
    | a :: mid', hmid =>
      have hx := hrd pre.length x (by simp) (xs.flatMap enc ++ rest)
      have hset : (pre ++ a :: mid' ++ post).set pre.length (dec pre.length x)
          = (pre ++ [dec pre.length x]) ++ mid' ++ post := by
        simp [List.set_append_right]
      simp only [List.length_cons, fillLoop, List.flatMap_cons, List.append_assoc, hx]
      have hih := ih (fun i y hy r => hrd i y (by simp [hy]) r) (pre ++ [dec pre.length x]) mid'
        (by simpa using hmid)
      simp only [List.length_append, List.length_singleton, List.append_assoc] at hih hset
      rw [hset, hih]
      simp [mapFrom]

theorem fillLoop_encoded {α β : Type} (rd : Nat → Stream → α × Stream) (enc : β → List Nat)
    (dec : β → α) (xs : List β)
    (hrd : ∀ i x, x ∈ xs → ∀ rest, rd i (enc x ++ rest) = (dec x, rest))
    (pre mid post : List α) (rest : Stream) (hmid : mid.length = xs.length) :
    fillLoop rd xs.length pre.length (pre ++ mid ++ post) (xs.flatMap enc ++ rest)
      = (pre ++ xs.map dec ++ post, rest) := by
  rw [fillLoop_encoded_idx rd enc (fun _ => dec) xs hrd pre mid post rest hmid, mapFrom_const]

theorem resize_nil_length {α : Type} [Inhabited α] (n : Nat) :
    (resize n ([] : List α)).length = n := by
  simp [resize]

theorem fillLoop_resize_encoded {α β : Type} [Inhabited α] (rd : Nat → Stream → α × Stream)
    (enc : β → List Nat) (dec : β → α) (xs : List β)
    (hrd : ∀ i x, x ∈ xs → ∀ rest, rd i (enc x ++ rest) = (dec x, rest))
    (v : List α) (rest : Stream) :
    fillLoop rd xs.length 0 (resize xs.length v) (xs.flatMap enc ++ rest)
      = (xs.map dec, rest) := by
  have h := fillLoop_encoded rd enc dec xs hrd [] (resize xs.length v) [] rest
    (by simp [resize]; omega)
  simpa using h

theorem fillLoop_resize_encoded_idx {α β : Type} [Inhabited α]
    (rd : Nat → Stream → α × Stream) (enc : β → List Nat) (dec : Nat → β → α) (xs : List β)
    (hrd : ∀ i x, x ∈ xs → ∀ rest, rd i (enc x ++ rest) = (dec i x, rest))
    (v : List α) (rest : Stream) :
    fillLoop rd xs.length 0 (resize xs.length v) (xs.flatMap enc ++ rest)
      = (mapFrom dec 0 xs, rest) := by
  have h := fillLoop_encoded_idx rd enc dec xs hrd [] (resize xs.length v) [] rest
    (by simp [resize]; omega)
  simpa using h

theorem readTriangle_enc (t : Triangle) (ht : t.Valid) (rest : Stream) :
    readTriangle (encTriangle t ++ rest) = (t, rest) := by
  obtain ⟨h0, h1, h2⟩ := ht
  simp only [readTriangle, encTriangle, List.append_assoc]
  rw [readU16_le16 _ _ h0]
  simp only []
  rw [readU16_le16 _ _ h1]
  simp only []
  rw [readU16_le16 _ _ h2]

/-- What `readMesh` does on a stream that holds a complete header with magic 1. -/
theorem readMesh_header (C : Codec) (m : MeshFile) (indexCount scaleBits : Nat)
    (tris : List Triangle) (rest : List Nat)
    (hi : indexCount < 2 ^ 32) (hs : scaleBits < 2 ^ 32) (hl : tris.length = indexCount / 3)
    (hv : ∀ t ∈ tris, t.Valid) (hd : m.data = encHeader 1 indexCount tris scaleBits ++ rest) :
    readMesh C m = if (float32OfBits scaleBits).le0 then some (0, { m with triangles := tris })
      else readMeshBody C (float32OfBits scaleBits) { m with triangles := tris } rest := by
  have hne : m.data ≠ [] := by simp [hd, encHeader, le32]
  unfold readMesh
  rw [if_neg hne]
  simp only [hd, encHeader, List.append_assoc, readU32_le32 1 _ (by norm_num),
    readU32_le32 _ _ hi]
  rw [if_neg (by simp)]
  rw [← hl, fillLoop_resize_encoded (fun _ => readTriangle) encTriangle id tris
    (fun _ t ht r => readTriangle_enc t (hv t ht) r)]
  simp only [List.map_id, readFloat, readU32_le32 _ _ hs]

theorem readI16_enc (x : Int) (hlo : -32768 ≤ x) (hhi : x ≤ 32767) (rest : Stream) :
    readI16 (encI16 x ++ rest) = (x, rest) := by
  have hn : (x % 65536).toNat < 2 ^ 16 := by omega
  simp only [readI16, encI16, readU16_le16 _ _ hn, toInt16]
  congr 1
  split <;> omega

theorem readPosition_enc (scale : Flt) (p : Int × Int × Int)
    (hp : (-32768 ≤ p.1 ∧ p.1 ≤ 32767) ∧ (-32768 ≤ p.2.1 ∧ p.2.1 ≤ 32767) ∧
      (-32768 ≤ p.2.2 ∧ p.2.2 ≤ 32767)) (rest : Stream) :
    readPosition scale (encPosition p ++ rest) = (decPosition scale p, rest) := by
  obtain ⟨⟨h1, h2⟩, ⟨h3, h4⟩, h5, h6⟩ := hp
  simp only [readPosition, encPosition, List.append_assoc, readI16_enc _ h1 h2,
    readI16_enc _ h3 h4, readI16_enc _ h5 h6, decPosition]

theorem readCoord_enc (C : Codec) (w : Nat) (hw : w < 2 ^ 32) (rest : Stream) :
    readCoord C (le32 w ++ rest) = (decCoord C w, rest) := by
  simp only [readCoord, readU32_le32 _ _ hw, decCoord]

theorem readColor_enc (c : Nat × Nat × Nat × Nat) (rest : Stream) :
    readColor (encColor c ++ rest) = (decColor c, rest) := by
  simp [readColor, encColor, readU8, readUInt, leValue, decColor]

theorem readNormal_enc (C : Codec) (w : Nat) (hw : w < 2 ^ 32) (rest : Stream) :
    readNormal C (le32 w ++ rest) = ((UnpackUDEC3 C w).1, rest) := by
  simp only [readNormal, readU32_le32 _ _ hw]

theorem readWeightPairs_enc (wpv : Nat) (k j : Nat) (ps : List (Nat × Nat)) (rest : Stream)
    (hlen : ps.length = min wpv (j + k) - min wpv j)
    (hv : ∀ p ∈ ps, p.1 < 2 ^ 16 ∧ p.2 < 2 ^ 16) :
    readWeightPairs wpv k j (encWeight ps ++ rest)
      = (ps ++ List.replicate (k - ps.length) (0, 0), rest) := by
  induction k generalizing j ps with
  | zero =>
    have : ps = [] := List.length_eq_zero.mp (by omega)
    subst this
    simp [readWeightPairs, encWeight]
  | succ k ih =>
    unfold readWeightPairs
    by_cases hj : j < wpv
    · rw [if_pos hj]
      match ps, hlen, hv with
      | [], hlen, _ => simp at hlen; omega
      | p :: ps', hlen, hv =>
        have hp := hv p (by simp)
        have hih := ih (j + 1) ps' (by simp at hlen; omega)
          (fun q hq => hv q (by simp [hq]))
        have henc : encWeight (p :: ps') ++ rest
            = le16 p.1 ++ (le16 p.2 ++ (encWeight ps' ++ rest)) := by
          simp [encWeight]
        rw [henc, readU16_le16 _ _ hp.1]
        simp only []
        rw [readU16_le16 _ _ hp.2]
        simp only []
        rw [hih]
        simp
    · rw [if_neg hj]
      have : ps = [] := List.length_eq_zero.mp (by omega)
      subst this
      have hih := ih (j + 1) [] (by simp; omega) (by simp)
      simp only [encWeight, List.flatMap_nil, List.nil_append, List.length_nil,
        Nat.sub_zero] at hih ⊢
      rw [hih]
      simp [List.replicate_succ]

theorem readWeight_enc (wpv i : Nat) (ps : List (Nat × Nat)) (rest : Stream)
    (hlen : ps.length = min wpv 8) (hv : ∀ p ∈ ps, p.1 < 2 ^ 16 ∧ p.2 < 2 ^ 16) :
    readWeight wpv i (encWeight ps ++ rest) = (decWeight i ps, rest) := by
  simp only [readWeight, decWeight]
  rw [readWeightPairs_enc wpv 8 0 ps rest (by simp [hlen]) hv]

theorem lodLoop_encoded (xs : List (Nat × List Triangle))
    (hxs : ∀ l ∈ xs, l.1 < 2 ^ 32 ∧ l.2.length = l.1 / 3 ∧ ∀ t ∈ l.2, t.Valid)
    (pre mid post : List (List Triangle)) (rest : Stream) (hmid : mid.length = xs.length) :
    lodLoop xs.length pre.length (pre ++ mid ++ post) (xs.flatMap encLod ++ rest)
      = (pre ++ xs.map Prod.snd ++ post, rest) := by
  induction xs generalizing pre mid with
  | nil =>
    have : mid = [] := List.length_eq_zero.mp hmid
    simp [lodLoop, this]
  | cons x xs ih =>
    match mid, hmid with
    | a :: mid', hmid =>
      obtain ⟨h1, h2, h3⟩ := hxs x (by simp)
      have hset : (pre ++ a :: mid' ++ post).set pre.length x.2
          = (pre ++ [x.2]) ++ mid' ++ post := by
        simp [List.set_append_right]
      have hih := ih (fun y hy => hxs y (by simp [hy])) (pre ++ [x.2]) mid'
        (by simpa using hmid)
      simp only [List.length_append, List.length_singleton, List.append_assoc] at hih hset
      simp only [List.length_cons, lodLoop, List.flatMap_cons, encLod, List.append_assoc,
        readU32_le32 _ _ h1]
      rw [← h2, fillLoop_resize_encoded (fun _ => readTriangle) encTriangle id x.2
        (fun _ t ht r => readTriangle_enc t (h3 t ht) r)]
      simp only [List.map_id]
      rw [hset]
      rw [hih]
      simp

theorem tangentLoop_encoded (C : Codec) (xs : List Nat) (hxs : ∀ w ∈ xs, w < 2 ^ 32)
    (m : MeshFile) (preT midT preBi midBi : List Vector3) (preB midB : List Vector4)
    (rest : Stream)
    (hT : m.tangents = preT ++ midT) (hB : m.tangentsBasis = preB ++ midB)
    (hBi : m.bitangents = preBi ++ midBi)
    (hlT : midT.length = xs.length) (hlB : midB.length = xs.length)
    (hlBi : midBi.length = xs.length)
    (hpB : preB.length = preT.length) (hpBi : preBi.length = preT.length)
    (hn : preT.length + xs.length ≤ m.normals.length) :
    tangentLoop C xs.length preT.length m (xs.flatMap le32 ++ rest)
      = some ({ m with
          tangents := preT ++ xs.map (fun n => (UnpackUDEC3 C n).1),
          tangentsBasis := preB ++ xs.map (decTangentBasis C),
          bitangents := preBi ++ mapFrom (decBitangent C m.normals) preT.length xs }, rest) := by
  induction xs generalizing m preT midT preBi midBi preB midB with
  | nil =>
    have h1 : midT = [] := List.length_eq_zero.mp hlT
    have h2 : midB = [] := List.length_eq_zero.mp hlB
    have h3 : midBi = [] := List.length_eq_zero.mp hlBi
    subst h1 h2 h3
    cases m
    simp only [List.append_nil] at hT hB hBi
    simp [tangentLoop, mapFrom, hT, hB, hBi]
  | cons x xs ih =>
    match midT, midB, midBi, hlT, hlB, hlBi, hT, hB, hBi with
    | a :: midT', b :: midB', c :: midBi', hlT, hlB, hlBi, hT, hB, hBi =>
      have hx := hxs x (by simp)
      simp only [List.length_cons] at hn hlT hlB hlBi
      simp only [List.length_cons, tangentLoop, List.flatMap_cons, List.append_assoc,
        readU32_le32 _ _ hx]
      have hc : preT.length < m.tangentsBasis.length ∧ preT.length < m.bitangents.length ∧
          preT.length < m.normals.length := by
        rw [hB, hBi]
        simp only [List.length_append, List.length_cons]
        omega
      rw [if_pos hc]
      have hih := ih (fun w hw => hxs w (by simp [hw]))
        { m with
          tangents := m.tangents.set preT.length (UnpackUDEC3 C x).1,
          tangentsBasis := m.tangentsBasis.set preT.length (decTangentBasis C x),
          bitangents := m.bitangents.set preT.length (decBitangent C m.normals preT.length x) }
        (preT ++ [(UnpackUDEC3 C x).1]) midT'
        (preBi ++ [decBitangent C m.normals preT.length x]) midBi'
        (preB ++ [decTangentBasis C x]) midB'
        (by simp [hT, List.set_append_right])
        (by simp only [hB, ← hpB]; simp [List.set_append_right])
        (by simp only [hBi, ← hpBi]; simp [List.set_append_right])
        (by omega) (by omega) (by omega)
        (by simp [hpB]) (by simp [hpBi])
        (by simp only [List.length_append, List.length_singleton]; omega)
      simp only [List.length_append, List.length_singleton] at hih
      have hm : ({ m with
          tangents := m.tangents.set preT.length (UnpackUDEC3 C x).1,
          tangentsBasis := m.tangentsBasis.set preT.length
            ⟨(UnpackUDEC3 C x).1.x, (UnpackUDEC3 C x).1.y, (UnpackUDEC3 C x).1.z,
              if (UnpackUDEC3 C x).2 then Flt.fin 1 else Flt.fin (-1)⟩,
          bitangents := m.bitangents.set preT.length
            (if (UnpackUDEC3 C x).2 then
              Vector3.crossproduct (m.normals.getD preT.length default) (UnpackUDEC3 C x).1
            else
              Vector3.crossproduct (UnpackUDEC3 C x).1 (m.normals.getD preT.length default)) }
          : MeshFile) = { m with
          tangents := m.tangents.set preT.length (UnpackUDEC3 C x).1,
          tangentsBasis := m.tangentsBasis.set preT.length (decTangentBasis C x),
          bitangents := m.bitangents.set preT.length
            (decBitangent C m.normals preT.length x) } := rfl
      rw [hm, hih]
      simp [mapFrom]

/-! ## The blocks of `readMesh` on a well-formed stream -/

theorem readCoords0_enc (C : Codec) (m : MeshFile) (uv : List Nat) (rest : Stream)
    (hm : m.coords = []) (hl : uv.length < 2 ^ 31) (hv : ∀ w ∈ uv, w < 2 ^ 32) :
    readCoords0 C m (le32 uv.length ++ (uv.flatMap le32 ++ rest))
      = some ({ m with coords := [uv.map (decCoord C)] }, rest) := by
  unfold readCoords0
  simp only [readU32_le32 _ _ (show uv.length < 2 ^ 32 by omega), hm, List.nil_append]
  rw [if_neg (by omega)]
  simp only [List.getD_cons_zero, resize_nil_length]
  rw [fillLoop_resize_encoded (fun _ => readCoord C) le32 (decCoord C) uv
    (fun _ w hw r => readCoord_enc C w (hv w hw) r)]
  simp

theorem readCoords1_enc (C : Codec) (m : MeshFile) (c0 : List Vector2) (uv : List Nat)
    (rest : Stream)
    (hm : m.coords = [c0]) (hl : uv.length < 2 ^ 31) (hv : ∀ w ∈ uv, w < 2 ^ 32) :
    readCoords1 C m (le32 uv.length ++ (uv.flatMap le32 ++ rest))
      = some ({ m with coords := [c0, uv.map (decCoord C)] }, rest) := by
  unfold readCoords1
  simp only [readU32_le32 _ _ (show uv.length < 2 ^ 32 by omega), hm]
  rw [if_neg (by omega)]
  have hg : ([c0] ++ [([] : List Vector2)]).getD 1 [] = [] := rfl
  simp only [hg, resize_nil_length]
  rw [fillLoop_resize_encoded (fun _ => readCoord C) le32 (decCoord C) uv
    (fun _ w hw r => readCoord_enc C w (hv w hw) r)]
  simp

theorem readColors_enc (m : MeshFile) (cs : List (Nat × Nat × Nat × Nat)) (rest : Stream)
    (hm : m.colors = []) (hl : cs.length < 2 ^ 31) :
    readColors m (le32 cs.length ++ (cs.flatMap encColor ++ rest))
      = some ({ m with colors := cs.map decColor }, rest) := by
  unfold readColors
  simp only [readU32_le32 _ _ (show cs.length < 2 ^ 32 by omega), hm, List.length_nil,
    Nat.add_zero]
  rw [if_neg (by omega)]
  have hr : (if 0 < cs.length then resize cs.length ([] : List Color4) else [])
      = resize cs.length [] := by
    split
    · rfl
    · have : cs.length = 0 := by omega
      simp [this, resize]
  rw [hr, fillLoop_resize_encoded (fun _ => readColor) encColor decColor cs
    (fun _ c _ r => readColor_enc c r)]

theorem readNormals_enc (C : Codec) (m : MeshFile) (ns : List Nat) (rest : Stream)
    (hm : m.normals = []) (hl : ns.length < 2 ^ 31) (hv : ∀ w ∈ ns, w < 2 ^ 32) :
    readNormals C m (le32 ns.length ++ (ns.flatMap le32 ++ rest))
      = some ({ m with normals := ns.map fun n => (UnpackUDEC3 C n).1 }, rest) := by
  unfold readNormals
  simp only [readU32_le32 _ _ (show ns.length < 2 ^ 32 by omega), hm, List.length_nil,
    Nat.add_zero]
  rw [if_neg (by omega)]
  have hr : (if 0 < ns.length then resize ns.length ([] : List Vector3) else [])
      = resize ns.length [] := by
    split
    · rfl
    · have : ns.length = 0 := by omega
      simp [this, resize]
  simp only [hr, resize_nil_length]
  rw [fillLoop_resize_encoded (fun _ => readNormal C) le32 (fun n => (UnpackUDEC3 C n).1) ns
    (fun _ w hw r => readNormal_enc C w (hv w hw) r)]

theorem readTangents_enc (C : Codec) (m : MeshFile) (ts : List Nat) (rest : Stream)
    (hT : m.tangents = []) (hB : m.tangentsBasis = []) (hBi : m.bitangents = [])
    (hl : ts.length ≤ m.normals.length) (hl31 : ts.length < 2 ^ 31)
    (hv : ∀ w ∈ ts, w < 2 ^ 32) :
    readTangents C m (le32 ts.length ++ (ts.flatMap le32 ++ rest))
      = some ({ m with
          tangents := ts.map (fun n => (UnpackUDEC3 C n).1),
          tangentsBasis := ts.map (decTangentBasis C),
          bitangents := mapFrom (decBitangent C m.normals) 0 ts }, rest) := by
  unfold readTangents
  simp only [readU32_le32 _ _ (show ts.length < 2 ^ 32 by omega), hT, hB, hBi,
    List.length_nil, Nat.add_zero]
  rw [if_neg (by omega)]
  by_cases h0 : 0 < ts.length
  · rw [if_pos h0]
    simp only [resize_nil_length]
    have h := tangentLoop_encoded C ts hv
      { m with tangents := resize ts.length ([] : List Vector3)
               tangentsBasis := resize ts.length ([] : List Vector4)
               bitangents := resize ts.length ([] : List Vector3) }
      [] (resize ts.length []) [] (resize ts.length []) [] (resize ts.length []) rest
      rfl rfl rfl (resize_nil_length _) (resize_nil_length _) (resize_nil_length _) rfl rfl
      (by simpa using hl)
    simp only [List.length_nil, List.nil_append] at h
    rw [h]
  · have hts : ts = [] := List.length_eq_zero.mp (by omega)
    subst hts
    cases m
    simp only at hT hB hBi
    subst hT hB hBi
    simp [tangentLoop, mapFrom]

theorem resizeWeights_eq (numWeights wpv : Nat) (ws : List BoneWeightsUNorm) :
    resizeWeights numWeights wpv ws
      = some (if 0 < numWeights ∧ 0 < wpv then resize (numWeights / wpv) ws else ws) := by
  unfold resizeWeights udiv
  by_cases h : 0 < numWeights ∧ 0 < wpv
  · have h0 : wpv ≠ 0 := by omega
    simp [h, h0]
  · simp [h]

theorem readWeights_enc (wpv : Nat) (m : MeshFile) (wc : Nat) (ws : List (List (Nat × Nat)))
    (rest : Stream) (hm : m.weights = []) (hwc : wc < 2 ^ 32)
    (hl : ws.length = if 0 < wc ∧ 0 < wpv then wc / wpv else 0) (hl31 : ws.length < 2 ^ 31)
    (hv : ∀ ps ∈ ws, ps.length = min wpv 8 ∧ ∀ p ∈ ps, p.1 < 2 ^ 16 ∧ p.2 < 2 ^ 16) :
    readWeights wpv m (le32 wc ++ (ws.flatMap encWeight ++ rest))
      = some ({ m with weights := mapFrom decWeight 0 ws }, rest) := by
  unfold readWeights
  simp only [readU32_le32 _ _ hwc, hm, resizeWeights_eq]
  have hr : (if 0 < wc ∧ 0 < wpv then resize (wc / wpv) ([] : List BoneWeightsUNorm) else [])
      = resize ws.length [] := by
    split
    · rename_i h
      rw [hl, if_pos h]
    · rename_i h
      rw [if_neg h] at hl
      simp [hl, resize]
  simp only [hr, resize_nil_length]
  rw [if_neg (by omega)]
  rw [fillLoop_resize_encoded_idx (readWeight wpv) encWeight decWeight ws
    (fun i ps hps r => readWeight_enc wpv i ps r (hv ps hps).1 (hv ps hps).2)]

theorem readLODs_enc (m : MeshFile) (ls : List (Nat × List Triangle)) (rest : Stream)
    (hm : m.lods = []) (hl : ls.length < 2 ^ 31)
    (hv : ∀ l ∈ ls, l.1 < 2 ^ 32 ∧ l.2.length = l.1 / 3 ∧ ∀ t ∈ l.2, t.Valid) :
    readLODs m (le32 ls.length ++ (ls.flatMap encLod ++ rest))
      = some ({ m with lods := ls.map Prod.snd }, rest) := by
  unfold readLODs
  simp only [readU32_le32 _ _ (show ls.length < 2 ^ 32 by omega), hm]
  rw [if_neg (by omega)]
  have h := lodLoop_encoded ls hv [] (resize ls.length []) [] rest (resize_nil_length _)
  simp only [List.length_nil, List.nil_append, List.append_nil] at h
  rw [h]

/-- On the bytes of a well-formed stream whose scale is not `<= 0`, a new `MeshFile` parses
to the mesh the stream describes and `readMesh` returns the position count. -/
theorem readMesh_encode (C : Codec) (L : MeshStream) (hwf : L.WellFormed)
    (hs : (float32OfBits L.scaleBits).le0 = false) :
    readMesh C (MeshFile.fresh L.encode) = some (L.positions.length, L.mesh C) := by
  rw [readMesh_header C _ L.indexCount L.scaleBits L.triangles _ hwf.indexCount_lt
    hwf.scaleBits_lt hwf.triangles_length hwf.triangles_valid rfl, hs]
  simp only [Bool.false_eq_true, if_false]
  unfold readMeshBody
  have hpl := hwf.positions_length
  simp only [readU32_le32 _ _ hwf.weightsPerVertex_lt,
    readU32_le32 _ _ (show L.positions.length < 2 ^ 32 by omega)]
  have hlen : (MeshFile.fresh L.encode).positions = [] := rfl
  simp only [hlen, List.length_nil, Nat.add_zero]
  rw [if_neg (by omega)]
  simp only [resize_nil_length]
  rw [fillLoop_resize_encoded (fun _ => readPosition (float32OfBits L.scaleBits)) encPosition
    (decPosition (float32OfBits L.scaleBits)) L.positions
    (fun _ p hp r => readPosition_enc _ p (hwf.positions_valid p hp) r)]
  unfold readMeshTail
  rw [readCoords0_enc C _ L.uv0 _ rfl hwf.uv0_length hwf.uv0_valid]
  simp only [Option.bind]
  rw [readCoords1_enc C _ _ L.uv1 _ rfl hwf.uv1_length hwf.uv1_valid]
  simp only [Option.bind]
  rw [readColors_enc _ L.colors _ rfl hwf.colors_length]
  simp only [Option.bind]
  rw [readNormals_enc C _ L.normals _ rfl hwf.normals_length hwf.normals_valid]
  simp only [Option.bind]
  have htl := hwf.tangents_length
  have hnl := hwf.normals_length
  rw [readTangents_enc C _ L.tangents _ rfl rfl rfl (by simpa using htl) (by omega)
    hwf.tangents_valid]
  simp only [Option.bind]
  rw [readWeights_enc L.weightsPerVertex _ L.weightCount L.weights _ rfl hwf.weightCount_lt
    hwf.weights_length hwf.weights_length_lt hwf.weights_valid]
  simp only [Option.bind]
  have hnil : L.lods.flatMap encLod = L.lods.flatMap encLod ++ [] := by simp
  rw [hnil, readLODs_enc _ L.lods [] rfl hwf.lods_length hwf.lods_valid]
  rfl

/-! ## The signed-normalized decoder -/

/-- C9: `snormToDouble x` is `x / 32768` for negative `x` and `x / 32767` otherwise, as exact
rational values. -/
theorem snormToDouble_asymmetric (x : Int) :
    (x < 0 → snormToDouble x = (x : ℚ) / 32768) ∧
    (0 ≤ x → snormToDouble x = (x : ℚ) / 32767) := by
  constructor
  · intro h
    simp [snormToDouble, h]
  · intro h
    have : ¬ x < 0 := by omega
    simp [snormToDouble, this]

theorem snormToDouble_asymmetric_witness :
    snormToDouble (-3) = ((-3 : Int) : ℚ) / 32768 ∧ snormToDouble 5 = ((5 : Int) : ℚ) / 32767 :=
  ⟨(snormToDouble_asymmetric (-3)).1 (by decide), (snormToDouble_asymmetric 5).2 (by decide)⟩

/-- C10: on the `int16` range `snormToDouble` stays in the closed interval [-1, 1], and the
two extremes of the range are mapped to -1 and 1 exactly. -/
theorem snormToDouble_range (x : Int) (hlo : -32768 ≤ x) (hhi : x ≤ 32767) :
    (-1 ≤ snormToDouble x ∧ snormToDouble x ≤ 1) ∧
    snormToDouble (-32768) = -1 ∧ snormToDouble 32767 = 1 := by
  refine ⟨?_, ?_, ?_⟩
  · unfold snormToDouble
    have h1 : (-32768 : ℚ) ≤ (x : ℚ) := by exact_mod_cast hlo
    have h2 : (x : ℚ) ≤ 32767 := by exact_mod_cast hhi
    split
    · rename_i h
      have h3 : (x : ℚ) < 0 := by exact_mod_cast h
      constructor
      · rw [le_div_iff₀ (by norm_num)]; linarith
      · rw [div_le_iff₀ (by norm_num)]; linarith
    · rename_i h
      have h3 : (0 : ℚ) ≤ (x : ℚ) := by
        have : 0 ≤ x := by omega
        exact_mod_cast this
      constructor
      · rw [le_div_iff₀ (by norm_num)]; linarith
      · rw [div_le_iff₀ (by norm_num)]; linarith
  · norm_num [snormToDouble]
  · norm_num [snormToDouble]

theorem snormToDouble_range_witness :
    (-1 ≤ snormToDouble (-12345) ∧ snormToDouble (-12345) ≤ 1) ∧
    snormToDouble (-32768) = -1 ∧ snormToDouble 32767 = 1 :=
  snormToDouble_range (-12345) (by decide) (by decide)

/-! ## `readMesh`: rejected streams -/

/-- C1: `readMesh` returns 0 whenever the stream does not start with the little-endian
magic 1, and returns 0 whenever the scale field, which follows the `indexCount / 3` triangles
of the base list, holds a float that is `<= 0`, whatever the rest of the stream is. -/
theorem readMesh_rejects (C : Codec) (m : MeshFile) :
    (IsBytes m.data → ¬ [1, 0, 0, 0] <+: m.data → (readMesh C m).map Prod.fst = some 0) ∧
    (∀ magic indexCount scaleBits : Nat, ∀ tris rest : List Nat,
      indexCount < 2 ^ 32 → scaleBits < 2 ^ 32 → tris.length = 6 * (indexCount / 3) →
      (float32OfBits scaleBits).le0 = true →
      m.data = le32 magic ++ le32 indexCount ++ tris ++ le32 scaleBits ++ rest →
      (readMesh C m).map Prod.fst = some 0) := by
  constructor
  · intro hb hp
    have h := readU32_ne_one m.data hb hp
    unfold readMesh
    split
    · rfl
    · simp [h]
  · intro magic indexCount scaleBits tris rest hi hs ht hle hd
    unfold readMesh
    split
    · rfl
    · simp only [hd, List.append_assoc, readU32_le32_mod, readU32_le32 _ _ hi]
      split
      · rfl
      · rw [fillLoop_drop _ 6 (fun _ s h => readTriangle_drop s h) _ _ _ _
          (by simp [ht])]
        have hdrop : List.drop (6 * (indexCount / 3)) (tris ++ (le32 scaleBits ++ rest))
            = le32 scaleBits ++ rest := by
          rw [← ht]; simp
        simp only [hdrop, readFloat, readU32_le32 _ _ hs, hle]
        rfl

theorem readMesh_rejects_witness :
    (readMesh Codec.spec (MeshFile.fresh [2, 0, 0, 0])).map Prod.fst = some 0 ∧
    (readMesh Codec.spec (MeshFile.fresh
      (le32 1 ++ le32 3 ++ [0, 0, 1, 0, 2, 0] ++ le32 0x80000000 ++ [7]))).map Prod.fst
      = some 0 :=
  ⟨(readMesh_rejects Codec.spec (MeshFile.fresh [2, 0, 0, 0])).1
      (by intro b hb; simp [MeshFile.fresh] at hb; omega) (by decide),
   (readMesh_rejects Codec.spec (MeshFile.fresh
      (le32 1 ++ le32 3 ++ [0, 0, 1, 0, 2, 0] ++ le32 0x80000000 ++ [7]))).2
      1 3 0x80000000 [0, 0, 1, 0, 2, 0] [7] (by norm_num) (by norm_num) (by decide)
      (by decide!) rfl⟩

/-- C4 (counterexample): on the stream magic 1, index count 3, one triangle (0, 1, 2),
scale 0.0 the parser returns 0, yet the triangle list of the object is no longer empty. -/
theorem readMesh_scale_failure_keeps_triangles :
    ∃ m', readMesh Codec.spec
        (MeshFile.fresh [1, 0, 0, 0, 3, 0, 0, 0, 0, 0, 1, 0, 2, 0, 0, 0, 0, 0]) = some (0, m') ∧
      m'.triangles = [⟨0, 1, 2⟩] ∧
      m' ≠ MeshFile.fresh [1, 0, 0, 0, 3, 0, 0, 0, 0, 0, 1, 0, 2, 0, 0, 0, 0, 0] :=
  ⟨{ MeshFile.fresh [1, 0, 0, 0, 3, 0, 0, 0, 0, 0, 1, 0, 2, 0, 0, 0, 0, 0] with
      triangles := [⟨0, 1, 2⟩] }, by decide!, rfl, by decide!⟩

/-- C4 (amended): a failure on the magic returns 0 and leaves the whole object as it was; a
failure on a non-positive scale returns 0 and leaves every array but `triangles` as it was,
`triangles` holding the `indexCount / 3` triangles that precede the scale field. -/
theorem readMesh_failure_state (C : Codec) (m : MeshFile) :
    (IsBytes m.data → ¬ [1, 0, 0, 0] <+: m.data → readMesh C m = some (0, m)) ∧
    (∀ indexCount scaleBits : Nat, ∀ tris : List Triangle, ∀ rest : List Nat,
      indexCount < 2 ^ 32 → scaleBits < 2 ^ 32 → tris.length = indexCount / 3 →
      (∀ t ∈ tris, t.Valid) → (float32OfBits scaleBits).le0 = true →
      m.data = encHeader 1 indexCount tris scaleBits ++ rest →
      readMesh C m = some (0, { m with triangles := tris })) := by
  constructor
  · intro hb hp
    have h := readU32_ne_one m.data hb hp
    unfold readMesh
    split
    · rfl
    · simp [h]
  · intro indexCount scaleBits tris rest hi hs hl hv hle hd
    rw [readMesh_header C m indexCount scaleBits tris rest hi hs hl hv hd, if_pos hle]

theorem readMesh_failure_state_witness :
    readMesh Codec.spec (MeshFile.fresh [2, 0, 0, 0]) = some (0, MeshFile.fresh [2, 0, 0, 0]) ∧
    readMesh Codec.spec (MeshFile.fresh (encHeader 1 3 [⟨0, 1, 2⟩] 0 ++ [7]))
      = some (0, { MeshFile.fresh (encHeader 1 3 [⟨0, 1, 2⟩] 0 ++ [7]) with
          triangles := [⟨0, 1, 2⟩] }) :=
  ⟨(readMesh_failure_state Codec.spec (MeshFile.fresh [2, 0, 0, 0])).1
      (by intro b hb; simp [MeshFile.fresh] at hb; omega) (by decide),
   (readMesh_failure_state Codec.spec (MeshFile.fresh (encHeader 1 3 [⟨0, 1, 2⟩] 0 ++ [7]))).2
      3 0 [⟨0, 1, 2⟩] [7] (by norm_num) (by norm_num) (by decide)
      (by intro t ht; simp at ht; subst ht; simp [Triangle.Valid])
      (by decide!) rfl⟩

/-! ## `readMesh`: truncated streams -/

theorem float32OfBits_zero : float32OfBits 0 = Flt.fin 0 := by
  norm_num [float32OfBits]

theorem readFloat_short (s : Stream) (h : s.length < 4) : readFloat s = (Flt.fin 0, []) := by
  simp only [readFloat, readU32_short s h, float32OfBits_zero]

theorem scale_after_short_triangles (n : Nat) (v : List Triangle) (s : Stream)
    (h : s.length < 6 * n + 4) :
    (readFloat (fillLoop (fun _ => readTriangle) n 0 v s).2).1.le0 = true := by
  have h1 := fillLoop_length_le (fun _ => readTriangle) 6
    (fun _ s => readTriangle_length_le s) n 0 v s
  rw [readFloat_short _ (by omega)]
  decide!

theorem take_le32_append (n k : Nat) (t : List Nat) :
    (le32 n ++ t).take (k + 4) = le32 n ++ t.take k := by
  simp [le32]

theorem readMesh_short_header (C : Codec) (m : MeshFile) (magic indexCount scaleBits : Nat)
    (tris : List Nat) (k : Nat) (hi : indexCount < 2 ^ 32)
    (ht : tris.length = 6 * (indexCount / 3))
    (hk : k < (le32 magic ++ le32 indexCount ++ tris ++ le32 scaleBits).length)
    (hd : m.data = (le32 magic ++ le32 indexCount ++ tris ++ le32 scaleBits).take k) :
    (readMesh C m).map Prod.fst = some 0 := by
  have hlen : (le32 magic ++ le32 indexCount ++ tris ++ le32 scaleBits).length
      = 12 + 6 * (indexCount / 3) := by
    simp [le32, ht]; omega
  rw [hlen] at hk
  unfold readMesh
  split
  · rfl
  · by_cases hk4 : k < 4
    · have hs : m.data.length < 4 := by
        rw [hd, List.length_take]; omega
      rw [readU32_short _ hs]
      simp
    · obtain ⟨k1, rfl⟩ : ∃ k1, k = k1 + 4 := ⟨k - 4, by omega⟩
      rw [hd]
      simp only [List.append_assoc]
      rw [take_le32_append, readU32_le32_mod]
      simp only []
      split
      · rfl
      · by_cases hk8 : k1 < 4
        · have hs : ((le32 indexCount ++ (tris ++ le32 scaleBits)).take k1).length < 4 := by
            rw [List.length_take]; omega
          rw [readU32_short _ hs]
          simp only [Nat.zero_div, fillLoop]
          rw [readFloat_short [] (by simp)]
          have : (Flt.fin 0).le0 = true := by decide!
          simp [this]
        · obtain ⟨k2, rfl⟩ : ∃ k2, k1 = k2 + 4 := ⟨k1 - 4, by omega⟩
          rw [take_le32_append, readU32_le32 _ _ hi]
          simp only []
          have hs : ((tris ++ le32 scaleBits).take k2).length < 6 * (indexCount / 3) + 4 := by
            rw [List.length_take]; omega
          rw [scale_after_short_triangles _ _ _ hs]
          simp

theorem readPosition_length_le (scale : Flt) (s : Stream) :
    (readPosition scale s).2.length ≤ s.length - 6 := by
  have h1 := readUInt_length_le 2 s
  have h2 := readUInt_length_le 2 (readUInt 2 s).2
  have h3 := readUInt_length_le 2 (readUInt 2 (readUInt 2 s).2).2
  simp only [readPosition, readI16, readU16]
  omega

theorem readU32_nil : readU32 [] = (0, []) := by
  simp [readU32, readUInt]

theorem readMeshTail_nil (C : Codec) (pc wpv : Nat) (data : List Nat) (tris : List Triangle)
    (pos : List Vector3) (w : Nat) :
    readMeshTail C pc wpv { MeshFile.fresh data with
        triangles := tris, positions := pos, weightsPerVertex := w } []
      = some (pc, { MeshFile.fresh data with
        triangles := tris, positions := pos, weightsPerVertex := w, coords := [[], []] }) := by
  have h0 : ∀ m : MeshFile, m.coords = [] →
      readCoords0 C m [] = some ({ m with coords := [[]] }, []) := by
    intro m hm
    simp [readCoords0, readU32_nil, resize, fillLoop, hm]
  have h1 : ∀ m : MeshFile, m.coords = [[]] →
      readCoords1 C m [] = some ({ m with coords := [[], []] }, []) := by
    intro m hm
    simp [readCoords1, readU32_nil, resize, fillLoop, hm]
  have h2 : ∀ m : MeshFile, m.colors = [] → readColors m [] = some (m, []) := by
    intro m hm
    simp [readColors, readU32_nil, fillLoop, hm]
    rw [← hm]
  have h3 : ∀ m : MeshFile, m.normals = [] → readNormals C m [] = some (m, []) := by
    intro m hm
    simp [readNormals, readU32_nil, fillLoop, hm]
    rw [← hm]
  have h4 : ∀ m : MeshFile, m.tangents = [] → m.tangentsBasis = [] → m.bitangents = [] →
      readTangents C m [] = some (m, []) := by
    intro m hm hb hbi
    simp [readTangents, readU32_nil, tangentLoop, hm, hb, hbi]
  have h5 : ∀ m : MeshFile, m.weights = [] → readWeights wpv m [] = some (m, []) := by
    intro m hm
    simp [readWeights, resizeWeights_eq, readU32_nil, fillLoop, hm]
    rw [← hm]
  have h6 : ∀ m : MeshFile, m.lods = [] → readLODs m [] = some (m, []) := by
    intro m hm
    simp [readLODs, readU32_nil, lodLoop, resize, hm]
    rw [← hm]
  unfold readMeshTail
  rw [h0 _ rfl]
  simp only [Option.bind]
  rw [h1 _ rfl]
  simp only [Option.bind]
  rw [h2 _ rfl]
  simp only [Option.bind]
  rw [h3 _ rfl]
  simp only [Option.bind]
  rw [h4 _ rfl rfl rfl]
  simp only [Option.bind]
  rw [h5 _ rfl]
  simp only [Option.bind]
  rw [h6 _ rfl]

/-- A stream with a complete header (magic 1, scale not `<= 0`) that ends inside the
position block: the parser returns the position count. -/
theorem readMesh_cut_positions (C : Codec) (indexCount scaleBits : Nat) (tris : List Triangle)
    (numWeightsPerVertex numPositions : Nat) (body : List Nat)
    (hi : indexCount < 2 ^ 32) (hs : scaleBits < 2 ^ 32) (hl : tris.length = indexCount / 3)
    (hv : ∀ t ∈ tris, t.Valid) (hpos : (float32OfBits scaleBits).le0 = false)
    (hw : numWeightsPerVertex < 2 ^ 32) (hp : numPositions < 2 ^ 31)
    (hb : body.length < 6 * numPositions) :
    (readMesh C (MeshFile.fresh (encHeader 1 indexCount tris scaleBits ++
      (le32 numWeightsPerVertex ++ (le32 numPositions ++ body))))).map Prod.fst
      = some numPositions := by
  rw [readMesh_header C _ indexCount scaleBits tris _ hi hs hl hv rfl, hpos]
  simp only [Bool.false_eq_true, if_false]
  unfold readMeshBody
  simp only [readU32_le32 _ _ hw, readU32_le32 _ _ (show numPositions < 2 ^ 32 by omega)]
  have hlen : (MeshFile.fresh (encHeader 1 indexCount tris scaleBits ++
      (le32 numWeightsPerVertex ++ (le32 numPositions ++ body)))).positions.length = 0 := rfl
  simp only [hlen, Nat.add_zero]
  rw [if_neg (by omega)]
  have hres : (resize numPositions ([] : List Vector3)).length = numPositions := by
    simp [resize]
  have hnil : (fillLoop (fun _ => readPosition (float32OfBits scaleBits))
      (resize numPositions (MeshFile.fresh (encHeader 1 indexCount tris scaleBits ++
      (le32 numWeightsPerVertex ++ (le32 numPositions ++ body)))).positions).length 0
      (resize numPositions (MeshFile.fresh (encHeader 1 indexCount tris scaleBits ++
      (le32 numWeightsPerVertex ++ (le32 numPositions ++ body)))).positions) body).2 = [] := by
    have h1 := fillLoop_length_le (fun _ => readPosition (float32OfBits scaleBits)) 6
      (fun _ s => readPosition_length_le _ s)
      (resize numPositions ([] : List Vector3)).length 0
      (resize numPositions ([] : List Vector3)) body
    rw [hres] at h1
    apply List.eq_nil_of_length_eq_zero
    simp only [MeshFile.fresh, hres]
    omega
  rw [hnil]
  have := readMeshTail_nil C numPositions numWeightsPerVertex
    (encHeader 1 indexCount tris scaleBits ++
      (le32 numWeightsPerVertex ++ (le32 numPositions ++ body))) tris
    (fillLoop (fun _ => readPosition (float32OfBits scaleBits))
      (resize numPositions ([] : List Vector3)).length 0
      (resize numPositions ([] : List Vector3)) body).1 numWeightsPerVertex
  simp only [MeshFile.fresh] at this ⊢
  rw [this]
  rfl

/-- C2 (counterexample): the stream magic 1, index count 0, scale 1.0, weights per vertex 0,
position count 1 ends right after the position count, six bytes short of its one position;
the parser returns 1, not 0. -/
theorem readMesh_truncated_after_count_returns_count :
    (readMesh Codec.spec (MeshFile.fresh
      [1, 0, 0, 0, 0, 0, 0, 0, 0, 0, 128, 63, 0, 0, 0, 0, 1, 0, 0, 0])).map Prod.fst = some 1 ∧
    (readMesh Codec.spec (MeshFile.fresh
      [1, 0, 0, 0, 0, 0, 0, 0, 0, 0, 128, 63, 0, 0, 0, 0, 1, 0, 0, 0])).map Prod.fst ≠ some 0 :=
  ⟨by decide!, by decide!⟩

/-- C2 (amended): `readMesh` does not detect short reads, a field past the end of the stream
reads as zero. A stream that ends before the end of its scale field returns 0. A stream of a
new `MeshFile` with magic 1, a scale that is not `<= 0` and a position count below `2 ^ 31`
that ends after the position count, before the end of the position block, returns the
position count. -/
theorem readMesh_truncated (C : Codec) :
    (∀ (m : MeshFile) (magic indexCount scaleBits : Nat) (tris : List Nat) (k : Nat),
      indexCount < 2 ^ 32 → tris.length = 6 * (indexCount / 3) →
      k < (le32 magic ++ le32 indexCount ++ tris ++ le32 scaleBits).length →
      m.data = (le32 magic ++ le32 indexCount ++ tris ++ le32 scaleBits).take k →
      (readMesh C m).map Prod.fst = some 0) ∧
    (∀ (indexCount scaleBits : Nat) (tris : List Triangle)
      (numWeightsPerVertex numPositions : Nat) (body : List Nat),
      indexCount < 2 ^ 32 → scaleBits < 2 ^ 32 → tris.length = indexCount / 3 →
      (∀ t ∈ tris, t.Valid) → (float32OfBits scaleBits).le0 = false →
      numWeightsPerVertex < 2 ^ 32 → numPositions < 2 ^ 31 →
      body.length < 6 * numPositions →
      (readMesh C (MeshFile.fresh (encHeader 1 indexCount tris scaleBits ++
        (le32 numWeightsPerVertex ++ (le32 numPositions ++ body))))).map Prod.fst
        = some numPositions) :=
  ⟨fun m magic indexCount scaleBits tris k hi ht hk hd =>
      readMesh_short_header C m magic indexCount scaleBits tris k hi ht hk hd,
   fun indexCount scaleBits tris w n body hi hs hl hv hpos hw hp hb =>
      readMesh_cut_positions C indexCount scaleBits tris w n body hi hs hl hv hpos hw hp hb⟩

theorem readMesh_truncated_witness :
    (readMesh Codec.spec (MeshFile.fresh
      ((le32 1 ++ le32 3 ++ [0, 0, 1, 0, 2, 0] ++ le32 0x3F800000).take 16))).map Prod.fst
      = some 0 ∧
    (readMesh Codec.spec (MeshFile.fresh (encHeader 1 3 [⟨0, 1, 2⟩] 0x3F800000 ++
      (le32 0 ++ (le32 2 ++ [1, 2, 3, 4, 5, 6, 7]))))).map Prod.fst = some 2 :=
  ⟨(readMesh_truncated Codec.spec).1 (MeshFile.fresh
      ((le32 1 ++ le32 3 ++ [0, 0, 1, 0, 2, 0] ++ le32 0x3F800000).take 16))
      1 3 0x3F800000 [0, 0, 1, 0, 2, 0] 16 (by norm_num) (by decide) (by decide) (by rfl),
   (readMesh_truncated Codec.spec).2 3 0x3F800000 [⟨0, 1, 2⟩] 0 2 [1, 2, 3, 4, 5, 6, 7]
      (by norm_num) (by norm_num) (by decide)
      (by intro t ht; simp at ht; subst ht; simp [Triangle.Valid])
      (by decide!) (by norm_num) (by norm_num) (by decide)⟩

/-! ## `readMesh`: positions of a well-formed stream -/

theorem Flt.le0_of_gt0 (v : Flt) (h : v.gt0 = true) : v.le0 = false := by
  cases v with
  | nan => simp [Flt.gt0] at h
  | inf a => simpa [Flt.gt0, Flt.le0] using h
  | fin q =>
    simp only [Flt.gt0, decide_eq_true_eq] at h
    simp only [Flt.le0, decide_eq_false_iff_not, not_le]
    exact h

theorem minimalStream_wellFormed : minimalStream.WellFormed where
  indexCount_lt := by norm_num [minimalStream]
  triangles_length := by simp [minimalStream]
  triangles_valid := by simp [minimalStream, Triangle.Valid]
  scaleBits_lt := by norm_num [minimalStream]
  weightsPerVertex_lt := by norm_num [minimalStream]
  positions_length := by norm_num [minimalStream]
  positions_valid := by simp [minimalStream]
  uv0_length := by norm_num [minimalStream]
  uv0_valid := by simp [minimalStream]
  uv1_length := by norm_num [minimalStream]
  uv1_valid := by simp [minimalStream]
  colors_length := by norm_num [minimalStream]
  colors_valid := by simp [minimalStream]
  normals_length := by norm_num [minimalStream]
  normals_valid := by simp [minimalStream]
  tangents_length := by simp [minimalStream]
  tangents_valid := by simp [minimalStream]
  weightCount_lt := by norm_num [minimalStream]
  weights_length := by simp [minimalStream, MeshStream.weightVertices]
  weights_length_lt := by norm_num [minimalStream]
  weights_valid := by simp [minimalStream]
  lods_length := by norm_num [minimalStream]
  lods_valid := by simp [minimalStream]

theorem Flt.mul_fin (p q : ℚ) : Flt.mul (Flt.fin p) (Flt.fin q) = Flt.fin (p * q) := rfl

theorem Flt.sub_fin (p q : ℚ) : Flt.sub (Flt.fin p) (Flt.fin q) = Flt.fin (p - q) := by
  simp only [Flt.sub, Flt.neg, Flt.add, sub_eq_add_neg]

theorem halfScaleStream_wellFormed : halfScaleStream.WellFormed where
  indexCount_lt := by norm_num [halfScaleStream, minimalStream]
  triangles_length := by simp [halfScaleStream, minimalStream]
  triangles_valid := by simp [halfScaleStream, minimalStream, Triangle.Valid]
  scaleBits_lt := by norm_num [halfScaleStream, minimalStream]
  weightsPerVertex_lt := by norm_num [halfScaleStream, minimalStream]
  positions_length := by norm_num [halfScaleStream, minimalStream]
  positions_valid := by simp [halfScaleStream, minimalStream]
  uv0_length := by norm_num [halfScaleStream, minimalStream]
  uv0_valid := by simp [halfScaleStream, minimalStream]
  uv1_length := by norm_num [halfScaleStream, minimalStream]
  uv1_valid := by simp [halfScaleStream, minimalStream]
  colors_length := by norm_num [halfScaleStream, minimalStream]
  colors_valid := by simp [halfScaleStream, minimalStream]
  normals_length := by norm_num [halfScaleStream, minimalStream]
  normals_valid := by simp [halfScaleStream, minimalStream]
  tangents_length := by simp [halfScaleStream, minimalStream]
  tangents_valid := by simp [halfScaleStream, minimalStream]
  weightCount_lt := by norm_num [halfScaleStream, minimalStream]
  weights_length := by simp [halfScaleStream, minimalStream, MeshStream.weightVertices]
  weights_length_lt := by norm_num [halfScaleStream, minimalStream]
  weights_valid := by simp [halfScaleStream, minimalStream]
  lods_length := by norm_num [halfScaleStream, minimalStream]
  lods_valid := by simp [halfScaleStream, minimalStream]

/-- C3: on the bytes of a well-formed stream with magic 1 and a scale `> 0`, a new
`MeshFile` returns the position count, `positions` has exactly that many entries, and entry
`i` is the vector of the `snormToDouble` values of the `i`-th `int16` triplet, multiplied by
the scale: each of its three components is the product of the decoded component and the
scale, which for a finite scale `s` is the number `snormToDouble(c) * s`. -/
theorem readMesh_positions (C : Codec) (L : MeshStream) (hwf : L.WellFormed)
    (hs : (float32OfBits L.scaleBits).gt0 = true) :
    ∃ m', readMesh C (MeshFile.fresh L.encode) = some (L.positions.length, m') ∧
      m'.positions.length = L.positions.length ∧
      ∀ (i : Nat) (x y z : Int), L.positions[i]? = some (x, y, z) →
        m'.positions[i]? = some (Vector3.scale
          ⟨Flt.fin (snormToDouble x), Flt.fin (snormToDouble y), Flt.fin (snormToDouble z)⟩
          (float32OfBits L.scaleBits)) ∧
        m'.positions[i]? = some
          ⟨Flt.mul (Flt.fin (snormToDouble x)) (float32OfBits L.scaleBits),
           Flt.mul (Flt.fin (snormToDouble y)) (float32OfBits L.scaleBits),
           Flt.mul (Flt.fin (snormToDouble z)) (float32OfBits L.scaleBits)⟩ ∧
        ∀ s : ℚ, float32OfBits L.scaleBits = Flt.fin s →
          m'.positions[i]? = some ⟨Flt.fin (snormToDouble x * s),
            Flt.fin (snormToDouble y * s), Flt.fin (snormToDouble z * s)⟩ := by
  refine ⟨L.mesh C, readMesh_encode C L hwf (Flt.le0_of_gt0 _ hs), ?_, ?_⟩
  · simp [MeshStream.mesh]
  · intro i x y z h
    have hp : (L.mesh C).positions[i]? = some (Vector3.scale
        ⟨Flt.fin (snormToDouble x), Flt.fin (snormToDouble y), Flt.fin (snormToDouble z)⟩
        (float32OfBits L.scaleBits)) := by
      simp [MeshStream.mesh, h, decPosition]
    refine ⟨hp, hp, ?_⟩
    intro s hsc
    rw [hp, hsc]
    rfl

theorem readMesh_positions_witness :
    (∃ m', readMesh Codec.spec (MeshFile.fresh minimalStream.encode) = some (1, m') ∧
      m'.positions.length = 1 ∧
      m'.positions[0]? = some ⟨Flt.fin 1, Flt.fin (-1), Flt.fin 0⟩) ∧
    ∃ m', readMesh Codec.spec (MeshFile.fresh halfScaleStream.encode) = some (1, m') ∧
      m'.positions.length = 1 ∧
      m'.positions[0]? = some ⟨Flt.fin (1 / 2), Flt.fin (-1 / 2), Flt.fin 0⟩ := by
  constructor
  · obtain ⟨m', h, hl, hi⟩ :=
      readMesh_positions Codec.spec minimalStream minimalStream_wellFormed (by decide!)
    refine ⟨m', h, hl, ?_⟩
    rw [((hi 0 32767 (-32768) 0 rfl).2.2 1 (by decide!))]
    decide!
  · obtain ⟨m', h, hl, hi⟩ :=
      readMesh_positions Codec.spec halfScaleStream halfScaleStream_wellFormed (by decide!)
    refine ⟨m', h, hl, ?_⟩
    rw [((hi 0 32767 (-32768) 0 rfl).2.2 (1 / 2) (by decide!))]
    decide!

/-! ## The cube-map filter: header checks -/

theorem land_pred_two_pow (k : Nat) : 2 ^ k &&& (2 ^ k - 1) = 0 := by
  rw [Nat.and_pow_two_sub_one_eq_mod]
  exact Nat.mod_self _

theorem land_pred_ne_zero (w : Nat) (hw : 0 < w) (h : ∀ k, w ≠ 2 ^ k) : w &&& (w - 1) ≠ 0 := by
  have h1 : 2 ^ Nat.log 2 w ≤ w := Nat.pow_log_le_self 2 (by omega)
  have h2 : w < 2 ^ (Nat.log 2 w + 1) := Nat.lt_pow_succ_log_self (by norm_num) w
  have h3 : 2 ^ Nat.log 2 w ≠ w := fun e => h _ e.symm
  have hp : 2 ^ (Nat.log 2 w + 1) = 2 * 2 ^ Nat.log 2 w := by ring
  have hb1 : w.testBit (Nat.log 2 w) = true := by
    rw [Nat.testBit_to_div_mod, Nat.div_eq_of_lt_le (k := 1) (by omega) (by omega)]
    rfl
  have hb2 : (w - 1).testBit (Nat.log 2 w) = true := by
    rw [Nat.testBit_to_div_mod, Nat.div_eq_of_lt_le (k := 1) (by omega) (by omega)]
    rfl
  intro h0
  have hb : (w &&& (w - 1)).testBit (Nat.log 2 w) = true := by
    rw [Nat.testBit_and, hb1, hb2]
    rfl
  rw [h0] at hb
  simp at hb

theorem lor_eq_zero (a b : Nat) : a ||| b = 0 ↔ a = 0 ∧ b = 0 := by
  constructor
  · intro h
    have ht : ∀ i, (a.testBit i || b.testBit i) = false := by
      intro i
      rw [← Nat.testBit_or, h]
      simp
    constructor
    · apply Nat.eq_of_testBit_eq
      intro i
      have := ht i
      simp only [Bool.or_eq_false_iff] at this
      simp [this.1]
    · apply Nat.eq_of_testBit_eq
      intro i
      have := ht i
      simp only [Bool.or_eq_false_iff] at this
      simp [this.2]
  · rintro ⟨rfl, rfl⟩
    simp

theorem IsBytes.take_drop {buf : List Nat} (hb : IsBytes buf) (off n : Nat) :
    IsBytes ((buf.drop off).take n) := fun b h =>
  hb b (List.mem_of_mem_drop (List.mem_of_mem_take h))

theorem readUInt32Fast_lt (buf : List Nat) (hb : IsBytes buf) (off : Nat) :
    readUInt32Fast buf off < 2 ^ 32 := by
  have hl : ((buf.drop off).take 4).length ≤ 4 := by simp [List.length_take]
  have hb4 := hb.take_drop off 4
  unfold readUInt32Fast
  match hm : (buf.drop off).take 4, hl, hb4 with
  | [], _, _ => simp [leValue]
  | [a], _, h =>
    have := h a (by simp)
    simp only [leValue]; omega
  | [a, b], _, h =>
    have := h a (by simp); have := h b (by simp)
    simp only [leValue]; omega
  | [a, b, c], _, h =>
    have := h a (by simp); have := h b (by simp); have := h c (by simp)
    simp only [leValue]; omega
  | [a, b, c, d], _, h =>
    have := h a (by simp); have := h b (by simp); have := h c (by simp); have := h d (by simp)
    simp only [leValue]; omega
  | _ :: _ :: _ :: _ :: _ :: _, hl, _ => simp at hl

theorem fixZero_shift_lt (w n : Nat) (hw : w < 2 ^ (n + 1)) : fixZero w >>> 1 < 2 ^ n := by
  have : 2 ^ (n + 1) = 2 * 2 ^ n := by ring
  have hp : 0 < 2 ^ n := Nat.two_pow_pos n
  rw [Nat.shiftRight_eq_div_pow]
  unfold fixZero
  split <;> omega

theorem mipSizeLoop_isSome (width height : Nat) (fuel w h : Nat) (st : MipSizes)
    (hw : w < 2 ^ (fuel + 1)) (hh : h < 2 ^ (fuel + 1)) :
    ∃ S, mipSizeLoop width height (fuel + 1) w h st = some S := by
  induction fuel generalizing w h st with
  | zero =>
    have h1 := fixZero_shift_lt w 0 hw
    have h2 := fixZero_shift_lt h 0 hh
    have h1' : fixZero w >>> 1 = 0 := by omega
    have h2' : fixZero h >>> 1 = 0 := by omega
    simp only [mipSizeLoop, h1', h2']
    simp
  | succ fuel ih =>
    rw [mipSizeLoop]
    by_cases hc : (fixZero w >>> 1) ||| (fixZero h >>> 1) ≠ 0
    · rw [if_pos hc]
      exact ih _ _ _ (fixZero_shift_lt w _ hw) (fixZero_shift_lt h _ hh)
    · rw [if_neg hc]
      exact ⟨_, rfl⟩

theorem IsBytes.append {a b : List Nat} (ha : IsBytes a) (hb : IsBytes b) :
    IsBytes (a ++ b) := by
  intro x hx
  rcases List.mem_append.mp hx with h | h
  · exact ha x h
  · exact hb x h

theorem isBytes_replicate (n b : Nat) (hb : b < 256) : IsBytes (List.replicate n b) := by
  intro x hx
  rw [List.eq_of_mem_replicate hx]
  exact hb

theorem isBytes_ddsHeader (w h fmt : Nat) : IsBytes (ddsHeader w h fmt) := by
  unfold ddsHeader
  refine IsBytes.append (IsBytes.append (IsBytes.append (IsBytes.append (IsBytes.append
    (IsBytes.append (IsBytes.append (IsBytes.append ?_ ?_) ?_) ?_) ?_) ?_) ?_) ?_) ?_
  · decide
  · exact isBytes_replicate _ _ (by norm_num)
  · intro x hx; simp [le32] at hx; omega
  · intro x hx; simp [le32] at hx; omega
  · exact isBytes_replicate _ _ (by norm_num)
  · decide
  · exact isBytes_replicate _ _ (by norm_num)
  · intro x hx; simp [le32] at hx; omega
  · exact isBytes_replicate _ _ (by norm_num)

theorem geoSum4_closed (a : Nat) : 3 * geoSum4 a + 1 = 4 ^ (a + 1) := by
  induction a with
  | zero => rfl
  | succ a ih =>
    have : 4 ^ (a + 1 + 1) = 4 * 4 ^ (a + 1) := by ring
    simp only [geoSum4]
    omega

theorem geoSum4_mono {a b : Nat} (h : a ≤ b) : geoSum4 a ≤ geoSum4 b := by
  induction h with
  | refl => exact le_refl _
  | step _ ih => exact le_trans ih (by simp [geoSum4])

theorem two_pow_mul_self (a : Nat) : 2 ^ a * 2 ^ a = 4 ^ a := by
  rw [← Nat.mul_pow]

theorem fixZero_two_pow (a : Nat) : fixZero (2 ^ a) = 2 ^ a := by
  have : 0 < 2 ^ a := Nat.two_pow_pos a
  unfold fixZero
  rw [if_neg (by omega)]
  rfl

theorem mipSizeLoop_two_pow (j a fuel : Nat) (st : MipSizes) (hf : a < fuel)
    (h1 : st.mipCnt = 0 → st.sizeRequired1 + 4 ^ a < 2 ^ 64)
    (h2 : st.sizeRequired2 + geoSum4 a < 2 ^ 64)
    (h3 : st.faceDataSize + geoSum4 a < 2 ^ 64) :
    mipSizeLoop (2 ^ j) (2 ^ j) fuel (2 ^ a) (2 ^ a) st = some
      { sizeRequired1 := if st.mipCnt = 0 then st.sizeRequired1 + 4 ^ a else st.sizeRequired1
        sizeRequired2 := st.sizeRequired2 + geoSum4 a
        mipCnt := st.mipCnt + (a + 1)
        maxMip := st.maxMip + ((min a j + 1 : Nat) : Int)
        faceDataSize := st.faceDataSize + geoSum4 (min a j) } := by
  induction a generalizing fuel st with
  | zero =>
    obtain ⟨f, rfl⟩ : ∃ f, fuel = f + 1 := ⟨fuel - 1, by omega⟩
    have hj : 0 < 2 ^ j := Nat.two_pow_pos j
    simp only [geoSum4, pow_zero] at h1 h2 h3
    have hfz : fixZero (2 ^ 0) = 1 := by decide
    rw [mipSizeLoop, hfz]
    rw [if_neg (by decide)]
    simp only [mipSizeBody, pow_zero, Nat.mul_one, Nat.zero_min, geoSum4, zero_add,
      Nat.cast_one]
    rw [Nat.mod_eq_of_lt h2, Nat.mod_eq_of_lt h3]
    have hc : 1 ≤ 2 ^ j ∧ 1 ≤ 2 ^ j := ⟨hj, hj⟩
    simp only [hc, and_self, if_true]
    simp only [Option.some.injEq, MipSizes.mk.injEq]
    refine ⟨?_, trivial, trivial, trivial, trivial⟩
    split
    · rename_i h0
      rw [Nat.mod_eq_of_lt (h1 h0)]
    · rfl
  | succ a ih =>
    obtain ⟨f, rfl⟩ : ∃ f, fuel = f + 1 := ⟨fuel - 1, by omega⟩
    have hpa : 0 < 2 ^ a := Nat.two_pow_pos a
    have hsh : 2 ^ (a + 1) >>> 1 = 2 ^ a := by
      rw [Nat.shiftRight_eq_div_pow, pow_succ]; omega
    have hsq : 2 ^ (a + 1) * 2 ^ (a + 1) = 4 ^ (a + 1) := two_pow_mul_self _
    simp only [geoSum4] at h2 h3
    have hp4 : 0 < 4 ^ a := Nat.pos_pow_of_pos a (by norm_num)
    rw [mipSizeLoop, fixZero_two_pow, hsh]
    have hne : 2 ^ a ||| 2 ^ a ≠ 0 := by
      intro h
      have := (lor_eq_zero _ _).mp h
      omega
    rw [if_pos hne]
    have hle : (2 ^ (a + 1) ≤ 2 ^ j) ↔ a + 1 ≤ j :=
      Nat.pow_le_pow_iff_right (by norm_num)
    rw [ih f (mipSizeBody (2 ^ j) (2 ^ j) (2 ^ (a + 1)) (2 ^ (a + 1)) st) (by omega)
      (by intro h; simp [mipSizeBody] at h)
      (by simp only [mipSizeBody, hsq]; rw [Nat.mod_eq_of_lt (by omega)]; omega)
      (by
        simp only [mipSizeBody, hsq, hle, and_self]
        split
        · rw [Nat.mod_eq_of_lt (by omega)]; omega
        · omega)]
    simp only [mipSizeBody, hsq, hle, and_self, Nat.add_eq_zero, one_ne_zero, and_false,
      if_false]
    rw [Nat.mod_eq_of_lt (show st.sizeRequired2 + 4 ^ (a + 1) < 2 ^ 64 by omega)]
    by_cases hj : a + 1 ≤ j
    · have hm1 : min a j = a := by omega
      have hm2 : min (a + 1) j = a + 1 := by omega
      simp only [hj, if_true, hm1, hm2, geoSum4]
      rw [Nat.mod_eq_of_lt (show st.faceDataSize + 4 ^ (a + 1) < 2 ^ 64 by omega)]
      simp only [Option.some.injEq, MipSizes.mk.injEq]
      refine ⟨?_, ?_, ?_, ?_, ?_⟩
      · split
        · rename_i h0
          rw [Nat.mod_eq_of_lt (h1 h0)]
        · rfl
      · omega
      · omega
      · push_cast; ring
      · omega
    · have hm1 : min a j = j := by omega
      have hm2 : min (a + 1) j = j := by omega
      simp only [hj, if_false, hm1, hm2, geoSum4]
      simp only [Option.some.injEq, MipSizes.mk.injEq]
      refine ⟨?_, ?_, ?_, trivial, trivial⟩
      · split
        · rename_i h0
          rw [Nat.mod_eq_of_lt (h1 h0)]
        · rfl
      · omega
      · omega

/-! ## The cube-map filter: the stores of the kernels stay inside the buffer -/

theorem foldlM_option_inv {α β : Type} (P : β → Prop) (f : β → α → Option β) (l : List α)
    (b : β) (hb : P b) (hf : ∀ b a, a ∈ l → P b → ∃ b', f b a = some b' ∧ P b') :
    ∃ b', l.foldlM f b = some b' ∧ P b' := by
  induction l generalizing b with
  | nil => exact ⟨b, rfl, hb⟩
  | cons a l ih =>
    obtain ⟨b1, h1, hp1⟩ := hf b a (by simp) hb
    obtain ⟨b2, h2, hp2⟩ := ih b1 hp1 (fun b a ha hp => hf b a (by simp [ha]) hp)
    refine ⟨b2, ?_, hp2⟩
    rw [List.foldlM_cons, h1]
    exact h2

theorem foldlM_range_inv {β : Type} (P : Nat → β → Prop) (f : β → Nat → Option β) (n : Nat)
    (b : β) (h0 : P 0 b) (hstep : ∀ m b, m < n → P m b → ∃ b', f b m = some b' ∧ P (m + 1) b') :
    ∃ b', (List.range n).foldlM f b = some b' ∧ P n b' := by
  induction n with
  | zero => exact ⟨b, rfl, h0⟩
  | succ n ih =>
    obtain ⟨b1, h1, hp1⟩ := ih (fun m b hm hp => hstep m b (by omega) hp)
    obtain ⟨b2, h2, hp2⟩ := hstep n b1 (by omega) hp1
    refine ⟨b2, ?_, hp2⟩
    rw [List.range_succ, List.foldlM_append, h1]
    simp only [Option.bind_eq_bind, Option.some_bind, List.foldlM_cons, List.foldlM_nil, h2]
    rfl

theorem storeTexel_ok (buf : List Nat) (off tmp : Nat) (h : off + 4 ≤ buf.length) :
    ∃ b', storeTexel buf off tmp = some b' ∧ b'.length = buf.length := by
  unfold storeTexel
  rw [if_pos h]
  exact ⟨_, rfl, by simp⟩

theorem processImage_ok (texel : Nat → Nat → Nat → Nat) (faceDataSize outBufP w y0 y1 : Nat)
    (buf : List Nat) (h : outBufP + 5 * faceDataSize + 4 * (y1 * w) ≤ buf.length) :
    ∃ b', processImage texel faceDataSize outBufP w y0 y1 buf = some b' ∧
      b'.length = buf.length := by
  unfold processImage
  refine foldlM_option_inv (fun b : List Nat => b.length = buf.length) _ _ _ rfl ?_
  intro b n hn hb
  refine foldlM_option_inv (fun b : List Nat => b.length = buf.length) _ _ _ hb ?_
  intro b y hy hb
  refine foldlM_option_inv (fun b : List Nat => b.length = buf.length) _ _ _ hb ?_
  intro b x hx hb
  have hn' : n < 6 := List.mem_range.mp hn
  have hx' : x < w := List.mem_range.mp hx
  have hy' : y < y1 := by
    have := List.mem_range'_1.mp hy
    omega
  have h1 : n * faceDataSize ≤ 5 * faceDataSize := Nat.mul_le_mul_right _ (by omega)
  have h2 : (y + 1) * w ≤ y1 * w := Nat.mul_le_mul_right _ (by omega)
  have h3 : (y + 1) * w = y * w + w := by ring
  obtain ⟨b', hs, hl⟩ := storeTexel_ok b (outBufP + n * faceDataSize + 4 * (y * w) + 4 * x)
    (texel n y x) (by omega)
  exact ⟨b', hs, by omega⟩

theorem band_le (i h T : Nat) (hi : i < T) : (i + 1) * h / T ≤ h := by
  have h1 : (i + 1) * h ≤ T * h := Nat.mul_le_mul_right _ (by omega)
  calc (i + 1) * h / T ≤ T * h / T := Nat.div_le_div_right h1
    _ = h := Nat.mul_div_cancel_left h (by omega)

theorem shiftRight_two_pow (k m : Nat) (h : m ≤ k) : 2 ^ k >>> m = 2 ^ (k - m) := by
  rw [Nat.shiftRight_eq_div_pow, Nat.pow_div h (by norm_num)]

theorem mipStep_ok (E : CubeEnv) (input : List Nat) (k : Nat) (S : MipSizes)
    (faceDataSize L : Nat) (hL : 148 + 4 * geoSum4 k + 5 * faceDataSize ≤ L)
    (st : FillState) (m : Nat) (hm : m ≤ k) (hlen : st.buf.length = L)
    (hout : st.outBufP + 4 * geoSum4 (k - m) = 148 + 4 * geoSum4 k) :
    ∃ st', mipStep E input (2 ^ k) (2 ^ k) S faceDataSize st m = some st' ∧
      st'.buf.length = L ∧
      (m + 1 ≤ k → st'.outBufP + 4 * geoSum4 (k - (m + 1)) = 148 + 4 * geoSum4 k) := by
  have hw : fixZero (2 ^ k >>> m) = 2 ^ (k - m) := by
    rw [shiftRight_two_pow k m hm, fixZero_two_pow]
  have hsq : 2 ^ (k - m) * 2 ^ (k - m) = 4 ^ (k - m) := two_pow_mul_self _
  have hge : 4 ^ (k - m) ≤ geoSum4 (k - m) := by
    cases hkm : k - m with
    | zero => simp [geoSum4]
    | succ a => simp [geoSum4]
  have hnext : m + 1 ≤ k → geoSum4 (k - m) = geoSum4 (k - (m + 1)) + 4 ^ (k - m) := by
    intro h
    obtain ⟨a, ha⟩ : ∃ a, k - m = a + 1 := ⟨k - m - 1, by omega⟩
    have : k - (m + 1) = a := by omega
    rw [this, ha, geoSum4]
  unfold mipStep
  simp only [hw, hsq]
  split
  · obtain ⟨b', hb', hl'⟩ := foldlM_option_inv (fun b : List Nat => b.length = L)
      (fun b i => threadFunction E input faceDataSize st.outBufP (2 ^ (k - m)) m
        ((m : Int) + S.maxMip - ((S.mipCnt : Int) - 1)) S.maxMip
        (i * 2 ^ (k - m) / (if 2 ^ (k - m) < 16 then 1 else
          if 2 ^ (k - m) >>> 3 < st.threadCnt then 2 ^ (k - m) >>> 3 else st.threadCnt))
        ((i + 1) * 2 ^ (k - m) / (if 2 ^ (k - m) < 16 then 1 else
          if 2 ^ (k - m) >>> 3 < st.threadCnt then 2 ^ (k - m) >>> 3 else st.threadCnt)) b)
      (List.range (if 2 ^ (k - m) < 16 then 1 else
          if 2 ^ (k - m) >>> 3 < st.threadCnt then 2 ^ (k - m) >>> 3 else st.threadCnt))
      st.buf hlen (by
        intro b i hi hb
        have hi' := List.mem_range.mp hi
        have hband := band_le i (2 ^ (k - m)) _ hi'
        have hmul := Nat.mul_le_mul_right (2 ^ (k - m)) hband
        obtain ⟨b', hs, hl⟩ := processImage_ok
          (E.texel (threadFunctionKernel ((m : Int) + S.maxMip - ((S.mipCnt : Int) - 1))
            S.maxMip) input m) faceDataSize st.outBufP (2 ^ (k - m))
          (i * 2 ^ (k - m) / (if 2 ^ (k - m) < 16 then 1 else
            if 2 ^ (k - m) >>> 3 < st.threadCnt then 2 ^ (k - m) >>> 3 else st.threadCnt))
          ((i + 1) * 2 ^ (k - m) / (if 2 ^ (k - m) < 16 then 1 else
            if 2 ^ (k - m) >>> 3 < st.threadCnt then 2 ^ (k - m) >>> 3 else st.threadCnt))
          b (by rw [hsq] at hmul; omega)
        exact ⟨b', hs, by omega⟩)
    rw [hb']
    refine ⟨_, rfl, hl', ?_⟩
    intro h
    have := hnext h
    simp only []
    omega
  · refine ⟨_, rfl, hlen, ?_⟩
    intro h
    have := hnext h
    simp only []
    omega

theorem patchHeader_length (E : CubeEnv) (maxMip : Int) (buf : List Nat) :
    (patchHeader E maxMip buf).length = buf.length := by
  simp [patchHeader]

/-- An input that passes the header checks with face size `2 ^ k`, for a target size
`2 ^ j` with `j <= k <= 14`, and whose length is `148 + 48 * 4 ^ k` or
`148 + 16 * (4 ^ (k + 1) - 1)`: `convertImage` returns `148 + 8 * (4 ^ (j + 1) - 1)`, which
is smaller than the length of the input, and the buffer keeps its length. -/
theorem convertImage_accepted_size (E : CubeEnv) (buf : List Nat) (j k : Nat)
    (hw : E.width = 2 ^ j) (hh : E.height = 2 ^ j) (hjk : j ≤ k) (hk : k ≤ 14)
    (hmagic : readUInt32Fast buf 0 = 0x20534444) (hdx : readUInt32Fast buf 84 = 0x30315844)
    (hfmt : readUInt32Fast buf 128 = E.dxgiFormat)
    (hw0 : readUInt32Fast buf 16 = 2 ^ k) (hh0 : readUInt32Fast buf 12 = 2 ^ k)
    (hlen : buf.length = 148 + 48 * 4 ^ k ∨ buf.length = 148 + 16 * (4 ^ (k + 1) - 1)) :
    ∃ out, convertImage E buf = some (148 + 8 * (4 ^ (j + 1) - 1), out) ∧
      out.length = buf.length ∧ 148 + 8 * (4 ^ (j + 1) - 1) < buf.length := by
  have hk4 : 4 ^ k ≤ 4 ^ 14 := Nat.pow_le_pow_right (by norm_num) hk
  have h414 : (4 : Nat) ^ 14 = 268435456 := by norm_num
  have hkp : 4 ^ (k + 1) = 4 * 4 ^ k := by ring
  have hGk := geoSum4_closed k
  have hGj := geoSum4_closed j
  have hGjk := geoSum4_mono hjk
  have hpk : 0 < 4 ^ k := Nat.pos_pow_of_pos k (by norm_num)
  have hmin : min k j = j := by omega
  have hS := mipSizeLoop_two_pow j k 64 ⟨0, 0, 0, -1, 0⟩ (by omega)
    (by intro _; simp only []; omega) (by simp only []; omega) (by simp only []; omega)
  simp only [if_true, Nat.zero_add, hmin] at hS
  unfold convertImage
  rw [if_neg (by omega)]
  have hnot : ¬ (readUInt32Fast buf 0 ≠ 0x20534444 ∨ readUInt32Fast buf 84 ≠ 0x30315844 ∨
      readUInt32Fast buf 16 ≠ readUInt32Fast buf 12 ∨ readUInt32Fast buf 16 < E.width ∨
      readUInt32Fast buf 16 &&& (readUInt32Fast buf 16 - 1) ≠ 0 ∨
      readUInt32Fast buf 128 ≠ E.dxgiFormat) := by
    rw [hmagic, hdx, hfmt, hw0, hh0, hw, land_pred_two_pow]
    have : 2 ^ j ≤ 2 ^ k := Nat.pow_le_pow_right (by norm_num) hjk
    simp only [ne_eq, not_true_eq_false, false_or, not_lt, or_false]
    exact this
  rw [if_neg hnot]
  simp only [hw0, hh0, hw, hh, hS]
  have hs1 : (4 ^ k * 8 * 6 + 148) % 2 ^ 64 = 148 + 48 * 4 ^ k := by
    rw [Nat.mod_eq_of_lt (by omega)]; omega
  have hs2 : (geoSum4 k * 8 * 6 + 148) % 2 ^ 64 = 148 + 16 * (4 ^ (k + 1) - 1) := by
    rw [Nat.mod_eq_of_lt (by omega)]; omega
  have hfd : geoSum4 j * 4 % 2 ^ 64 = 4 * geoSum4 j := by
    rw [Nat.mod_eq_of_lt (by omega)]; omega
  rw [hs1, hs2, hfd]
  rw [if_neg (by omega)]
  have hsq : 6 * 2 ^ k * 2 ^ k = 6 * 4 ^ k := by
    rw [Nat.mul_assoc, two_pow_mul_self]
  rw [hsq, if_neg (by omega)]
  obtain ⟨st, hst, hl, -⟩ := foldlM_range_inv
    (fun m (st : FillState) => st.buf.length = buf.length ∧
      (m ≤ k → st.outBufP + 4 * geoSum4 (k - m) = 148 + 4 * geoSum4 k))
    (mipStep E buf (2 ^ k) (2 ^ k)
      { sizeRequired1 := 4 ^ k, sizeRequired2 := geoSum4 k, mipCnt := k + 1,
        maxMip := -1 + ((j + 1 : Nat) : Int), faceDataSize := geoSum4 j } (4 * geoSum4 j))
    (k + 1) ⟨buf, 148, min (max E.hardwareConcurrency 1) 16⟩
    ⟨rfl, fun _ => by simp⟩
    (by
      intro m st hm hP
      obtain ⟨st', h1, h2, h3⟩ := mipStep_ok E buf k
        { sizeRequired1 := 4 ^ k, sizeRequired2 := geoSum4 k, mipCnt := k + 1,
          maxMip := -1 + ((j + 1 : Nat) : Int), faceDataSize := geoSum4 j } (4 * geoSum4 j)
        buf.length (by omega) st m (by omega) hP.1 (hP.2 (by omega))
      exact ⟨st', h1, h2, h3⟩)
  rw [hst]
  simp only []
  have hn : (4 * geoSum4 j * 6 + 148) % 2 ^ 64 = 148 + 8 * (4 ^ (j + 1) - 1) := by
    rw [Nat.mod_eq_of_lt (by omega)]
    omega
  rw [hn]
  exact ⟨patchHeader E (-1 + ((j + 1 : Nat) : Int)) st.buf, rfl,
    by rw [patchHeader_length, hl], by omega⟩

theorem processedTexels_two_pow (k j : Nat) :
    processedTexels (2 ^ k) k (2 ^ j) = geoSum4 (min k j) := by
  induction k with
  | zero =>
    have : (1 : Nat) ≤ 2 ^ j := Nat.two_pow_pos j
    simp [processedTexels, geoSum4, List.range_succ, this]
  | succ k ih =>
    have hmap : (List.range (k + 1 + 1)).map (fun m => 2 ^ (k + 1) >>> m)
        = 2 ^ (k + 1) :: (List.range (k + 1)).map (fun m => 2 ^ k >>> m) := by
      rw [List.range_succ_eq_map, List.map_cons, List.map_map]
      congr 1
      apply List.map_congr_left
      intro m _
      simp only [Function.comp, Nat.shiftRight_eq_div_pow, Nat.shiftRight_zero]
      rw [pow_succ 2 m, pow_succ 2 k, Nat.mul_comm (2 ^ m) 2, Nat.mul_comm (2 ^ k) 2,
        Nat.mul_div_mul_left _ _ (by norm_num)]
    have hle : (2 ^ (k + 1) ≤ 2 ^ j) ↔ k + 1 ≤ j := Nat.pow_le_pow_iff_right (by norm_num)
    unfold processedTexels at ih ⊢
    rw [hmap, List.filter_cons]
    by_cases hj : k + 1 ≤ j
    · have h1 : min k j = k := by omega
      have h2 : min (k + 1) j = k + 1 := by omega
      rw [h1] at ih
      simp only [hle, hj, decide_True, if_true, List.map_cons, List.sum_cons, ih, h2, geoSum4,
        two_pow_mul_self]
      omega
    · have h1 : min k j = j := by omega
      have h2 : min (k + 1) j = j := by omega
      rw [h1] at ih
      simp only [hle, hj, decide_False, Bool.false_eq_true, if_false, ih, h2]

/-- C6 (failing input): the 148-byte header that declares faces of `2 ^ 30` by `2 ^ 30`
texels passes every check of `convertImage`, because the required size
`2 ^ 60 * 8 * 6 + 148` wraps around to 148 in `size_t`; the call then has no result (the
resize of `inBuf` to `6 * 2 ^ 60` elements throws), for a target size of 2 as for one of
256, whereas the size the function would report, 268 for target size 2, is larger than the
input. -/
theorem convertImage_wrapped_size_accepted :
    (ddsHeader (2 ^ 30) (2 ^ 30) 10).length = 148 ∧
    mipSizeLoop 2 2 64 (2 ^ 30) (2 ^ 30) ⟨0, 0, 0, -1, 0⟩
      = some ⟨2 ^ 60, 1537228672809129301, 31, 1, 5⟩ ∧
    (2 ^ 60 * 8 * 6 + 148) % 2 ^ 64 = 148 ∧
    (5 * 4 % 2 ^ 64 * 6 + 148) % 2 ^ 64 = 268 ∧
    convertImage sampleEnv (ddsHeader (2 ^ 30) (2 ^ 30) 10) = none ∧
    convertImage { sampleEnv with width := 256, height := 256 }
      (ddsHeader (2 ^ 30) (2 ^ 30) 10) = none ∧
    convertImage sampleEnv (ddsHeader (2 ^ 30) (2 ^ 30) 10)
      ≠ some (148, ddsHeader (2 ^ 30) (2 ^ 30) 10) := by
  refine ⟨by decide!, by decide!, by decide!, by decide!, by decide!, by decide!, by decide!⟩

/-! ## The cube-map cache -/

theorem foldlM_option_preserves {α β : Type} (P : β → Prop) (f : β → α → Option β)
    (hf : ∀ b a b', f b a = some b' → P b → P b') (l : List α) (b b' : β)
    (h : l.foldlM f b = some b') (hb : P b) : P b' := by
  induction l generalizing b with
  | nil =>
    simp only [List.foldlM_nil] at h
    cases h
    exact hb
  | cons a l ih =>
    rw [List.foldlM_cons] at h
    cases hfa : f b a with
    | none => rw [hfa] at h; cases h
    | some b1 =>
      rw [hfa] at h
      exact ih b1 h (hf b a b1 hfa hb)

theorem storeTexel_length (buf : List Nat) (off tmp : Nat) (b' : List Nat)
    (h : storeTexel buf off tmp = some b') : b'.length = buf.length := by
  unfold storeTexel at h
  split at h
  · cases h; simp
  · cases h

theorem processImage_length (texel : Nat → Nat → Nat → Nat) (faceDataSize outBufP w y0 y1 : Nat)
    (buf b' : List Nat) (h : processImage texel faceDataSize outBufP w y0 y1 buf = some b') :
    b'.length = buf.length := by
  unfold processImage at h
  refine foldlM_option_preserves (fun b : List Nat => b.length = buf.length) _ ?_ _ _ _ h rfl
  intro b n b1 h1 hb
  refine foldlM_option_preserves (fun b : List Nat => b.length = buf.length) _ ?_ _ _ _ h1 hb
  intro b y b2 h2 hb
  refine foldlM_option_preserves (fun b : List Nat => b.length = buf.length) _ ?_ _ _ _ h2 hb
  intro b x b3 h3 hb
  rw [storeTexel_length _ _ _ _ h3, hb]

theorem mipStep_length (E : CubeEnv) (input : List Nat) (w0 h0 : Nat) (S : MipSizes)
    (faceDataSize : Nat) (st st' : FillState) (m : Nat)
    (h : mipStep E input w0 h0 S faceDataSize st m = some st') :
    st'.buf.length = st.buf.length := by
  unfold mipStep at h
  simp only [] at h
  split at h
  · simp only [Option.map_map, Option.map_eq_some', Function.comp] at h
    obtain ⟨b, hb, rfl⟩ := h
    simp only []
    refine foldlM_option_preserves (fun b : List Nat => b.length = st.buf.length) _ ?_ _ _ _
      hb rfl
    intro b i b1 h1 hb
    unfold threadFunction at h1
    rw [processImage_length _ _ _ _ _ _ _ _ h1, hb]
  · simp only [Option.map_some', Option.some.injEq] at h
    rw [← h]

/-- The buffer keeps its length through `convertImage`. -/
theorem convertImage_length (E : CubeEnv) (buf out : List Nat) (n : Nat)
    (h : convertImage E buf = some (n, out)) : out.length = buf.length := by
  unfold convertImage at h
  simp only [] at h
  split at h
  · cases h; rfl
  · split at h
    · cases h; rfl
    · split at h
      · cases h
      · split at h
        · cases h; rfl
        · split at h
          · cases h
          · split at h
            · cases h
            · rename_i st hst
              cases h
              rw [patchHeader_length]
              exact foldlM_option_preserves
                (fun s : FillState => s.buf.length = buf.length) _
                (fun s m s' hs hl => by
                  show s'.buf.length = buf.length
                  rw [mipStep_length _ _ _ _ _ _ _ _ _ hs]
                  exact hl)
                _ _ _ hst rfl

theorem cache_hit (E : CubeEnv) (c : CubeCache) (buf : List Nat)
    (h0 : 0 < (c.cachedTextures (cacheKey E buf)).length)
    (hle : (c.cachedTextures (cacheKey E buf)).length ≤ buf.length) :
    CubeCache.convertImage E c buf = some ((c.cachedTextures (cacheKey E buf)).length,
      c.cachedTextures (cacheKey E buf) ++ buf.drop (c.cachedTextures (cacheKey E buf)).length,
      c) := by
  unfold CubeCache.convertImage
  simp only [h0, hle, if_true]

/-- The two ways a call of the cache returns: a hit, which copies the stored bytes and
leaves the cache alone, or a miss, which runs the filter once and stores its output when
that is non-empty and shorter than the input. -/
theorem cache_call_cases (E : CubeEnv) (c c1 : CubeCache) (buf out : List Nat) (n : Nat)
    (h : CubeCache.convertImage E c buf = some (n, out, c1)) :
    (0 < (c.cachedTextures (cacheKey E buf)).length ∧
      n = (c.cachedTextures (cacheKey E buf)).length ∧ n ≤ buf.length ∧
      out = c.cachedTextures (cacheKey E buf) ++ buf.drop n ∧ c1 = c) ∨
    (c.cachedTextures (cacheKey E buf) = [] ∧ convertImage E buf = some (n, out) ∧
      c1.filterCalls = c.filterCalls + 1 ∧
      c1.cachedTextures = if n ≠ 0 ∧ n < buf.length then
        (fun k' => if k' = cacheKey E buf then out.take n else c.cachedTextures k')
        else c.cachedTextures) := by
  unfold CubeCache.convertImage at h
  simp only [] at h
  split at h
  · rename_i h0
    split at h
    · rename_i hle
      simp only [Option.some.injEq, Prod.mk.injEq] at h
      obtain ⟨rfl, rfl, rfl⟩ := h
      exact Or.inl ⟨h0, rfl, hle, rfl, rfl⟩
    · cases h
  · rename_i h0
    have hnil : c.cachedTextures (cacheKey E buf) = [] :=
      List.length_eq_zero.mp (by omega)
    split at h
    · cases h
    · rename_i r hr
      split at h
      · rename_i hc
        simp only [Option.some.injEq, Prod.mk.injEq] at h
        obtain ⟨rfl, rfl, rfl⟩ := h
        exact Or.inr ⟨hnil, hr, rfl, by rw [if_pos hc]⟩
      · rename_i hc
        simp only [Option.some.injEq, Prod.mk.injEq] at h
        obtain ⟨rfl, rfl, rfl⟩ := h
        exact Or.inr ⟨hnil, hr, rfl, by rw [if_neg hc]⟩

/-- A call never changes an entry that is not empty. -/
theorem cache_call_keeps (E : CubeEnv) (c c1 : CubeCache) (buf out : List Nat) (n : Nat)
    (h : CubeCache.convertImage E c buf = some (n, out, c1)) (k : Nat)
    (hk : c.cachedTextures k ≠ []) : c1.cachedTextures k = c.cachedTextures k := by
  rcases cache_call_cases E c c1 buf out n h with ⟨_, _, _, _, rfl⟩ | ⟨hnil, _, _, htex⟩
  · rfl
  · rw [htex]
    split
    · have hne : k ≠ cacheKey E buf := by
        intro e
        rw [e] at hk
        exact hk hnil
      simp only [hne, if_false]
    · rfl

theorem cache_reach_keeps (E : CubeEnv) (c c2 : CubeCache) (hr : CubeCache.Reach E c c2)
    (k : Nat) (hk : c.cachedTextures k ≠ []) : c2.cachedTextures k = c.cachedTextures k := by
  induction hr with
  | refl => rfl
  | step c1 c2 buf n out _ hcall ih =>
    rw [cache_call_keeps E c1 c2 buf out n hcall k (by rw [ih]; exact hk), ih]

/-- After a call that returned `n` with `0 < n < bufSize`, the entry of the key of the input
is the first `n` bytes of the output. -/
theorem cache_call_entry (E : CubeEnv) (c c1 : CubeCache) (buf out : List Nat) (n : Nat)
    (h : CubeCache.convertImage E c buf = some (n, out, c1)) (hn : 0 < n)
    (hnL : n < buf.length) :
    c1.cachedTextures (cacheKey E buf) = out.take n ∧ (out.take n).length = n := by
  rcases cache_call_cases E c c1 buf out n h with
    ⟨_, hn', _, hout, rfl⟩ | ⟨_, hconv, _, htex⟩
  · have ht : out.take n = c1.cachedTextures (cacheKey E buf) := by
      rw [hout, hn', List.take_left]
    rw [ht]
    exact ⟨rfl, hn'.symm⟩
  · have hlen := convertImage_length E buf out n hconv
    rw [htex, if_pos ⟨by omega, hnL⟩]
    refine ⟨by simp, ?_⟩
    rw [List.length_take]
    omega

/-- After a call that returned `n` with `0 < n < bufSize`, every cache that holds the first
`n` bytes of the output under the key of the input answers a call on the same bytes with a
hit. -/
theorem cache_hit_stored (E : CubeEnv) (c2 : CubeCache) (B out1 : List Nat) (n : Nat)
    (hn : 0 < n) (hnL : n < B.length) (hlen : (out1.take n).length = n)
    (h2 : c2.cachedTextures (cacheKey E B) = out1.take n) :
    CubeCache.convertImage E c2 B = some (n, out1.take n ++ B.drop n, c2) := by
  have hhit := cache_hit E c2 B (by rw [h2, hlen]; exact hn) (by rw [h2, hlen]; omega)
  rw [h2, hlen] at hhit
  exact hhit

/-- C7: the cache is a transparent memoization of the filter. If a call on the bytes `B`
returns `n` with `0 < n < bufSize`, then on every cache reached from there by further calls,
a call on the same bytes returns the same `n` and leaves in the first `n` bytes of the buffer
the first `n` bytes the first call produced. -/
theorem cache_memoizes (E : CubeEnv) (c c1 c2 : CubeCache) (B out1 : List Nat) (n : Nat)
    (h1 : CubeCache.convertImage E c B = some (n, out1, c1)) (hn : 0 < n)
    (hnL : n < B.length) (hr : CubeCache.Reach E c1 c2) :
    ∃ out2, CubeCache.convertImage E c2 B = some (n, out2, c2) ∧
      out2.take n = out1.take n := by
  obtain ⟨hentry, hlen⟩ := cache_call_entry E c c1 B out1 n h1 hn hnL
  have hne : c1.cachedTextures (cacheKey E B) ≠ [] := by
    intro h
    rw [hentry] at h
    rw [h] at hlen
    simp at hlen
    omega
  have h2 : c2.cachedTextures (cacheKey E B) = out1.take n := by
    rw [cache_reach_keeps E c1 c2 hr _ hne, hentry]
  exact ⟨_, cache_hit_stored E c2 B out1 n hn hnL hlen h2, by rw [List.take_left' hlen]⟩

theorem sample_input_accepted :
    ∃ out, convertImage sampleEnv (ddsHeader 4 4 10 ++ List.replicate 768 0) = some (268, out) ∧
      out.length = (ddsHeader 4 4 10 ++ List.replicate 768 0).length := by
  obtain ⟨out, h, hl, _⟩ := convertImage_accepted_size sampleEnv
    (ddsHeader 4 4 10 ++ List.replicate 768 0) 1 2 rfl rfl (by norm_num) (by norm_num)
    (by decide!) (by decide!) (by decide!) (by decide!) (by decide!) (Or.inl (by decide!))
  exact ⟨out, h, hl⟩

theorem cache_memoizes_witness :
    ∃ out1 c1, CubeCache.convertImage sampleEnv CubeCache.empty
        (ddsHeader 4 4 10 ++ List.replicate 768 0) = some (268, out1, c1) ∧
      ∃ out2, CubeCache.convertImage sampleEnv c1
        (ddsHeader 4 4 10 ++ List.replicate 768 0) = some (268, out2, c1) ∧
        out2.take 268 = out1.take 268 := by
  obtain ⟨out, h, _⟩ := sample_input_accepted
  have h1 : CubeCache.convertImage sampleEnv CubeCache.empty
      (ddsHeader 4 4 10 ++ List.replicate 768 0) = some (268, out,
        { cachedTextures := fun k' =>
            if k' = cacheKey sampleEnv (ddsHeader 4 4 10 ++ List.replicate 768 0)
            then out.take 268 else [],
          filterCalls := 1 }) := by
    unfold CubeCache.convertImage
    simp only [CubeCache.empty, List.length_nil, Nat.lt_irrefl, if_false, h]
    rw [if_pos ⟨by norm_num, by decide!⟩]
  exact ⟨_, _, h1, cache_memoizes sampleEnv _ _ _ _ _ 268 h1 (by norm_num) (by decide!)
    (CubeCache.Reach.refl _)⟩

/-- C8 (counterexample): on a buffer of one byte, which the filter returns as it is, two
calls on an empty cache run the filter twice: nothing was stored by the first call, and the
second call is a miss as well. -/
theorem cache_rejected_input_runs_filter_twice :
    (CubeCache.convertImage sampleEnv CubeCache.empty [0]).map
      (fun r => (r.1, r.2.1, r.2.2.filterCalls)) = some (1, [0], 1) ∧
    (CubeCache.convertTwice sampleEnv CubeCache.empty [0]).map
      (fun r => (r.1, r.2.1, r.2.2.filterCalls)) = some (1, [0], 2) :=
  ⟨by decide!, by decide!⟩

/-- C8 (amended): when a call on the bytes `B` returns `n` with `0 < n < bufSize`, a second
call on the same bytes is a cache hit: it returns `n` and leaves the cache, with its count
of filter runs, as the first call left it; the two calls have run the filter once if the key
was not in the cache before, and not at all otherwise. When the key is not in the cache and
the filter returns a size that is 0 or not below `bufSize`, nothing is stored and the second
call runs the filter again. -/
theorem cache_second_call (E : CubeEnv) (c c1 : CubeCache) (B out1 : List Nat) (n : Nat)
    (h1 : CubeCache.convertImage E c B = some (n, out1, c1)) :
    (0 < n → n < B.length →
      (∃ out2, CubeCache.convertTwice E c B = some (n, out2, c1)) ∧
      (c.cachedTextures (cacheKey E B) = [] → c1.filterCalls = c.filterCalls + 1) ∧
      (c.cachedTextures (cacheKey E B) ≠ [] → c1.filterCalls = c.filterCalls)) ∧
    (c.cachedTextures (cacheKey E B) = [] → ¬ (0 < n ∧ n < B.length) →
      ∃ c2, CubeCache.convertTwice E c B = some (n, out1, c2) ∧
        c2.filterCalls = c.filterCalls + 2) := by
  constructor
  · intro hn hnL
    obtain ⟨hentry, hlen⟩ := cache_call_entry E c c1 B out1 n h1 hn hnL
    have h2 := cache_hit_stored E c1 B out1 n hn hnL hlen hentry
    refine ⟨⟨out1.take n ++ B.drop n, ?_⟩, ?_, ?_⟩
    · unfold CubeCache.convertTwice
      rw [h1]
      exact h2
    · intro hnil
      rcases cache_call_cases E c c1 B out1 n h1 with ⟨h0, _⟩ | ⟨_, _, hcalls, _⟩
      · rw [hnil] at h0
        simp at h0
      · exact hcalls
    · intro hne
      rcases cache_call_cases E c c1 B out1 n h1 with ⟨_, _, _, _, rfl⟩ | ⟨hnil, _⟩
      · rfl
      · exact absurd hnil hne
  · intro hnil hnot
    rcases cache_call_cases E c c1 B out1 n h1 with ⟨h0, _⟩ | ⟨_, hconv, hcalls, htex⟩
    · rw [hnil] at h0
      simp at h0
    · have hcond : ¬ (n ≠ 0 ∧ n < B.length) := fun h => hnot ⟨by omega, h.2⟩
      rw [if_neg hcond] at htex
      have h2 : CubeCache.convertImage E c1 B = some (n, out1,
          { c1 with filterCalls := c1.filterCalls + 1 }) := by
        unfold CubeCache.convertImage
        simp only [htex, hnil, List.length_nil, Nat.lt_irrefl, if_false, hconv]
        rw [if_neg hcond]
      refine ⟨{ c1 with filterCalls := c1.filterCalls + 1 }, ?_, ?_⟩
      · unfold CubeCache.convertTwice
        rw [h1]
        exact h2
      · simp only [hcalls]

theorem cache_second_call_witness :
    ∃ out1 c1, CubeCache.convertImage sampleEnv CubeCache.empty
        (ddsHeader 4 4 10 ++ List.replicate 768 0) = some (268, out1, c1) ∧
      (∃ out2, CubeCache.convertTwice sampleEnv CubeCache.empty
        (ddsHeader 4 4 10 ++ List.replicate 768 0) = some (268, out2, c1)) ∧
      c1.filterCalls = 1 := by
  obtain ⟨out, h, _⟩ := sample_input_accepted
  have h1 : CubeCache.convertImage sampleEnv CubeCache.empty
      (ddsHeader 4 4 10 ++ List.replicate 768 0) = some (268, out,
        { cachedTextures := fun k' =>
            if k' = cacheKey sampleEnv (ddsHeader 4 4 10 ++ List.replicate 768 0)
            then out.take 268 else [],
          filterCalls := 1 }) := by
    unfold CubeCache.convertImage
    simp only [CubeCache.empty, List.length_nil, Nat.lt_irrefl, if_false, h]
    rw [if_pos ⟨by norm_num, by decide!⟩]
  have h2 := (cache_second_call sampleEnv _ _ _ _ 268 h1).1 (by norm_num) (by decide!)
  exact ⟨_, _, h1, h2.1, rfl⟩

/-! ## The blocks of a parsed mesh -/

theorem skinnedStream_wellFormed : skinnedStream.WellFormed where
  indexCount_lt := by norm_num [skinnedStream]
  triangles_length := by simp [skinnedStream]
  triangles_valid := by simp [skinnedStream, Triangle.Valid]
  scaleBits_lt := by norm_num [skinnedStream]
  weightsPerVertex_lt := by norm_num [skinnedStream]
  positions_length := by norm_num [skinnedStream]
  positions_valid := by simp [skinnedStream]
  uv0_length := by norm_num [skinnedStream]
  uv0_valid := by simp [skinnedStream]
  uv1_length := by norm_num [skinnedStream]
  uv1_valid := by simp [skinnedStream]
  colors_length := by norm_num [skinnedStream]
  colors_valid := by simp [skinnedStream]
  normals_length := by norm_num [skinnedStream]
  normals_valid := by simp [skinnedStream]
  tangents_length := by simp [skinnedStream]
  tangents_valid := by simp [skinnedStream]
  weightCount_lt := by norm_num [skinnedStream]
  weights_length := by simp [skinnedStream, MeshStream.weightVertices]
  weights_length_lt := by norm_num [skinnedStream]
  weights_valid := by
    simp only [skinnedStream, List.mem_cons, List.mem_singleton, List.not_mem_nil, or_false]
    rintro ps (rfl | rfl)
    · exact ⟨rfl, by decide⟩
    · exact ⟨rfl, by decide⟩
  lods_length := by norm_num [skinnedStream]
  lods_valid := by simp [skinnedStream, Triangle.Valid]

theorem unweightedStream_wellFormed : unweightedStream.WellFormed where
  indexCount_lt := by norm_num [unweightedStream, minimalStream]
  triangles_length := by simp [unweightedStream, minimalStream]
  triangles_valid := by simp [unweightedStream, minimalStream, Triangle.Valid]
  scaleBits_lt := by norm_num [unweightedStream, minimalStream]
  weightsPerVertex_lt := by norm_num [unweightedStream, minimalStream]
  positions_length := by norm_num [unweightedStream, minimalStream]
  positions_valid := by simp [unweightedStream, minimalStream]
  uv0_length := by norm_num [unweightedStream, minimalStream]
  uv0_valid := by simp [unweightedStream, minimalStream]
  uv1_length := by norm_num [unweightedStream, minimalStream]
  uv1_valid := by simp [unweightedStream, minimalStream]
  colors_length := by norm_num [unweightedStream, minimalStream]
  colors_valid := by simp [unweightedStream, minimalStream]
  normals_length := by norm_num [unweightedStream, minimalStream]
  normals_valid := by simp [unweightedStream, minimalStream]
  tangents_length := by simp [unweightedStream, minimalStream]
  tangents_valid := by simp [unweightedStream, minimalStream]
  weightCount_lt := by norm_num [unweightedStream, minimalStream]
  weights_length := by simp [unweightedStream, minimalStream, MeshStream.weightVertices]
  weights_length_lt := by norm_num [unweightedStream, minimalStream]
  weights_valid := by simp [unweightedStream, minimalStream]
  lods_length := by norm_num [unweightedStream, minimalStream]
  lods_valid := by simp [unweightedStream, minimalStream]

theorem mapFrom_getElem? {α β : Type} (f : Nat → β → α) (i : Nat) (xs : List β) (j : Nat) :
    (mapFrom f i xs)[j]? = (xs[j]?).map (f (i + j)) := by
  induction xs generalizing i j with
  | nil => simp [mapFrom]
  | cons x xs ih =>
    cases j with
    | zero => simp [mapFrom]
    | succ j =>
      simp only [mapFrom, List.getElem?_cons_succ, ih]
      rw [show i + 1 + j = i + (j + 1) by omega]

/-- C11: for every 32-bit word the flag that `UnpackUDEC3` returns is true exactly when bit 31
of the word is set, that is when the word is at least 2^31; it is the same for every decoder
of the three 10-bit fields, and a word with the same bit 31 and any other lower 31 bits
gives the same flag. -/
theorem UnpackUDEC3_flag (C : Codec) (n : Nat) (hn : n < 2 ^ 32) :
    ((UnpackUDEC3 C n).2 = true ↔ 2 ^ 31 ≤ n) ∧
    (UnpackUDEC3 C n).2 = n.testBit 31 ∧
    (∀ C' : Codec, (UnpackUDEC3 C' n).2 = (UnpackUDEC3 C n).2) ∧
    ∀ lo, lo < 2 ^ 31 → (UnpackUDEC3 C (2 ^ 31 * (n / 2 ^ 31) + lo)).2 = (UnpackUDEC3 C n).2 := by
  have hq : n / 2 ^ 31 < 2 := by
    rw [Nat.div_lt_iff_lt_mul (by norm_num)]
    omega
  refine ⟨?_, ?_, fun _ => rfl, ?_⟩
  · simp only [UnpackUDEC3, decide_eq_true_eq]
    constructor
    · intro h
      by_contra hlt
      have : n / 2 ^ 31 = 0 := Nat.div_eq_of_lt (by omega)
      rw [this] at h
      simp at h
    · intro h
      have : 1 ≤ n / 2 ^ 31 := (Nat.le_div_iff_mul_le (by norm_num)).mpr (by omega)
      have : n / 2 ^ 31 = 1 := by omega
      rw [this]
  · simp only [UnpackUDEC3, Nat.testBit_to_div_mod]
  · intro lo hlo
    simp only [UnpackUDEC3]
    have : (2 ^ 31 * (n / 2 ^ 31) + lo) / 2 ^ 31 = n / 2 ^ 31 := by
      rw [Nat.mul_add_div (by norm_num), Nat.div_eq_of_lt hlo, Nat.add_zero]
    rw [this]

theorem UnpackUDEC3_flag_witness :
    (UnpackUDEC3 Codec.spec 0x80000001).2 = true ∧ (UnpackUDEC3 Codec.spec 0x7FFFFFFF).2 = false :=
  ⟨((UnpackUDEC3_flag Codec.spec 0x80000001 (by norm_num)).1).2 (by norm_num),
   by
    have h := (UnpackUDEC3_flag Codec.spec 0x7FFFFFFF (by norm_num)).1
    cases hb : (UnpackUDEC3 Codec.spec 0x7FFFFFFF).2 with
    | false => rfl
    | true => exact absurd (h.1 hb) (by norm_num)⟩

theorem fillLoop_fst_length {α : Type} (rd : Nat → Stream → α × Stream) (n i : Nat)
    (v : List α) (s : Stream) : (fillLoop rd n i v s).1.length = v.length := by
  induction n generalizing i v s with
  | zero => rfl
  | succ n ih =>
    simp only [fillLoop]
    rw [ih, List.length_set]

theorem readWeights_length (wpv : Nat) (m m' : MeshFile) (s s' : Stream)
    (hm : m.weights = []) (h : readWeights wpv m s = some (m', s')) :
    m'.weights.length = if 0 < wpv then (readU32 s).1 / wpv else 0 := by
  unfold readWeights at h
  simp only [resizeWeights_eq, hm] at h
  generalize hws : (if 0 < (readU32 s).1 ∧ 0 < wpv
    then resize ((readU32 s).1 / wpv) ([] : List BoneWeightsUNorm) else []) = ws at h
  have hlen : ws.length = if 0 < wpv then (readU32 s).1 / wpv else 0 := by
    rw [← hws]
    by_cases hw : 0 < wpv
    · by_cases hn : 0 < (readU32 s).1
      · simp [hw, hn, resize_nil_length]
      · have h0 : (readU32 s).1 = 0 := by omega
        simp [hw, h0]
    · simp [hw]
  by_cases hg : 2 ^ 31 ≤ ws.length
  · rw [if_pos hg] at h
    cases h
  · rw [if_neg hg] at h
    simp only [Option.some.injEq, Prod.mk.injEq] at h
    obtain ⟨rfl, -⟩ := h
    simp only [fillLoop_fst_length]
    exact hlen

/-- C12: on a well-formed stream a new `MeshFile` parses to a mesh whose number of weight
entries is `weightCount / weightsPerVertex` when `weightsPerVertex` is positive, and 0 when
`weightsPerVertex` is 0, whatever `weightCount` is; the guarded resize always has a value, so
the quotient is never evaluated with a zero divisor; and on any stream, whenever the weight
block returns for an object without weights, the number of entries is that quotient of the
count it has read, or 0 when `weightsPerVertex` is 0. -/
theorem readMesh_weight_entries (C : Codec) (L : MeshStream) (hwf : L.WellFormed)
    (hs : (float32OfBits L.scaleBits).le0 = false) :
    ∃ m', readMesh C (MeshFile.fresh L.encode) = some (L.positions.length, m') ∧
      (0 < L.weightsPerVertex → m'.weights.length = L.weightCount / L.weightsPerVertex) ∧
      (L.weightsPerVertex = 0 → m'.weights.length = 0) ∧
      (∀ (numWeights numWeightsPerVertex : Nat) (ws : List BoneWeightsUNorm),
        resizeWeights numWeights numWeightsPerVertex ws ≠ none ∧
        (numWeightsPerVertex = 0 →
          resizeWeights numWeights numWeightsPerVertex ws = some ws)) ∧
      ∀ (wpv : Nat) (m m1 : MeshFile) (s s1 : Stream), m.weights = [] →
        readWeights wpv m s = some (m1, s1) →
        m1.weights.length = if 0 < wpv then (readU32 s).1 / wpv else 0 := by
  refine ⟨L.mesh C, readMesh_encode C L hwf hs, ?_, ?_, ?_,
    fun wpv m m1 s s1 hm h => readWeights_length wpv m m1 s s1 hm h⟩
  · intro h
    simp only [MeshStream.mesh, mapFrom_length, hwf.weights_length, MeshStream.weightVertices]
    by_cases h0 : 0 < L.weightCount
    · rw [if_pos ⟨h0, h⟩]
    · have : L.weightCount = 0 := by omega
      simp [this]
  · intro h
    simp [MeshStream.mesh, mapFrom_length, hwf.weights_length, MeshStream.weightVertices, h]
  · intro nw wpv ws
    rw [resizeWeights_eq]
    refine ⟨by simp, ?_⟩
    intro h
    simp [h]

theorem readMesh_weight_entries_witness :
    (∃ m', readMesh Codec.spec (MeshFile.fresh skinnedStream.encode) = some (1, m') ∧
      m'.weights.length = 2) ∧
    (∃ m', readMesh Codec.spec (MeshFile.fresh unweightedStream.encode) = some (1, m') ∧
      m'.weights.length = 0) := by
  constructor
  · obtain ⟨m', h, h1, _⟩ :=
      readMesh_weight_entries Codec.spec skinnedStream skinnedStream_wellFormed (by decide!)
    exact ⟨m', h, h1 (by decide)⟩
  · obtain ⟨m', h, _, h0, _⟩ :=
      readMesh_weight_entries Codec.spec unweightedStream unweightedStream_wellFormed
        (by decide!)
    exact ⟨m', h, h0 rfl⟩


theorem encWeight_length (ps : List (Nat × Nat)) : (encWeight ps).length = 4 * ps.length := by
  induction ps with
  | nil => rfl
  | cons p ps ih =>
    have h : encWeight (p :: ps) = le16 p.1 ++ le16 p.2 ++ encWeight ps := by
      simp [encWeight, List.flatMap_cons]
    rw [h]
    simp only [List.length_append, List.length_cons, ih, le16, List.length_nil]
    omega

theorem flatMap_encWeight_length (n : Nat) (ws : List (List (Nat × Nat)))
    (h : ∀ ps ∈ ws, ps.length = n) : (ws.flatMap encWeight).length = 4 * n * ws.length := by
  induction ws with
  | nil => rfl
  | cons w ws ih =>
    rw [List.flatMap_cons, List.length_append, encWeight_length,
      ih (fun ps hps => h ps (List.mem_cons_of_mem _ hps)), h w (List.mem_cons_self _ _),
      List.length_cons]
    ring

/-- C13: with `weightsPerVertex` between 1 and 8 the weight block of a stream that holds
`weightsPerVertex` pairs for each vertex is parsed to one entry per vertex that holds exactly
8 pairs, the pairs of the stream in their order followed by `(0, 0)` pairs; each vertex takes
exactly `4 * weightsPerVertex` bytes of the stream, and the bytes after the block are left. -/
theorem readWeights_eight_pairs (wpv : Nat) (h1 : 1 ≤ wpv) (h8 : wpv ≤ 8) (m : MeshFile)
    (wc : Nat) (ws : List (List (Nat × Nat))) (rest : Stream) (hm : m.weights = [])
    (hwc : wc < 2 ^ 32) (hl : ws.length = wc / wpv) (hl31 : ws.length < 2 ^ 31)
    (hv : ∀ ps ∈ ws, ps.length = wpv ∧ ∀ p ∈ ps, p.1 < 2 ^ 16 ∧ p.2 < 2 ^ 16) :
    ∃ m', readWeights wpv m (le32 wc ++ (ws.flatMap encWeight ++ rest)) = some (m', rest) ∧
      (ws.flatMap encWeight).length = 4 * wpv * ws.length ∧
      m'.weights.length = ws.length ∧
      ∀ (i : Nat) (ps : List (Nat × Nat)), ws[i]? = some ps →
        (encWeight ps).length = 4 * wpv ∧
        (∀ r : Stream, readWeight wpv i (encWeight ps ++ r)
          = (⟨ps ++ List.replicate (8 - wpv) (0, 0), i⟩, r)) ∧
        m'.weights[i]? = some ⟨ps ++ List.replicate (8 - wpv) (0, 0), i⟩ ∧
        (ps ++ List.replicate (8 - wpv) (0, 0)).length = 8 := by
  have hmin : min wpv 8 = wpv := by omega
  have hv' : ∀ ps ∈ ws, ps.length = min wpv 8 ∧ ∀ p ∈ ps, p.1 < 2 ^ 16 ∧ p.2 < 2 ^ 16 := by
    intro ps hps
    rw [hmin]
    exact hv ps hps
  have hl' : ws.length = if 0 < wc ∧ 0 < wpv then wc / wpv else 0 := by
    by_cases h0 : 0 < wc
    · rw [if_pos ⟨h0, by omega⟩, hl]
    · have hz : wc = 0 := by omega
      rw [hl, hz]
      simp
  refine ⟨_, readWeights_enc wpv m wc ws rest hm hwc hl' hl31 hv',
    flatMap_encWeight_length wpv ws (fun ps hps => (hv ps hps).1), by simp [mapFrom_length], ?_⟩
  intro i ps hps
  have hmem : ps ∈ ws := List.mem_iff_getElem?.mpr ⟨i, hps⟩
  have hlen := (hv ps hmem).1
  refine ⟨by rw [encWeight_length, hlen], ?_, ?_, ?_⟩
  · intro r
    rw [readWeight_enc wpv i ps r (hv' ps hmem).1 (hv ps hmem).2, decWeight, hlen]
  · simp [mapFrom_getElem?, hps, decWeight, hlen]
  · rw [List.length_append, List.length_replicate, hlen]
    omega

theorem readWeights_eight_pairs_witness :
    ∃ m', readWeights 2 (MeshFile.fresh [])
        (le32 5 ++ ([[(1, 65535), (2, 100)], [(3, 7), (0, 9)]].flatMap encWeight ++ [42]))
        = some (m', [42]) ∧
      m'.weights[1]? = some ⟨[(3, 7), (0, 9), (0, 0), (0, 0), (0, 0), (0, 0), (0, 0), (0, 0)], 1⟩ := by
  obtain ⟨m', h, _, _, hi⟩ := readWeights_eight_pairs 2 (by decide) (by decide)
    (MeshFile.fresh []) 5 [[(1, 65535), (2, 100)], [(3, 7), (0, 9)]] [42] rfl (by decide) rfl
    (by decide) (by decide)
  exact ⟨m', h, (hi 1 [(3, 7), (0, 9)] rfl).2.2.1⟩

theorem UnpackUDEC3_snd (C : Codec) (n : Nat) (hn : n < 2 ^ 32) :
    (UnpackUDEC3 C n).2 = decide (2 ^ 31 ≤ n) := by
  simp only [UnpackUDEC3]
  exact decide_eq_decide.mpr (by omega)

/-- C14: on a well-formed stream with no more tangents than normals a new `MeshFile` parses
to a mesh in which, for every tangent word of the stream, `tangentsBasis[i]` is the decoded
tangent with fourth component 1 when bit 31 of the word is set and -1 otherwise, and
`bitangents[i]` is the cross product of `normals[i]` and `tangents[i]` when bit 31 is set and
of `tangents[i]` and `normals[i]` otherwise; the components of the product are written out,
for a normal `(nx, ny, nz)` and a tangent `(tx, ty, tz)` with finite components as the
numbers `ny * tz - nz * ty`, `nz * tx - nx * tz`, `nx * ty - ny * tx` in the first case and
`ty * nz - tz * ny`, `tz * nx - tx * nz`, `tx * ny - ty * nx` in the second. -/
theorem readMesh_tangent_basis (C : Codec) (L : MeshStream) (hwf : L.WellFormed)
    (hs : (float32OfBits L.scaleBits).le0 = false) :
    ∃ m', readMesh C (MeshFile.fresh L.encode) = some (L.positions.length, m') ∧
      m'.tangentsBasis.length = L.tangents.length ∧
      m'.bitangents.length = L.tangents.length ∧
      ∀ (i n : Nat), L.tangents[i]? = some n →
        ∃ (nw : Nat) (t nrm : Vector3), L.normals[i]? = some nw ∧
          m'.tangents[i]? = some t ∧ m'.normals[i]? = some nrm ∧
          t = (UnpackUDEC3 C n).1 ∧ nrm = (UnpackUDEC3 C nw).1 ∧
          m'.tangentsBasis[i]? = some
            ⟨t.x, t.y, t.z, if 2 ^ 31 ≤ n then Flt.fin 1 else Flt.fin (-1)⟩ ∧
          m'.bitangents[i]? = some (if 2 ^ 31 ≤ n then Vector3.crossproduct nrm t
            else Vector3.crossproduct t nrm) ∧
          m'.bitangents[i]? = some (if 2 ^ 31 ≤ n then
              ⟨Flt.sub (Flt.mul nrm.y t.z) (Flt.mul nrm.z t.y),
               Flt.sub (Flt.mul nrm.z t.x) (Flt.mul nrm.x t.z),
               Flt.sub (Flt.mul nrm.x t.y) (Flt.mul nrm.y t.x)⟩
            else
              ⟨Flt.sub (Flt.mul t.y nrm.z) (Flt.mul t.z nrm.y),
               Flt.sub (Flt.mul t.z nrm.x) (Flt.mul t.x nrm.z),
               Flt.sub (Flt.mul t.x nrm.y) (Flt.mul t.y nrm.x)⟩) ∧
          ∀ nx ny nz tx ty tz : ℚ, nrm = ⟨Flt.fin nx, Flt.fin ny, Flt.fin nz⟩ →
            t = ⟨Flt.fin tx, Flt.fin ty, Flt.fin tz⟩ →
            m'.bitangents[i]? = some (if 2 ^ 31 ≤ n then
                ⟨Flt.fin (ny * tz - nz * ty), Flt.fin (nz * tx - nx * tz),
                  Flt.fin (nx * ty - ny * tx)⟩
              else
                ⟨Flt.fin (ty * nz - tz * ny), Flt.fin (tz * nx - tx * nz),
                  Flt.fin (tx * ny - ty * nx)⟩) := by
  refine ⟨L.mesh C, readMesh_encode C L hwf hs, by simp [MeshStream.mesh],
    by simp [MeshStream.mesh, mapFrom_length], ?_⟩
  intro i n hn
  have hmem : n ∈ L.tangents := List.mem_iff_getElem?.mpr ⟨i, hn⟩
  have hn32 := hwf.tangents_valid n hmem
  have hi : i < L.tangents.length := by
    by_contra hge
    rw [List.getElem?_eq_none (by omega)] at hn
    exact absurd hn (by simp)
  have hiN : i < L.normals.length := lt_of_lt_of_le hi hwf.tangents_length
  have hflag := UnpackUDEC3_snd C n hn32
  have hbit : (L.mesh C).bitangents[i]? = some (if 2 ^ 31 ≤ n then
      Vector3.crossproduct (UnpackUDEC3 C (L.normals.get ⟨i, hiN⟩)).1 (UnpackUDEC3 C n).1
      else Vector3.crossproduct (UnpackUDEC3 C n).1
        (UnpackUDEC3 C (L.normals.get ⟨i, hiN⟩)).1) := by
    simp only [MeshStream.mesh, mapFrom_getElem?, hn, Option.map_some', decBitangent, hflag,
      Nat.zero_add, decide_eq_true_eq]
    have hg : (List.map (fun n => (UnpackUDEC3 C n).1) L.normals).getD i default
        = (UnpackUDEC3 C (L.normals.get ⟨i, hiN⟩)).1 := by
      simp [List.getD, List.getElem?_eq_getElem hiN]
    rw [hg]
  refine ⟨L.normals.get ⟨i, hiN⟩, (UnpackUDEC3 C n).1,
    (UnpackUDEC3 C (L.normals.get ⟨i, hiN⟩)).1, ?_, ?_, ?_, rfl, rfl, ?_, hbit, ?_, ?_⟩
  · simp [List.getElem?_eq_getElem hiN]
  · simp [MeshStream.mesh, hn]
  · simp [MeshStream.mesh, List.getElem?_eq_getElem hiN]
  · simp [MeshStream.mesh, hn, decTangentBasis, hflag]
  · rw [hbit]
    simp only [Vector3.crossproduct]
  · intro nx ny nz tx ty tz hN hT
    rw [hbit, hN, hT]
    simp only [Vector3.crossproduct, Flt.mul_fin, Flt.sub_fin]

theorem readMesh_tangent_basis_witness :
    ∃ m', readMesh Codec.spec (MeshFile.fresh skinnedStream.encode) = some (1, m') ∧
      m'.tangentsBasis[0]? = some
        ⟨Flt.fin (-1021 / 1023), Flt.fin (-1), Flt.fin (-1), Flt.fin 1⟩ ∧
      m'.bitangents[0]? = some ⟨Flt.fin 0, Flt.fin (1020 / 1023), Flt.fin (-1020 / 1023)⟩ ∧
      m'.tangentsBasis[1]? = some
        ⟨Flt.fin (-1019 / 1023), Flt.fin (-1), Flt.fin (-1), Flt.fin (-1)⟩ ∧
      m'.bitangents[1]? = some ⟨Flt.fin (1022 / 1023), Flt.fin (4 / 1023),
        Flt.fin (-1045510 / 1046529)⟩ := by
  obtain ⟨m', h, _, _, hi⟩ :=
    readMesh_tangent_basis Codec.spec skinnedStream skinnedStream_wellFormed (by decide!)
  obtain ⟨nw0, t0, nrm0, hn0, _, _, ht0, hnrm0, hb0, _, _, hf0⟩ := hi 0 0x80000001 rfl
  obtain ⟨nw1, t1, nrm1, hn1, _, _, ht1, hnrm1, hb1, _, _, hf1⟩ := hi 1 0x00000002 rfl
  have e0 : nw0 = 0x1FF := by
    have : skinnedStream.normals[0]? = some 0x1FF := rfl
    rw [this] at hn0
    exact (Option.some.inj hn0).symm
  have e1 : nw1 = 0x7FC00 := by
    have : skinnedStream.normals[1]? = some 0x7FC00 := rfl
    rw [this] at hn1
    exact (Option.some.inj hn1).symm
  subst e0 e1
  have hN0 : nrm0 = ⟨Flt.fin (-1 / 1023), Flt.fin (-1), Flt.fin (-1)⟩ := by
    rw [hnrm0]; decide!
  have hT0 : t0 = ⟨Flt.fin (-1021 / 1023), Flt.fin (-1), Flt.fin (-1)⟩ := by
    rw [ht0]; decide!
  have hN1 : nrm1 = ⟨Flt.fin (-1), Flt.fin (-1 / 1023), Flt.fin (-1)⟩ := by
    rw [hnrm1]; decide!
  have hT1 : t1 = ⟨Flt.fin (-1019 / 1023), Flt.fin (-1), Flt.fin (-1)⟩ := by
    rw [ht1]; decide!
  refine ⟨m', h, ?_, ?_, ?_, ?_⟩
  · rw [hb0, hT0]
    decide!
  · rw [hf0 _ _ _ _ _ _ hN0 hT0]
    decide!
  · rw [hb1, hT1]
    decide!
  · rw [hf1 _ _ _ _ _ _ hN1 hT1]
    decide!


theorem readCoords0_frame (C : Codec) (m : MeshFile) (s : Stream) (r : MeshFile × Stream)
    (hc : m.coords = []) (h : readCoords0 C m s = some r) :
    (∃ c0 : List Vector2, r.1.coords = [c0] ∧ c0.length = (readU32 s).1) ∧
    r.1.colors = m.colors ∧ r.1.normals = m.normals ∧ r.1.tangents = m.tangents ∧
    r.1.tangentsBasis = m.tangentsBasis ∧ r.1.bitangents = m.bitangents := by
  unfold readCoords0 at h
  simp only [hc, List.nil_append] at h
  by_cases hg : 2 ^ 31 ≤ (readU32 s).1
  · rw [if_pos hg] at h
    cases h
  · rw [if_neg hg] at h
    simp only [Option.some.injEq] at h
    subst h
    refine ⟨⟨_, rfl, ?_⟩, rfl, rfl, rfl, rfl, rfl⟩
    simp [fillLoop_fst_length, resize_nil_length]

theorem readCoords1_frame (C : Codec) (m : MeshFile) (s : Stream) (r : MeshFile × Stream)
    (c0 : List Vector2) (hc : m.coords = [c0]) (h : readCoords1 C m s = some r) :
    (∃ c1 : List Vector2, r.1.coords = [c0, c1] ∧ c1.length = (readU32 s).1) ∧
    r.1.colors = m.colors ∧ r.1.normals = m.normals ∧ r.1.tangents = m.tangents ∧
    r.1.tangentsBasis = m.tangentsBasis ∧ r.1.bitangents = m.bitangents := by
  unfold readCoords1 at h
  simp only [hc, List.singleton_append] at h
  by_cases hg : 2 ^ 31 ≤ (readU32 s).1
  · rw [if_pos hg] at h
    cases h
  · rw [if_neg hg] at h
    simp only [Option.some.injEq] at h
    subst h
    refine ⟨⟨_, rfl, ?_⟩, rfl, rfl, rfl, rfl, rfl⟩
    simp [fillLoop_fst_length, resize_nil_length]

theorem readColors_frame (m : MeshFile) (s : Stream) (r : MeshFile × Stream)
    (h : readColors m s = some r) :
    r.1.coords = m.coords ∧ r.1.normals = m.normals ∧ r.1.tangents = m.tangents ∧
    r.1.tangentsBasis = m.tangentsBasis ∧ r.1.bitangents = m.bitangents ∧
    ((readU32 s).1 = 0 → m.colors = [] → r.1.colors = []) := by
  unfold readColors at h
  simp only [] at h
  by_cases hg : 2 ^ 31 ≤ (readU32 s).1 + m.colors.length
  · rw [if_pos hg] at h
    cases h
  · rw [if_neg hg] at h
    simp only [Option.some.injEq] at h
    subst h
    refine ⟨rfl, rfl, rfl, rfl, rfl, ?_⟩
    intro h0 hm
    simp [h0, hm, fillLoop]

theorem readNormals_frame (C : Codec) (m : MeshFile) (s : Stream) (r : MeshFile × Stream)
    (h : readNormals C m s = some r) :
    r.1.coords = m.coords ∧ r.1.colors = m.colors ∧ r.1.tangents = m.tangents ∧
    r.1.tangentsBasis = m.tangentsBasis ∧ r.1.bitangents = m.bitangents ∧
    ((readU32 s).1 = 0 → m.normals = [] → r.1.normals = []) := by
  unfold readNormals at h
  simp only [] at h
  by_cases hg : 2 ^ 31 ≤ (readU32 s).1 + m.normals.length
  · rw [if_pos hg] at h
    cases h
  · rw [if_neg hg] at h
    simp only [Option.some.injEq] at h
    subst h
    refine ⟨rfl, rfl, rfl, rfl, rfl, ?_⟩
    intro h0 hm
    simp [h0, hm, fillLoop]

theorem tangentLoop_frame (C : Codec) (k i : Nat) (m : MeshFile) (s : Stream)
    (r : MeshFile × Stream) (h : tangentLoop C k i m s = some r) :
    r.1.coords = m.coords ∧ r.1.colors = m.colors ∧ r.1.normals = m.normals := by
  induction k generalizing i m s with
  | zero =>
    simp only [tangentLoop, Option.some.injEq] at h
    subst h
    exact ⟨rfl, rfl, rfl⟩
  | succ k ih =>
    rw [tangentLoop] at h
    simp only [] at h
    split at h
    · have hk := ih _ _ _ h
      exact hk
    · cases h

theorem readTangents_frame (C : Codec) (m : MeshFile) (s : Stream) (r : MeshFile × Stream)
    (h : readTangents C m s = some r) :
    r.1.coords = m.coords ∧ r.1.colors = m.colors ∧ r.1.normals = m.normals ∧
    ((readU32 s).1 = 0 → m.tangents = [] →
      r.1.tangents = [] ∧ r.1.tangentsBasis = m.tangentsBasis ∧
      r.1.bitangents = m.bitangents) := by
  unfold readTangents at h
  simp only [] at h
  by_cases hg : 2 ^ 31 ≤ (readU32 s).1 + m.tangents.length ∨
      2 ^ 31 ≤ (readU32 s).1 + m.tangentsBasis.length ∨
      2 ^ 31 ≤ (readU32 s).1 + m.bitangents.length
  · rw [if_pos hg] at h
    cases h
  · rw [if_neg hg] at h
    by_cases h0 : 0 < (readU32 s).1
    · rw [if_pos h0] at h
      obtain ⟨h1, h2, h3⟩ := tangentLoop_frame C _ _ _ _ r h
      refine ⟨h1, h2, h3, ?_⟩
      intro hz
      omega
    · rw [if_neg h0] at h
      obtain ⟨h1, h2, h3⟩ := tangentLoop_frame C _ _ _ _ r h
      refine ⟨h1, h2, h3, ?_⟩
      intro _ hm
      rw [hm] at h
      simp only [List.length_nil, tangentLoop, Option.some.injEq] at h
      subst h
      exact ⟨hm, rfl, rfl⟩

theorem readWeights_frame (wpv : Nat) (m : MeshFile) (s : Stream) (r : MeshFile × Stream)
    (h : readWeights wpv m s = some r) :
    r.1.coords = m.coords ∧ r.1.colors = m.colors ∧ r.1.normals = m.normals ∧
    r.1.tangents = m.tangents ∧ r.1.tangentsBasis = m.tangentsBasis ∧
    r.1.bitangents = m.bitangents := by
  unfold readWeights at h
  simp only [resizeWeights_eq] at h
  generalize (if 0 < (readU32 s).1 ∧ 0 < wpv
    then resize ((readU32 s).1 / wpv) m.weights else m.weights) = ws at h
  by_cases hg : 2 ^ 31 ≤ ws.length
  · rw [if_pos hg] at h
    cases h
  · rw [if_neg hg] at h
    simp only [Option.some.injEq] at h
    subst h
    exact ⟨rfl, rfl, rfl, rfl, rfl, rfl⟩

theorem readLODs_frame (m : MeshFile) (s : Stream) (r : MeshFile × Stream)
    (h : readLODs m s = some r) :
    r.1.coords = m.coords ∧ r.1.colors = m.colors ∧ r.1.normals = m.normals ∧
    r.1.tangents = m.tangents ∧ r.1.tangentsBasis = m.tangentsBasis ∧
    r.1.bitangents = m.bitangents := by
  unfold readLODs at h
  simp only [] at h
  by_cases hg : 2 ^ 31 ≤ (readU32 s).1
  · rw [if_pos hg] at h
    cases h
  · rw [if_neg hg] at h
    simp only [Option.some.injEq] at h
    subst h
    exact ⟨rfl, rfl, rfl, rfl, rfl, rfl⟩

theorem readMeshTail_channels (C : Codec) (np wpv : Nat) (m0 : MeshFile) (s : Stream)
    (r : Nat) (m' : MeshFile) (h : readMeshTail C np wpv m0 s = some (r, m'))
    (hc : m0.coords = []) (hcol : m0.colors = []) (hn : m0.normals = [])
    (ht : m0.tangents = []) (htb : m0.tangentsBasis = []) (hb : m0.bitangents = []) :
    ∃ r0 r1 r2 r3 : MeshFile × Stream,
      readCoords0 C m0 s = some r0 ∧ readCoords1 C r0.1 r0.2 = some r1 ∧
      readColors r1.1 r1.2 = some r2 ∧ readNormals C r2.1 r2.2 = some r3 ∧
      r = np ∧
      (∃ c0 c1 : List Vector2, m'.coords = [c0, c1] ∧ c0.length = (readU32 s).1 ∧
        c1.length = (readU32 r0.2).1) ∧
      ((readU32 r1.2).1 = 0 → m'.colors = []) ∧
      ((readU32 r2.2).1 = 0 → m'.normals = []) ∧
      ((readU32 r3.2).1 = 0 →
        m'.tangents = [] ∧ m'.tangentsBasis = [] ∧ m'.bitangents = []) := by
  unfold readMeshTail at h
  rcases h0 : readCoords0 C m0 s with _ | r0
  · rw [h0] at h
    cases h
  rw [h0] at h
  simp only [Option.some_bind] at h
  rcases h1 : readCoords1 C r0.1 r0.2 with _ | r1
  · rw [h1] at h
    cases h
  rw [h1] at h
  simp only [Option.some_bind] at h
  rcases h2 : readColors r1.1 r1.2 with _ | r2
  · rw [h2] at h
    cases h
  rw [h2] at h
  simp only [Option.some_bind] at h
  rcases h3 : readNormals C r2.1 r2.2 with _ | r3
  · rw [h3] at h
    cases h
  rw [h3] at h
  simp only [Option.some_bind] at h
  rcases h4 : readTangents C r3.1 r3.2 with _ | r4
  · rw [h4] at h
    cases h
  rw [h4] at h
  simp only [Option.some_bind] at h
  rcases h5 : readWeights wpv r4.1 r4.2 with _ | r5
  · rw [h5] at h
    cases h
  rw [h5] at h
  simp only [Option.some_bind] at h
  rcases h6 : readLODs r5.1 r5.2 with _ | r6
  · rw [h6] at h
    cases h
  rw [h6] at h
  simp only [Option.some_bind, Option.some.injEq, Prod.mk.injEq] at h
  obtain ⟨hr, hm⟩ := h
  subst hm
  obtain ⟨⟨c0, e0, l0⟩, a0, b0, c0t, d0, f0⟩ := readCoords0_frame C m0 s r0 hc h0
  obtain ⟨⟨c1, e1, l1⟩, a1, b1, c1t, d1, f1⟩ := readCoords1_frame C r0.1 r0.2 r1 c0 e0 h1
  obtain ⟨e2, b2, c2t, d2, f2, a2⟩ := readColors_frame r1.1 r1.2 r2 h2
  obtain ⟨e3, a3, c3t, d3, f3, b3⟩ := readNormals_frame C r2.1 r2.2 r3 h3
  obtain ⟨e4, a4, b4, t4⟩ := readTangents_frame C r3.1 r3.2 r4 h4
  obtain ⟨e5, a5, b5, c5t, d5, f5⟩ := readWeights_frame wpv r4.1 r4.2 r5 h5
  obtain ⟨e6, a6, b6, c6t, d6, f6⟩ := readLODs_frame r5.1 r5.2 r6 h6
  refine ⟨r0, r1, r2, r3, rfl, h1, h2, h3, hr.symm, ⟨c0, c1, ?_, l0, l1⟩, ?_, ?_, ?_⟩
  · rw [e6, e5, e4, e3, e2, e1]
  · intro hz
    rw [a6, a5, a4, a3]
    exact a2 hz (by rw [a1, a0, hcol])
  · intro hz
    rw [b6, b5, b4]
    exact b3 hz (by rw [b2, b1, b0, hn])
  · intro hz
    obtain ⟨x, y, z⟩ := t4 hz (by rw [c3t, c2t, c1t, c0t, ht])
    refine ⟨by rw [c6t, c5t, x], ?_, ?_⟩
    · rw [d6, d5, y, d3, d2, d1, d0, htb]
    · rw [f6, f5, z, f3, f2, f1, f0, hb]

theorem readMesh_not_pastChecks (C : Codec) (data : List Nat) (r : Nat) (m' : MeshFile)
    (h : readMesh C (MeshFile.fresh data) = some (r, m')) (hp : pastChecks data = false) :
    r = 0 ∧ m'.coords = [] := by
  unfold readMesh at h
  unfold pastChecks at hp
  simp only [MeshFile.fresh] at h
  by_cases hd : data = []
  · rw [if_pos hd] at h
    simp only [Option.some.injEq, Prod.mk.injEq] at h
    obtain ⟨rfl, rfl⟩ := h
    exact ⟨rfl, rfl⟩
  · rw [if_neg hd] at h
    rw [if_neg hd] at hp
    simp only [] at h hp
    by_cases hm : (readU32 data).1 ≠ 1
    · rw [if_pos hm] at h
      simp only [Option.some.injEq, Prod.mk.injEq] at h
      obtain ⟨rfl, rfl⟩ := h
      exact ⟨rfl, rfl⟩
    · rw [if_neg hm] at h
      rw [if_neg hm] at hp
      simp only [Bool.not_eq_false'] at hp
      rw [if_pos hp] at h
      simp only [Option.some.injEq, Prod.mk.injEq] at h
      obtain ⟨rfl, rfl⟩ := h
      exact ⟨rfl, rfl⟩

theorem readMesh_pastChecks (C : Codec) (data : List Nat) (r : Nat) (m' : MeshFile)
    (h : readMesh C (MeshFile.fresh data) = some (r, m')) (hp : pastChecks data = true) :
    ∃ (np wpv : Nat) (m0 : MeshFile) (s : Stream),
      uvBlockEntry data = some (np, wpv, m0, s) ∧
      readMeshTail C np wpv m0 s = some (r, m') ∧
      m0.coords = [] ∧ m0.colors = [] ∧ m0.normals = [] ∧ m0.tangents = [] ∧
      m0.tangentsBasis = [] ∧ m0.bitangents = [] := by
  unfold readMesh at h
  unfold pastChecks at hp
  unfold uvBlockEntry
  simp only [MeshFile.fresh] at h ⊢
  by_cases hd : data = []
  · rw [if_pos hd] at hp
    cases hp
  · rw [if_neg hd] at h hp
    rw [if_neg hd]
    simp only [] at h hp ⊢
    by_cases hm : (readU32 data).1 ≠ 1
    · rw [if_pos hm] at hp
      cases hp
    · rw [if_neg hm] at h hp
      rw [if_neg hm]
      simp only [Bool.not_eq_true', ← Bool.not_eq_true] at hp
      rw [if_neg hp] at h
      rw [if_neg hp]
      unfold readMeshBody at h
      simp only [List.length_nil, Nat.add_zero] at h
      split at h
      · cases h
      · rename_i hg
        rw [if_neg hg]
        exact ⟨_, _, _, _, rfl, h, rfl, rfl, rfl, rfl, rfl, rfl⟩

/-- C15, counterexample: a run of `readMesh` that returns early leaves no channel in `coords`.
On a new `MeshFile` over the four bytes of the magic value 2 the call returns 0 at the magic
check, and on a new `MeshFile` over a stream with magic 1, no index and the scale 0.0 it
returns 0 at the scale check; `coords` is empty after both. -/
theorem readMesh_early_return_no_channels :
    (readMesh Codec.spec (MeshFile.fresh [2, 0, 0, 0])).map
        (fun r => (r.1, r.2.coords)) = some (0, []) ∧
    (readMesh Codec.spec (MeshFile.fresh [1, 0, 0, 0, 0, 0, 0, 0, 0, 0, 0, 0])).map
        (fun r => (r.1, r.2.coords)) = some (0, []) := by
  constructor
  · decide!
  · decide!

/-- C15, amended: whenever `readMesh`, run on a new `MeshFile` over any bytes, returns after
it has got past the empty-data, magic and scale checks, the rest of the function has run
from the first UV count on, the result is the position count, and `coords` holds exactly two
channels, of the lengths of the two UV counts it has read and present also when a count is
0, while `colors`, `normals` and the three tangent arrays are empty when the count read for
them is 0; after a return at one of the three checks the result is 0 and `coords` holds no
channel. On a well-formed stream with a scale that is not `<= 0` the call returns past the
checks and the counts are those of the stream. -/
theorem readMesh_coords_channels (C : Codec) :
    (∀ (data : List Nat) (r : Nat) (m' : MeshFile),
      readMesh C (MeshFile.fresh data) = some (r, m') →
      (pastChecks data = false → r = 0 ∧ m'.coords = []) ∧
      (pastChecks data = true →
        ∃ (np wpv : Nat) (m0 : MeshFile) (s : Stream) (r0 r1 r2 r3 : MeshFile × Stream),
          uvBlockEntry data = some (np, wpv, m0, s) ∧
          readMeshTail C np wpv m0 s = some (r, m') ∧
          readCoords0 C m0 s = some r0 ∧ readCoords1 C r0.1 r0.2 = some r1 ∧
          readColors r1.1 r1.2 = some r2 ∧ readNormals C r2.1 r2.2 = some r3 ∧
          r = np ∧
          (∃ c0 c1 : List Vector2, m'.coords = [c0, c1] ∧ c0.length = (readU32 s).1 ∧
            c1.length = (readU32 r0.2).1) ∧
          ((readU32 r1.2).1 = 0 → m'.colors = []) ∧
          ((readU32 r2.2).1 = 0 → m'.normals = []) ∧
          ((readU32 r3.2).1 = 0 →
            m'.tangents = [] ∧ m'.tangentsBasis = [] ∧ m'.bitangents = []))) ∧
    (∀ L : MeshStream, L.WellFormed → (float32OfBits L.scaleBits).le0 = false →
      ∃ m', readMesh C (MeshFile.fresh L.encode) = some (L.positions.length, m') ∧
        pastChecks L.encode = true ∧
        (∃ c0 c1 : List Vector2, m'.coords = [c0, c1] ∧ c0.length = L.uv0.length ∧
          c1.length = L.uv1.length) ∧
        (L.colors.length = 0 → m'.colors = []) ∧
        (L.normals.length = 0 → m'.normals = []) ∧
        (L.tangents.length = 0 →
          m'.tangents = [] ∧ m'.tangentsBasis = [] ∧ m'.bitangents = [])) := by
  have hgen : ∀ (data : List Nat) (r : Nat) (m' : MeshFile),
      readMesh C (MeshFile.fresh data) = some (r, m') →
      pastChecks data = false → r = 0 ∧ m'.coords = [] :=
    fun data r m' h hp => readMesh_not_pastChecks C data r m' h hp
  refine ⟨fun data r m' h => ⟨hgen data r m' h, ?_⟩, ?_⟩
  · intro hp
    obtain ⟨np, wpv, m0, s, he, ht, a, b, c, d, e, f⟩ := readMesh_pastChecks C data r m' h hp
    obtain ⟨r0, r1, r2, r3, k⟩ := readMeshTail_channels C np wpv m0 s r m' ht a b c d e f
    exact ⟨np, wpv, m0, s, r0, r1, r2, r3, he, ht, k⟩
  · intro L hwf hs
    have h := readMesh_encode C L hwf hs
    refine ⟨L.mesh C, h, ?_, ⟨_, _, rfl, by simp, by simp⟩, ?_, ?_, ?_⟩
    · cases hp : pastChecks L.encode with
      | true => rfl
      | false =>
        have hc := (hgen L.encode _ _ h hp).2
        simp [MeshStream.mesh] at hc
    · intro h
      simp [MeshStream.mesh, List.length_eq_zero.mp h]
    · intro h
      simp [MeshStream.mesh, List.length_eq_zero.mp h]
    · intro h
      simp [MeshStream.mesh, List.length_eq_zero.mp h, mapFrom]

theorem readMesh_coords_channels_witness :
    (∃ m', readMesh Codec.spec (MeshFile.fresh cutStream) = some (1, m') ∧
      pastChecks cutStream = true ∧ m'.coords = [[], []] ∧ m'.colors = [] ∧
      m'.normals = [] ∧ m'.tangents = [] ∧ m'.tangentsBasis = [] ∧ m'.bitangents = []) ∧
    (∃ m', readMesh Codec.spec (MeshFile.fresh [2, 0, 0, 0]) = some (0, m') ∧
      pastChecks [2, 0, 0, 0] = false ∧ m'.coords = []) ∧
    (∃ m', readMesh Codec.spec (MeshFile.fresh skinnedStream.encode) = some (1, m') ∧
      pastChecks skinnedStream.encode = true ∧
      ∃ c0 c1 : List Vector2, m'.coords = [c0, c1] ∧ c0.length = 1 ∧ c1.length = 0) := by
  refine ⟨?_, ?_, ?_⟩
  · rcases hrm : readMesh Codec.spec (MeshFile.fresh cutStream) with _ | ⟨r, m'⟩
    · exact absurd hrm (by decide!)
    · obtain ⟨np, wpv, m0, s, r0, r1, r2, r3, he, -, h0, h1, h2, h3, hr, ⟨c0, c1, hc, l0, l1⟩,
        kc, kn, kt⟩ :=
        ((readMesh_coords_channels Codec.spec).1 cutStream r m' hrm).2 (by decide!)
      have hes : uvBlockEntry cutStream = some (1, 0,
          { MeshFile.fresh cutStream with positions := [⟨Flt.fin 0, Flt.fin 0, Flt.fin 0⟩] },
          []) := by decide!
      rw [hes] at he
      simp only [Option.some.injEq, Prod.mk.injEq] at he
      obtain ⟨rfl, rfl, rfl, rfl⟩ := he
      have g0 : readCoords0 Codec.spec
          { MeshFile.fresh cutStream with positions := [⟨Flt.fin 0, Flt.fin 0, Flt.fin 0⟩] }
          [] = some ({ MeshFile.fresh cutStream with
            positions := [⟨Flt.fin 0, Flt.fin 0, Flt.fin 0⟩], coords := [[]] }, []) := by
        decide!
      rw [g0] at h0
      simp only [Option.some.injEq] at h0
      subst h0
      have g1 : readCoords1 Codec.spec
          { MeshFile.fresh cutStream with
            positions := [⟨Flt.fin 0, Flt.fin 0, Flt.fin 0⟩], coords := [[]] }
          [] = some ({ MeshFile.fresh cutStream with
            positions := [⟨Flt.fin 0, Flt.fin 0, Flt.fin 0⟩], coords := [[], []] }, []) := by
        decide!
      rw [g1] at h1
      simp only [Option.some.injEq] at h1
      subst h1
      have g2 : readColors
          { MeshFile.fresh cutStream with
            positions := [⟨Flt.fin 0, Flt.fin 0, Flt.fin 0⟩], coords := [[], []] }
          [] = some ({ MeshFile.fresh cutStream with
            positions := [⟨Flt.fin 0, Flt.fin 0, Flt.fin 0⟩], coords := [[], []] }, []) := by
        decide!
      rw [g2] at h2
      simp only [Option.some.injEq] at h2
      subst h2
      have g3 : readNormals Codec.spec
          { MeshFile.fresh cutStream with
            positions := [⟨Flt.fin 0, Flt.fin 0, Flt.fin 0⟩], coords := [[], []] }
          [] = some ({ MeshFile.fresh cutStream with
            positions := [⟨Flt.fin 0, Flt.fin 0, Flt.fin 0⟩], coords := [[], []] }, []) := by
        decide!
      rw [g3] at h3
      simp only [Option.some.injEq] at h3
      subst h3
      have e0 : c0 = [] := List.length_eq_zero.mp (l0.trans (by decide))
      have e1 : c1 = [] := List.length_eq_zero.mp (l1.trans (by decide))
      obtain ⟨t1, t2, t3⟩ := kt (by decide)
      exact ⟨m', by rw [hr], by decide!, by rw [hc, e0, e1], kc (by decide), kn (by decide),
        t1, t2, t3⟩
  · rcases hrm : readMesh Codec.spec (MeshFile.fresh [2, 0, 0, 0]) with _ | ⟨r, m'⟩
    · exact absurd hrm (by decide!)
    · obtain ⟨hr, hc⟩ :=
        ((readMesh_coords_channels Codec.spec).1 [2, 0, 0, 0] r m' hrm).1 (by decide!)
      exact ⟨m', by rw [hr], by decide!, hc⟩
  · obtain ⟨m', h, hp, ⟨c0, c1, hc, l0, l1⟩, -⟩ :=
      (readMesh_coords_channels Codec.spec).2 skinnedStream skinnedStream_wellFormed
        (by decide!)
    exact ⟨m', h, hp, c0, c1, hc, l0, l1⟩

theorem byte_ratio_bounds (c : Nat) (hc : c < 256) :
    (0 : ℚ) ≤ (c : ℚ) / 255 ∧ (c : ℚ) / 255 ≤ 1 := by
  have h1 : (c : ℚ) ≤ 255 := by
    have : c ≤ 255 := by omega
    exact_mod_cast this
  have h0 : (0 : ℚ) ≤ (c : ℚ) := by positivity
  constructor
  · positivity
  · rw [div_le_one (by norm_num)]
    exact h1

/-- C16: on a well-formed stream a new `MeshFile` parses to a mesh whose `colors` has one
entry for each colour of the stream; the entry for the stream bytes `(c0, c1, c2, c3)` is
`(c2 / 255, c1 / 255, c0 / 255, c3 / 255)`, and each of its components lies in [0, 1]. -/
theorem readMesh_colors (C : Codec) (L : MeshStream) (hwf : L.WellFormed)
    (hs : (float32OfBits L.scaleBits).le0 = false) :
    ∃ m', readMesh C (MeshFile.fresh L.encode) = some (L.positions.length, m') ∧
      m'.colors.length = L.colors.length ∧
      ∀ (i c0 c1 c2 c3 : Nat), L.colors[i]? = some (c0, c1, c2, c3) →
        m'.colors[i]? = some ⟨Flt.fin ((c2 : ℚ) / 255), Flt.fin ((c1 : ℚ) / 255),
          Flt.fin ((c0 : ℚ) / 255), Flt.fin ((c3 : ℚ) / 255)⟩ ∧
        ((0 : ℚ) ≤ (c2 : ℚ) / 255 ∧ (c2 : ℚ) / 255 ≤ 1) ∧
        ((0 : ℚ) ≤ (c1 : ℚ) / 255 ∧ (c1 : ℚ) / 255 ≤ 1) ∧
        ((0 : ℚ) ≤ (c0 : ℚ) / 255 ∧ (c0 : ℚ) / 255 ≤ 1) ∧
        ((0 : ℚ) ≤ (c3 : ℚ) / 255 ∧ (c3 : ℚ) / 255 ≤ 1) := by
  refine ⟨L.mesh C, readMesh_encode C L hwf hs, by simp [MeshStream.mesh], ?_⟩
  intro i c0 c1 c2 c3 h
  have hmem : (c0, c1, c2, c3) ∈ L.colors := List.mem_iff_getElem?.mpr ⟨i, h⟩
  obtain ⟨h0, h1, h2, h3⟩ := hwf.colors_valid _ hmem
  refine ⟨by simp [MeshStream.mesh, h, decColor], byte_ratio_bounds c2 h2,
    byte_ratio_bounds c1 h1, byte_ratio_bounds c0 h0, byte_ratio_bounds c3 h3⟩

theorem readMesh_colors_witness :
    ∃ m', readMesh Codec.spec (MeshFile.fresh skinnedStream.encode) = some (1, m') ∧
      m'.colors.length = 1 ∧
      m'.colors[0]? = some ⟨Flt.fin ((30 : Nat) / 255), Flt.fin ((20 : Nat) / 255),
        Flt.fin ((10 : Nat) / 255), Flt.fin ((255 : Nat) / 255)⟩ := by
  obtain ⟨m', h, hl, hi⟩ :=
    readMesh_colors Codec.spec skinnedStream skinnedStream_wellFormed (by decide!)
  exact ⟨m', h, hl, (hi 0 10 20 30 255 rfl).1⟩

/-- C17: on a well-formed stream a new `MeshFile` parses to a mesh whose base triangle list
has `indexCount / 3` triangles and whose `lods` has one list for each LOD entry of the
stream, list `i` holding `indexCount_i / 3` triangles; the triangles are those of the
stream in stream order, each read from three consecutive 16-bit indices. -/
theorem readMesh_triangle_lists (C : Codec) (L : MeshStream) (hwf : L.WellFormed)
    (hs : (float32OfBits L.scaleBits).le0 = false) :
    ∃ m', readMesh C (MeshFile.fresh L.encode) = some (L.positions.length, m') ∧
      m'.triangles.length = L.indexCount / 3 ∧
      m'.triangles = L.triangles ∧
      m'.lods.length = L.lods.length ∧
      (∀ (i cnt : Nat) (ts : List Triangle), L.lods[i]? = some (cnt, ts) →
        m'.lods[i]? = some ts ∧ ts.length = cnt / 3) ∧
      ∀ (a b c : Nat) (rest : Stream), a < 2 ^ 16 → b < 2 ^ 16 → c < 2 ^ 16 →
        readTriangle (le16 a ++ le16 b ++ le16 c ++ rest) = (⟨a, b, c⟩, rest) := by
  refine ⟨L.mesh C, readMesh_encode C L hwf hs, by simp [MeshStream.mesh, hwf.triangles_length],
    rfl, by simp [MeshStream.mesh], ?_, ?_⟩
  · intro i cnt ts h
    have hmem : (cnt, ts) ∈ L.lods := List.mem_iff_getElem?.mpr ⟨i, h⟩
    exact ⟨by simp [MeshStream.mesh, h], (hwf.lods_valid _ hmem).2.1⟩
  · intro a b c rest ha hb hc
    exact readTriangle_enc ⟨a, b, c⟩ ⟨ha, hb, hc⟩ rest

theorem readMesh_triangle_lists_witness :
    ∃ m', readMesh Codec.spec (MeshFile.fresh skinnedStream.encode) = some (1, m') ∧
      m'.triangles = [⟨0, 1, 2⟩, ⟨2, 1, 3⟩] ∧ m'.lods = [[⟨0, 1, 2⟩], []] := by
  obtain ⟨m', h, _, ht, hl, hi, _⟩ :=
    readMesh_triangle_lists Codec.spec skinnedStream skinnedStream_wellFormed (by decide!)
  refine ⟨m', h, ht, ?_⟩
  have h0 := (hi 0 3 [⟨0, 1, 2⟩] rfl).1
  have h1 := (hi 1 2 [] rfl).1
  have hlen : m'.lods.length = 2 := hl
  match hm : m'.lods, hlen with
  | [x, y], _ =>
    rw [hm] at h0 h1
    simp only [List.getElem?_cons_zero, List.getElem?_cons_succ, Option.some.injEq] at h0 h1
    rw [h0, h1]


/-! ## The cube-map filter: which inputs are accepted -/

theorem mipSizeLoop_sizes (width height a fuel : Nat) (st : MipSizes) (hf : a < fuel)
    (h1 : st.mipCnt = 0 → st.sizeRequired1 + 4 ^ a < 2 ^ 64)
    (h2 : st.sizeRequired2 + geoSum4 a < 2 ^ 64) :
    ∃ S, mipSizeLoop width height fuel (2 ^ a) (2 ^ a) st = some S ∧
      S.sizeRequired1
        = (if st.mipCnt = 0 then st.sizeRequired1 + 4 ^ a else st.sizeRequired1) ∧
      S.sizeRequired2 = st.sizeRequired2 + geoSum4 a ∧
      S.mipCnt = st.mipCnt + (a + 1) := by
  induction a generalizing fuel st with
  | zero =>
    obtain ⟨f, rfl⟩ : ∃ f, fuel = f + 1 := ⟨fuel - 1, by omega⟩
    simp only [geoSum4, pow_zero] at h1 h2
    have hfz : fixZero (2 ^ 0) = 1 := by decide
    rw [mipSizeLoop, hfz, if_neg (by decide)]
    refine ⟨_, rfl, ?_, ?_, ?_⟩
    · simp only [mipSizeBody, Nat.mul_one, pow_zero]
      split
      · rename_i h0
        rw [Nat.mod_eq_of_lt (h1 h0)]
      · rfl
    · simp only [mipSizeBody, Nat.mul_one, geoSum4]
      rw [Nat.mod_eq_of_lt h2]
    · simp [mipSizeBody]
  | succ a ih =>
    obtain ⟨f, rfl⟩ : ∃ f, fuel = f + 1 := ⟨fuel - 1, by omega⟩
    have hpa : 0 < 2 ^ a := Nat.two_pow_pos a
    have hsh : 2 ^ (a + 1) >>> 1 = 2 ^ a := by
      rw [Nat.shiftRight_eq_div_pow, pow_succ]; omega
    have hsq : 2 ^ (a + 1) * 2 ^ (a + 1) = 4 ^ (a + 1) := two_pow_mul_self _
    simp only [geoSum4] at h2
    have hp4 : 0 < 4 ^ a := Nat.pos_pow_of_pos a (by norm_num)
    rw [mipSizeLoop, fixZero_two_pow, hsh]
    have hne : 2 ^ a ||| 2 ^ a ≠ 0 := by
      intro h
      have := (lor_eq_zero _ _).mp h
      omega
    rw [if_pos hne]
    have hs2 : (mipSizeBody width height (2 ^ (a + 1)) (2 ^ (a + 1)) st).sizeRequired2
        = st.sizeRequired2 + 4 ^ (a + 1) := by
      simp only [mipSizeBody, hsq]
      rw [Nat.mod_eq_of_lt (by omega)]
    have hs1 : (mipSizeBody width height (2 ^ (a + 1)) (2 ^ (a + 1)) st).sizeRequired1
        = (if st.mipCnt = 0 then st.sizeRequired1 + 4 ^ (a + 1) else st.sizeRequired1) := by
      simp only [mipSizeBody, hsq]
      split
      · rename_i h0
        rw [Nat.mod_eq_of_lt (h1 h0)]
      · rfl
    have hmc : (mipSizeBody width height (2 ^ (a + 1)) (2 ^ (a + 1)) st).mipCnt
        = st.mipCnt + 1 := rfl
    obtain ⟨S, hS, e1, e2, e3⟩ := ih f
      (mipSizeBody width height (2 ^ (a + 1)) (2 ^ (a + 1)) st) (by omega)
      (by intro h; rw [hmc] at h; omega) (by rw [hs2]; omega)
    refine ⟨S, hS, ?_, ?_, ?_⟩
    · rw [e1, hmc, if_neg (by omega), hs1]
    · rw [e2, hs2]
      simp only [geoSum4]
      omega
    · rw [e3, hmc]
      omega

/-- For faces of `2 ^ k` by `2 ^ k` texels with `k <= 28` the mip-size loop ends after
`k + 1` iterations and the two lengths that the size check accepts are `148 + 48 * 4 ^ k`
and `148 + 16 * (4 ^ (k + 1) - 1)`. -/
theorem acceptedLengths_two_pow (E : CubeEnv) (k : Nat) (hk : k ≤ 28) :
    (∃ S, mipSizeLoop E.width E.height 64 (2 ^ k) (2 ^ k) ⟨0, 0, 0, -1, 0⟩ = some S ∧
      S.mipCnt = k + 1) ∧
    acceptedLengths E (2 ^ k) (2 ^ k)
      = some (148 + 48 * (2 ^ k) ^ 2, 148 + 16 * (4 ^ (k + 1) - 1)) := by
  have hk4 : 4 ^ k ≤ 4 ^ 28 := Nat.pow_le_pow_right (by norm_num) hk
  have h428 : (4 : Nat) ^ 28 = 72057594037927936 := by norm_num
  have hkp : 4 ^ (k + 1) = 4 * 4 ^ k := by ring
  have hG := geoSum4_closed k
  have hpk : 0 < 4 ^ k := Nat.pos_pow_of_pos k (by norm_num)
  obtain ⟨S, hS, e1, e2, e3⟩ := mipSizeLoop_sizes E.width E.height k 64 ⟨0, 0, 0, -1, 0⟩
    (by omega) (by intro _; simp only []; omega) (by simp only []; omega)
  simp only [if_true, Nat.zero_add] at e1 e2 e3
  refine ⟨⟨S, hS, e3⟩, ?_⟩
  have hsq : (2 ^ k) ^ 2 = 4 ^ k := by
    rw [← Nat.pow_mul, Nat.mul_comm, Nat.pow_mul]
  simp only [acceptedLengths, hS, Option.map_some', e1, e2, hsq]
  rw [Nat.mod_eq_of_lt (by omega), Nat.mod_eq_of_lt (by omega)]
  simp only [Option.some.injEq, Prod.mk.injEq]
  constructor <;> omega


theorem lengthAccepted_iff (E : CubeEnv) (buf : List Nat) (p : Nat × Nat)
    (h : acceptedLengths E (readUInt32Fast buf 16) (readUInt32Fast buf 12) = some p) :
    lengthAccepted E buf = true ↔ buf.length = p.1 ∨ buf.length = p.2 := by
  simp [lengthAccepted, h]

/-- An input that is not accepted is returned as it is. -/
theorem convertImage_of_not_accepted (E : CubeEnv) (buf : List Nat) (hb : IsBytes buf)
    (h : ¬ accepted E buf) : convertImage E buf = some (buf.length, buf) := by
  unfold convertImage
  by_cases hlen : buf.length < 148
  · simp only [hlen, if_true]
  · simp only [hlen, if_false]
    by_cases hrej : readUInt32Fast buf 0 ≠ 0x20534444 ∨ readUInt32Fast buf 84 ≠ 0x30315844 ∨
        readUInt32Fast buf 16 ≠ readUInt32Fast buf 12 ∨ readUInt32Fast buf 16 < E.width ∨
        readUInt32Fast buf 16 &&& (readUInt32Fast buf 16 - 1) ≠ 0 ∨
        readUInt32Fast buf 128 ≠ E.dxgiFormat
    · rw [if_pos hrej]
    · rw [if_neg hrej]
      simp only [not_or, not_not, not_lt] at hrej
      obtain ⟨h0, h84, hwh, hge, hpow, hfmt⟩ := hrej
      obtain ⟨S, hS⟩ := mipSizeLoop_isSome E.width E.height 63 (readUInt32Fast buf 16)
        (readUInt32Fast buf 12) ⟨0, 0, 0, -1, 0⟩
        (lt_trans (readUInt32Fast_lt buf hb 16) (by norm_num))
        (lt_trans (readUInt32Fast_lt buf hb 12) (by norm_num))
      rw [hS]
      simp only []
      have hla : ¬ (lengthAccepted E buf = true) := fun hl =>
        h ⟨⟨by omega, h0, h84, hwh, hge, hpow, hfmt⟩, hl⟩
      have hS' : mipSizeLoop E.width E.height 64 (readUInt32Fast buf 16)
          (readUInt32Fast buf 12) ⟨0, 0, 0, -1, 0⟩ = some S := hS
      have hA : acceptedLengths E (readUInt32Fast buf 16) (readUInt32Fast buf 12)
          = some ((S.sizeRequired1 * 8 * 6 + 148) % 2 ^ 64,
            (S.sizeRequired2 * 8 * 6 + 148) % 2 ^ 64) := by
        simp only [acceptedLengths, hS', Option.map_some']
      rw [lengthAccepted_iff E buf _ hA] at hla
      simp only [not_or] at hla
      rw [if_pos ⟨hla.1, hla.2⟩]

/-- An accepted input is converted: the result is that of the mip loop followed by the
header patch, for the sizes that the mip-size loop has computed. -/
theorem convertImage_of_accepted (E : CubeEnv) (buf : List Nat) (h : accepted E buf) :
    ∃ S, mipSizeLoop E.width E.height 64 (readUInt32Fast buf 16) (readUInt32Fast buf 12)
        ⟨0, 0, 0, -1, 0⟩ = some S ∧
      convertImage E buf =
        if 2 ^ 31 ≤ 6 * readUInt32Fast buf 16 * readUInt32Fast buf 12 then none else
        ((List.range S.mipCnt).foldlM
          (mipStep E buf (readUInt32Fast buf 16) (readUInt32Fast buf 12) S
            (S.faceDataSize * 4 % 2 ^ 64))
          ⟨buf, 148, min (max E.hardwareConcurrency 1) 16⟩).map fun st =>
            ((S.faceDataSize * 4 % 2 ^ 64 * 6 + 148) % 2 ^ 64, patchHeader E S.maxMip st.buf) := by
  obtain ⟨⟨hlen, h0, h84, hwh, hge, hpow, hfmt⟩, hl⟩ := h
  cases hS : mipSizeLoop E.width E.height 64 (readUInt32Fast buf 16) (readUInt32Fast buf 12)
      ⟨0, 0, 0, -1, 0⟩ with
  | none => simp [lengthAccepted, acceptedLengths, hS] at hl
  | some S =>
    refine ⟨S, rfl, ?_⟩
    have hA : acceptedLengths E (readUInt32Fast buf 16) (readUInt32Fast buf 12)
        = some ((S.sizeRequired1 * 8 * 6 + 148) % 2 ^ 64,
          (S.sizeRequired2 * 8 * 6 + 148) % 2 ^ 64) := by
      simp only [acceptedLengths, hS, Option.map_some']
    rw [lengthAccepted_iff E buf _ hA] at hl
    unfold convertImage
    simp only []
    rw [if_neg (by omega), if_neg (by
      simp only [not_or, not_not, not_lt]
      exact ⟨h0, h84, hwh, hge, hpow, hfmt⟩)]
    rw [hS]
    simp only []
    rw [if_neg (by
      intro hc
      rcases hl with hl | hl
      · exact hc.1 hl
      · exact hc.2 hl)]
    split
    · rfl
    · cases hf : (List.range S.mipCnt).foldlM
          (mipStep E buf (readUInt32Fast buf 16) (readUInt32Fast buf 12) S
            (S.faceDataSize * 4 % 2 ^ 64))
          ⟨buf, 148, min (max E.hardwareConcurrency 1) 16⟩ with
      | none => rfl
      | some st => rfl

/-- For a header that passes the checks and declares faces of `2 ^ k` by `2 ^ k` texels with
`k <= 28`, the input is accepted exactly when its length is `148 + 48 * w0 ^ 2` or
`148 + 16 * (4 ^ (k + 1) - 1)`. -/
theorem accepted_iff_length (E : CubeEnv) (buf : List Nat) (k : Nat) (hk : k ≤ 28)
    (hc : headerChecks E buf) (hw0 : readUInt32Fast buf 16 = 2 ^ k) :
    accepted E buf ↔ (buf.length = 148 + 48 * (2 ^ k) ^ 2 ∨
      buf.length = 148 + 16 * (4 ^ (k + 1) - 1)) := by
  have hh0 : readUInt32Fast buf 12 = 2 ^ k := by rw [← hc.2.2.2.1, hw0]
  have hA : acceptedLengths E (readUInt32Fast buf 16) (readUInt32Fast buf 12)
      = some (148 + 48 * (2 ^ k) ^ 2, 148 + 16 * (4 ^ (k + 1) - 1)) := by
    rw [hw0, hh0]
    exact (acceptedLengths_two_pow E k hk).2
  unfold accepted
  rw [lengthAccepted_iff E buf _ hA]
  exact ⟨fun h => h.2, fun h => ⟨hc, h⟩⟩

/-- C18 (failing input): the 148-byte header that declares faces of `2 ^ 30` by `2 ^ 30`
texels passes the header checks; the mip-size loop ends after 31 iterations, but the two
lengths that the size check compares with are 148 and 132, the values of
`148 + 48 * (2 ^ 30) ^ 2` and `148 + 16 * (4 ^ 31 - 1)` reduced modulo `2 ^ 64`, so that the
input is accepted although its length is neither of the two values. -/
theorem accepted_header_only_wrapped :
    headerChecks sampleEnv (ddsHeader (2 ^ 30) (2 ^ 30) 10) ∧
    readUInt32Fast (ddsHeader (2 ^ 30) (2 ^ 30) 10) 16 = 2 ^ 30 ∧
    readUInt32Fast (ddsHeader (2 ^ 30) (2 ^ 30) 10) 12 = 2 ^ 30 ∧
    (mipSizeLoop 2 2 64 (2 ^ 30) (2 ^ 30) ⟨0, 0, 0, -1, 0⟩).map (fun S => S.mipCnt)
      = some 31 ∧
    acceptedLengths sampleEnv (2 ^ 30) (2 ^ 30) = some (148, 132) ∧
    accepted sampleEnv (ddsHeader (2 ^ 30) (2 ^ 30) 10) ∧
    (ddsHeader (2 ^ 30) (2 ^ 30) 10).length ≠ 148 + 48 * (2 ^ 30) ^ 2 ∧
    (ddsHeader (2 ^ 30) (2 ^ 30) 10).length ≠ 148 + 16 * (4 ^ 31 - 1) := by
  refine ⟨by decide!, by decide!, by decide!, by decide!, by decide!, by decide!, by decide!,
    by decide!⟩

/-! ## The cube-map filter: face sizes above the target width -/

/-- C19, counterexample: for a target width of 2, the input of 916 bytes with a valid header
that declares faces of 4 by 4 texels is not returned with its length: `convertImage`
converts it and returns 268. -/
theorem convertImage_larger_face_converted :
    readUInt32Fast (ddsHeader 4 4 10 ++ List.replicate 768 0) 16 = 4 ∧
    sampleEnv.width = 2 ∧
    (ddsHeader 4 4 10 ++ List.replicate 768 0).length = 916 ∧
    ∃ out, convertImage sampleEnv (ddsHeader 4 4 10 ++ List.replicate 768 0)
      = some (268, out) := by
  refine ⟨by decide!, rfl, by decide!, ?_⟩
  obtain ⟨out, h, _⟩ := sample_input_accepted
  exact ⟨out, h⟩

/-- C19, amended: `convertImage` returns the buffer and its length unchanged for every input
whose face size is below the target width; an input with a valid header whose face size
`2 ^ k` is above the target width `2 ^ j` (with `k <= 14`) and whose length is one of the two
accepted lengths is converted, and the returned length `148 + 8 * (4 ^ (j + 1) - 1)` is
smaller than the length of the input. -/
theorem convertImage_face_size (E : CubeEnv) (buf : List Nat) :
    (readUInt32Fast buf 16 < E.width → convertImage E buf = some (buf.length, buf)) ∧
    ∀ j k : Nat, E.width = 2 ^ j → E.height = 2 ^ j → j < k → k ≤ 14 →
      readUInt32Fast buf 0 = 0x20534444 → readUInt32Fast buf 84 = 0x30315844 →
      readUInt32Fast buf 128 = E.dxgiFormat →
      readUInt32Fast buf 16 = 2 ^ k → readUInt32Fast buf 12 = 2 ^ k →
      (buf.length = 148 + 48 * 4 ^ k ∨ buf.length = 148 + 16 * (4 ^ (k + 1) - 1)) →
      E.width < readUInt32Fast buf 16 ∧
      ∃ out, convertImage E buf = some (148 + 8 * (4 ^ (j + 1) - 1), out) ∧
        148 + 8 * (4 ^ (j + 1) - 1) < buf.length := by
  constructor
  · intro h
    unfold convertImage
    by_cases hlen : buf.length < 148
    · simp only [hlen, if_true]
    · simp only [hlen, if_false]
      rw [if_pos (Or.inr (Or.inr (Or.inr (Or.inl h))))]
  · intro j k hw hh hjk hk hmagic hdx hfmt hw0 hh0 hlen
    obtain ⟨out, h, _, hlt⟩ := convertImage_accepted_size E buf j k hw hh (by omega) hk hmagic
      hdx hfmt hw0 hh0 hlen
    refine ⟨?_, out, h, hlt⟩
    rw [hw, hw0]
    exact Nat.pow_lt_pow_right (by norm_num) hjk

theorem convertImage_face_size_witness :
    convertImage sampleEnv (ddsHeader 1 1 10) = some (148, ddsHeader 1 1 10) ∧
    ∃ out, convertImage sampleEnv (ddsHeader 4 4 10 ++ List.replicate 768 0)
        = some (148 + 8 * (4 ^ (1 + 1) - 1), out) ∧
      148 + 8 * (4 ^ (1 + 1) - 1) < (ddsHeader 4 4 10 ++ List.replicate 768 0).length := by
  constructor
  · exact (convertImage_face_size sampleEnv (ddsHeader 1 1 10)).1 (by decide!)
  · exact ((convertImage_face_size sampleEnv (ddsHeader 4 4 10 ++ List.replicate 768 0)).2 1 2
      rfl rfl (by norm_num) (by norm_num) (by decide!) (by decide!) (by decide!) (by decide!)
      (by decide!) (Or.inl (by decide!))).2

/-! ## The cube-map filter: the header of a converted image -/

theorem set_take_of_le {α : Type} (l : List α) (n i : Nat) (a : α) (h : n ≤ i) :
    (l.set i a).take n = l.take n := by
  induction l generalizing n i with
  | nil => simp
  | cons x xs ih =>
    cases n with
    | zero => simp
    | succ n =>
      cases i with
      | zero => omega
      | succ i =>
        simp only [List.set_cons_succ, List.take_succ_cons]
        rw [ih n i (by omega)]

theorem storeTexel_take (buf : List Nat) (off tmp : Nat) (b' : List Nat)
    (h : storeTexel buf off tmp = some b') (hoff : 148 ≤ off) : b'.take 148 = buf.take 148 := by
  unfold storeTexel at h
  split at h
  · cases h
    rw [set_take_of_le _ _ _ _ (by omega), set_take_of_le _ _ _ _ (by omega),
      set_take_of_le _ _ _ _ (by omega), set_take_of_le _ _ _ _ (by omega)]
  · cases h

theorem processImage_take (texel : Nat → Nat → Nat → Nat) (faceDataSize outBufP w y0 y1 : Nat)
    (buf b' : List Nat) (h : processImage texel faceDataSize outBufP w y0 y1 buf = some b')
    (hout : 148 ≤ outBufP) : b'.take 148 = buf.take 148 := by
  unfold processImage at h
  refine foldlM_option_preserves (fun b : List Nat => b.take 148 = buf.take 148) _ ?_ _ _ _ h
    rfl
  intro b n b1 h1 hb
  refine foldlM_option_preserves (fun b : List Nat => b.take 148 = buf.take 148) _ ?_ _ _ _ h1
    hb
  intro b y b2 h2 hb
  refine foldlM_option_preserves (fun b : List Nat => b.take 148 = buf.take 148) _ ?_ _ _ _ h2
    hb
  intro b x b3 h3 hb
  rw [storeTexel_take _ _ _ _ h3 (by omega), hb]

theorem mipStep_take (E : CubeEnv) (input : List Nat) (w0 h0 : Nat) (S : MipSizes)
    (faceDataSize : Nat) (st st' : FillState) (m : Nat)
    (h : mipStep E input w0 h0 S faceDataSize st m = some st') (hout : 148 ≤ st.outBufP) :
    148 ≤ st'.outBufP ∧ st'.buf.take 148 = st.buf.take 148 := by
  unfold mipStep at h
  simp only [] at h
  split at h
  · simp only [Option.map_map, Option.map_eq_some', Function.comp] at h
    obtain ⟨b, hb, rfl⟩ := h
    simp only []
    refine ⟨by omega, ?_⟩
    refine foldlM_option_preserves (fun b : List Nat => b.take 148 = st.buf.take 148) _ ?_ _ _ _
      hb rfl
    intro b i b1 h1 hb
    unfold threadFunction at h1
    rw [processImage_take _ _ _ _ _ _ _ _ h1 hout, hb]
  · simp only [Option.map_some', Option.some.injEq] at h
    rw [← h]
    exact ⟨by simp only []; omega, rfl⟩

theorem mipSizeBody_maxMip (width height w h : Nat) (st : MipSizes) :
    st.maxMip ≤ (mipSizeBody width height w h st).maxMip ∧
    (mipSizeBody width height w h st).maxMip ≤ st.maxMip + 1 := by
  simp only [mipSizeBody]
  split <;> omega

theorem mipSizeLoop_maxMip (width height fuel w h : Nat) (st S : MipSizes)
    (hS : mipSizeLoop width height fuel w h st = some S) :
    st.maxMip ≤ S.maxMip ∧ S.maxMip ≤ st.maxMip + fuel := by
  induction fuel generalizing w h st with
  | zero => simp [mipSizeLoop] at hS
  | succ f ih =>
    rw [mipSizeLoop] at hS
    have hb := mipSizeBody_maxMip width height (fixZero w) (fixZero h) st
    split at hS
    · have := ih _ _ _ hS
      push_cast
      omega
    · cases hS
      push_cast
      omega


theorem getD_set (l : List Nat) (i j a : Nat) (hi : i < l.length) :
    (l.set i a).getD j 0 = if j = i then a else l.getD j 0 := by
  simp only [List.getD_eq_getElem?_getD, List.getElem?_set]
  by_cases h : i = j
  · subst h
    simp [hi]
  · have h' : ¬ j = i := fun e => h e.symm
    simp [h, h']

theorem patchHeader_getD (E : CubeEnv) (maxMip : Int) (b : List Nat) (hb : 148 ≤ b.length)
    (i : Nat) :
    (patchHeader E maxMip b).getD i 0 =
      if i = 128 then 0x1D
      else if i = 113 then b.getD 113 0 ||| 0xFE
      else if i = 108 then b.getD 108 0 ||| 0x08
      else if i = 28 then ((maxMip + 1) % 256).toNat
      else if i = 21 then 4 * E.width / 256 % 256
      else if i = 20 then 4 * E.width % 256
      else if i = 17 then E.width / 256 % 256
      else if i = 16 then E.width % 256
      else if i = 13 then E.height / 256 % 256
      else if i = 12 then E.height % 256
      else if i = 10 then b.getD 10 0 ||| 0x02
      else b.getD i 0 := by
  have h10 : 10 < b.length := by omega
  have h12 : 12 < b.length := by omega
  have h13 : 13 < b.length := by omega
  have h16 : 16 < b.length := by omega
  have h17 : 17 < b.length := by omega
  have h20 : 20 < b.length := by omega
  have h21 : 21 < b.length := by omega
  have h28 : 28 < b.length := by omega
  have h108 : 108 < b.length := by omega
  have h113 : 113 < b.length := by omega
  have h128 : 128 < b.length := by omega
  simp only [patchHeader]
  simp only [getD_set, List.length_set, h10, h12, h13, h16, h17, h20, h21, h28, h108, h113,
    h128, Nat.reduceEqDiff, if_false]

theorem lor_land_self (a b : Nat) : (a ||| b) &&& b = b := by
  apply Nat.eq_of_testBit_eq
  intro i
  rw [Nat.testBit_and, Nat.testBit_or]
  cases a.testBit i <;> cases b.testBit i <;> rfl

theorem getD_of_take_eq (b buf : List Nat) (n i : Nat) (h : b.take n = buf.take n)
    (hi : i < n) : b.getD i 0 = buf.getD i 0 := by
  have h1 : (b.take n)[i]? = b[i]? := by rw [List.getElem?_take, if_pos hi]
  have h2 : (buf.take n)[i]? = buf[i]? := by rw [List.getElem?_take, if_pos hi]
  rw [List.getD_eq_getElem?_getD, List.getD_eq_getElem?_getD, ← h1, ← h2, h]

/-- C20: after the conversion of an accepted input the first 148 bytes differ from those of
the input only at the patched offsets: bytes 12..13 and 16..17 hold the low 16 bits of the
target height and width, least significant byte first, bytes 20..21 those of `4 * width`,
byte 28 holds `maxMip + 1`, byte 128 is 0x1D, the bytes 10, 108 and 113 are their input
values with the bits 0x02, 0x08 and 0xFE set, and every other byte of the header has its
input value. -/
theorem convertImage_header_patch (E : CubeEnv) (buf out : List Nat) (n : Nat)
    (hacc : accepted E buf) (h : convertImage E buf = some (n, out)) :
    ∃ S, mipSizeLoop E.width E.height 64 (readUInt32Fast buf 16) (readUInt32Fast buf 12)
        ⟨0, 0, 0, -1, 0⟩ = some S ∧
      out.getD 12 0 + 256 * out.getD 13 0 = E.height % 65536 ∧
      out.getD 16 0 + 256 * out.getD 17 0 = E.width % 65536 ∧
      out.getD 20 0 + 256 * out.getD 21 0 = 4 * E.width % 65536 ∧
      (out.getD 28 0 : Int) = S.maxMip + 1 ∧
      out.getD 128 0 = 0x1D ∧
      (out.getD 10 0 = buf.getD 10 0 ||| 0x02 ∧ out.getD 10 0 &&& 0x02 = 0x02) ∧
      (out.getD 108 0 = buf.getD 108 0 ||| 0x08 ∧ out.getD 108 0 &&& 0x08 = 0x08) ∧
      (out.getD 113 0 = buf.getD 113 0 ||| 0xFE ∧ out.getD 113 0 &&& 0xFE = 0xFE) ∧
      ∀ i, i < 148 → i ∉ [10, 12, 13, 16, 17, 20, 21, 28, 108, 113, 128] →
        out.getD i 0 = buf.getD i 0 := by
  obtain ⟨S, hS, hconv⟩ := convertImage_of_accepted E buf hacc
  have hlen148 : 148 ≤ buf.length := hacc.1.1
  rw [hconv] at h
  split at h
  · cases h
  · simp only [Option.map_eq_some', Prod.mk.injEq] at h
    obtain ⟨st, hst, -, rfl⟩ := h
    have hP := foldlM_option_preserves
      (fun s : FillState => 148 ≤ s.outBufP ∧ s.buf.take 148 = buf.take 148) _
      (fun s m s' hs hp => by
        obtain ⟨h1, h2⟩ := mipStep_take _ _ _ _ _ _ _ _ _ hs hp.1
        exact ⟨h1, by rw [h2, hp.2]⟩)
      _ _ _ hst ⟨le_refl _, rfl⟩
    have hL := foldlM_option_preserves
      (fun s : FillState => s.buf.length = buf.length) _
      (fun s m s' hs hl => by
        show s'.buf.length = buf.length
        rw [mipStep_length _ _ _ _ _ _ _ _ _ hs]
        exact hl)
      _ _ _ hst rfl
    have hsl : 148 ≤ st.buf.length := by
      have : st.buf.length = buf.length := hL
      omega
    have hg : ∀ i, i < 148 → st.buf.getD i 0 = buf.getD i 0 := fun i hi =>
      getD_of_take_eq st.buf buf 148 i hP.2 hi
    have hmm := mipSizeLoop_maxMip _ _ _ _ _ _ _ hS
    simp only [] at hmm
    refine ⟨S, hS, ?_, ?_, ?_, ?_, ?_, ⟨?_, ?_⟩, ⟨?_, ?_⟩, ⟨?_, ?_⟩, ?_⟩
    · rw [patchHeader_getD E S.maxMip st.buf hsl, patchHeader_getD E S.maxMip st.buf hsl]
      simp only [Nat.reduceEqDiff, if_false, if_true]
      omega
    · rw [patchHeader_getD E S.maxMip st.buf hsl, patchHeader_getD E S.maxMip st.buf hsl]
      simp only [Nat.reduceEqDiff, if_false, if_true]
      omega
    · rw [patchHeader_getD E S.maxMip st.buf hsl, patchHeader_getD E S.maxMip st.buf hsl]
      simp only [Nat.reduceEqDiff, if_false, if_true]
      omega
    · rw [patchHeader_getD E S.maxMip st.buf hsl]
      simp only [Nat.reduceEqDiff, if_false, if_true]
      have hm : (S.maxMip + 1) % 256 = S.maxMip + 1 :=
        Int.emod_eq_of_lt (by omega) (by omega)
      rw [hm, Int.toNat_of_nonneg (by omega)]
    · rw [patchHeader_getD E S.maxMip st.buf hsl]
      simp only [if_true]
    · rw [patchHeader_getD E S.maxMip st.buf hsl]
      simp only [Nat.reduceEqDiff, if_false, if_true]
      rw [hg 10 (by norm_num)]
    · rw [patchHeader_getD E S.maxMip st.buf hsl]
      simp only [Nat.reduceEqDiff, if_false, if_true]
      exact lor_land_self _ _
    · rw [patchHeader_getD E S.maxMip st.buf hsl]
      simp only [Nat.reduceEqDiff, if_false, if_true]
      rw [hg 108 (by norm_num)]
    · rw [patchHeader_getD E S.maxMip st.buf hsl]
      simp only [Nat.reduceEqDiff, if_false, if_true]
      exact lor_land_self _ _
    · rw [patchHeader_getD E S.maxMip st.buf hsl]
      simp only [Nat.reduceEqDiff, if_false, if_true]
      rw [hg 113 (by norm_num)]
    · rw [patchHeader_getD E S.maxMip st.buf hsl]
      simp only [Nat.reduceEqDiff, if_false, if_true]
      exact lor_land_self _ _
    · intro i hi hni
      simp only [List.mem_cons, List.mem_singleton, List.not_mem_nil, or_false, not_or] at hni
      obtain ⟨a1, a2, a3, a4, a5, a6, a7, a8, a9, a10, a11⟩ := hni
      rw [patchHeader_getD E S.maxMip st.buf hsl]
      simp only [a1, a2, a3, a4, a5, a6, a7, a8, a9, a10, a11, if_false]
      exact hg i hi

theorem convertImage_header_patch_witness :
    ∃ out, convertImage sampleEnv (ddsHeader 4 4 10 ++ List.replicate 768 0)
        = some (268, out) ∧
      out.getD 12 0 + 256 * out.getD 13 0 = 2 ∧ out.getD 16 0 + 256 * out.getD 17 0 = 2 ∧
      out.getD 20 0 + 256 * out.getD 21 0 = 8 ∧ (out.getD 28 0 : Int) = 2 ∧
      out.getD 128 0 = 0x1D ∧ out.getD 10 0 = 2 ∧ out.getD 108 0 = 8 ∧ out.getD 113 0 = 0xFE ∧
      out.getD 0 0 = 0x44 := by
  obtain ⟨out, h, _⟩ := sample_input_accepted
  obtain ⟨S, hS, h12, h16, h20, h28, h128, h10, h108, h113, hrest⟩ :=
    convertImage_header_patch sampleEnv (ddsHeader 4 4 10 ++ List.replicate 768 0) out 268
      (by decide!) h
  have hw : readUInt32Fast (ddsHeader 4 4 10 ++ List.replicate 768 0) 16 = 4 := by decide!
  have hh : readUInt32Fast (ddsHeader 4 4 10 ++ List.replicate 768 0) 12 = 4 := by decide!
  rw [hw, hh] at hS
  have hS' : mipSizeLoop sampleEnv.width sampleEnv.height 64 4 4 ⟨0, 0, 0, -1, 0⟩
      = some ⟨16, 21, 3, 1, 5⟩ := by decide!
  rw [hS'] at hS
  cases hS
  refine ⟨out, h, h12, h16, h20, h28, h128, ?_, ?_, ?_, ?_⟩
  · rw [h10.1]
    decide!
  · rw [h108.1]
    decide!
  · rw [h113.1]
    decide!
  · rw [hrest 0 (by norm_num) (by decide)]
    decide!

/-! ## The cube-map cache: the key -/

theorem hashWords_eq_foldl (E : CubeEnv) (k h : Nat) (buf : List Nat) :
    hashWords E k h buf = ((List.range k).map fun i => readUInt64Fast buf (8 * i)).foldl
      (fun h v => E.hashStep64 h v % 2 ^ 32) h := by
  induction k generalizing h buf with
  | zero => rfl
  | succ k ih =>
    rw [hashWords, ih, List.range_succ_eq_map, List.map_cons, List.foldl_cons, List.map_map]
    have h0 : readUInt64Fast buf (8 * 0) = leValue (buf.take 8) := by
      simp [readUInt64Fast]
    rw [h0]
    congr 1
    apply List.map_congr_left
    intro i _
    simp only [Function.comp, readUInt64Fast, List.drop_drop, Nat.succ_eq_add_one]
    rw [show 8 + 8 * i = 8 * (i + 1) by ring]

theorem hashWords_lt (E : CubeEnv) (k h : Nat) (buf : List Nat) (hh : h < 2 ^ 32) :
    hashWords E k h buf < 2 ^ 32 := by
  induction k generalizing h buf with
  | zero => exact hh
  | succ k ih => exact ih _ _ (Nat.mod_lt _ (by norm_num))

theorem foldl_hashStep8_lt (E : CubeEnv) (l : List Nat) (h : Nat) (hh : h < 2 ^ 32) :
    l.foldl (fun h b => E.hashStep8 h b % 2 ^ 32) h < 2 ^ 32 := by
  induction l generalizing h with
  | nil => exact hh
  | cons b l ih => exact ih _ (Nat.mod_lt _ (by norm_num))

theorem bufferHash_lt (E : CubeEnv) (buf : List Nat) : bufferHash E buf < 2 ^ 32 :=
  foldl_hashStep8_lt E _ _ (hashWords_lt E _ _ _ (by norm_num))

theorem cacheKey_eq (E : CubeEnv) (buf : List Nat) (h : buf.length < 2 ^ 32) :
    cacheKey E buf = 2 ^ 32 * buf.length + bufferHash E buf := by
  unfold cacheKey
  rw [Nat.shiftLeft_eq, Nat.mod_eq_of_lt (by omega), Nat.mul_comm,
    ← Nat.mul_add_lt_is_or (bufferHash_lt E buf)]

theorem cacheKey_div (E : CubeEnv) (buf : List Nat) (h : buf.length < 2 ^ 32) :
    cacheKey E buf / 2 ^ 32 = buf.length := by
  have hl := bufferHash_lt E buf
  rw [cacheKey_eq E buf h]
  omega

/-- C21: for a buffer shorter than 2^32 bytes the cache key is a 64-bit value whose high 32
bits are the length of the buffer and whose low 32 bits are the hash of the buffer; the hash
runs over the `bufSize / 8` little-endian 64-bit words at the offsets `0, 8, 16, ...` and then
over the `bufSize % 8` bytes that follow them; two buffers of different lengths below 2^32
have different keys. -/
theorem cacheKey_layout (E : CubeEnv) (buf : List Nat) (h : buf.length < 2 ^ 32) :
    cacheKey E buf < 2 ^ 64 ∧
    cacheKey E buf / 2 ^ 32 = buf.length ∧
    cacheKey E buf % 2 ^ 32 = bufferHash E buf ∧
    bufferHash E buf = (buf.drop (8 * (buf.length / 8))).foldl
      (fun h b => E.hashStep8 h b % 2 ^ 32)
      (((List.range (buf.length / 8)).map fun i => readUInt64Fast buf (8 * i)).foldl
        (fun h v => E.hashStep64 h v % 2 ^ 32) 0xFFFFFFFF) ∧
    (buf.drop (8 * (buf.length / 8))).length = buf.length % 8 ∧
    ∀ buf2 : List Nat, buf2.length < 2 ^ 32 → buf2.length ≠ buf.length →
      cacheKey E buf2 ≠ cacheKey E buf := by
  have hl := bufferHash_lt E buf
  have hk := cacheKey_eq E buf h
  refine ⟨by omega, cacheKey_div E buf h, by omega, ?_, ?_, ?_⟩
  · rw [bufferHash, hashWords_eq_foldl]
  · rw [List.length_drop]
    omega
  · intro buf2 h2 hne e
    apply hne
    rw [← cacheKey_div E buf2 h2, e, cacheKey_div E buf h]

theorem cacheKey_layout_witness :
    cacheKey sampleEnv (ddsHeader 4 4 10) / 2 ^ 32 = 148 ∧
    cacheKey sampleEnv (ddsHeader 4 4 10) % 2 ^ 32 = bufferHash sampleEnv (ddsHeader 4 4 10) ∧
    cacheKey sampleEnv (ddsHeader 1 1 10 ++ [7]) ≠ cacheKey sampleEnv (ddsHeader 4 4 10) := by
  have h := cacheKey_layout sampleEnv (ddsHeader 4 4 10) (by decide!)
  exact ⟨h.2.1, h.2.2.1, h.2.2.2.2.2 (ddsHeader 1 1 10 ++ [7]) (by decide!) (by decide!)⟩

/-! ## The kernels of the mip chain -/

/-- C23, counterexample: for a chain with `maxMip = 8` (target width 256, input faces of 256
by 256 texels, nine mips) the mip with index 6 is not one of the last two mips, yet
`threadFunction` applies the diffuse kernel to it, as to the mips 7 and 8; the specular kernel
ends at mip 5. -/
theorem threadFunction_diffuse_third_last :
    (mipSizeLoop 256 256 64 256 256 ⟨0, 0, 0, -1, 0⟩).map (fun S => (S.mipCnt, S.maxMip))
      = some (9, 8) ∧
    threadFunctionKernel ((6 : Int) + 8 - (9 - 1)) 8 = Kernel.diffuse ∧
    threadFunctionKernel 7 8 = Kernel.diffuse ∧
    threadFunctionKernel 8 8 = Kernel.diffuse ∧
    threadFunctionKernel 5 8 = Kernel.specular 0 := by
  refine ⟨by decide!, by decide!, by decide!, by decide!, by decide!⟩

/-- C23, amended: over the mip indices `m = 0 .. maxMip` that `threadFunction` is passed, the
copy kernel is applied to mip 0 only, the specular kernel exactly to the mips with
`0 < m < maxMip - 2`, and the diffuse kernel exactly to the other mips, those with
`m >= maxMip - 2` apart from mip 0: for `maxMip >= 3` these are the last three mips of the
chain. -/
theorem threadFunction_kernels (m maxMip : Int) (h0 : 0 ≤ m) (hm : m ≤ maxMip) :
    (threadFunctionKernel m maxMip = Kernel.copy ↔ m = 0) ∧
    ((∃ s, threadFunctionKernel m maxMip = Kernel.specular s) ↔ 0 < m ∧ m < maxMip - 2) ∧
    (threadFunctionKernel m maxMip = Kernel.diffuse ↔ 0 < m ∧ maxMip - 2 ≤ m) ∧
    (3 ≤ maxMip → (threadFunctionKernel m maxMip = Kernel.diffuse ↔
      m = maxMip - 2 ∨ m = maxMip - 1 ∨ m = maxMip)) := by
  unfold threadFunctionKernel
  by_cases hz : m = 0
  · subst hz
    simp only [if_true, true_and, reduceCtorEq, exists_false, lt_self_iff_false, false_and,
      false_iff, not_false_eq_true, true_and]
    intro h3 h
    omega
  · rw [if_neg hz]
    by_cases hs : m < maxMip - 2
    · rw [if_pos hs]
      refine ⟨by simp [hz], ?_, ?_, ?_⟩
      · constructor
        · intro _
          exact ⟨by omega, hs⟩
        · intro _
          exact ⟨_, rfl⟩
      · constructor
        · intro h
          cases h
        · intro h
          omega
      · intro _
        constructor
        · intro h
          cases h
        · intro h
          omega
    · rw [if_neg hs]
      refine ⟨by simp [hz], ?_, ?_, ?_⟩
      · constructor
        · rintro ⟨s, h⟩
          cases h
        · intro h
          omega
      · constructor
        · intro _
          exact ⟨by omega, by omega⟩
        · intro _
          rfl
      · intro _
        constructor
        · intro _
          omega
        · intro _
          rfl

theorem threadFunction_kernels_witness :
    threadFunctionKernel 0 8 = Kernel.copy ∧
    (∃ s, threadFunctionKernel 3 8 = Kernel.specular s) ∧
    threadFunctionKernel 6 8 = Kernel.diffuse :=
  ⟨(threadFunction_kernels 0 8 (by decide) (by decide)).1.2 rfl,
   (threadFunction_kernels 3 8 (by decide) (by decide)).2.1.2 ⟨by decide, by decide⟩,
   (threadFunction_kernels 6 8 (by decide) (by decide)).2.2.1.2 ⟨by decide, by decide⟩⟩

/-- C29: when `threadFunction` takes the specular branch, `0 < m < maxMip - 2`, the divisor
`maxMip - 3` is at least 1, the smoothness `(maxMip - 3 - m) / (maxMip - 3)` lies in [0, 1)
and the roughness `1 - sqrt(smoothness)` lies in (0, 1]; with `maxMip = 3` no mip index
`m >= 0` reaches the specular branch. -/
theorem specular_smoothness (m maxMip : Int) (h0 : 0 < m) (h1 : m < maxMip - 2) :
    1 ≤ maxMip - 3 ∧
    threadFunctionKernel m maxMip
      = Kernel.specular ((((maxMip - 3) - m : Int) : ℚ) / ((maxMip - 3 : Int) : ℚ)) ∧
    (0 : ℚ) ≤ (((maxMip - 3) - m : Int) : ℚ) / ((maxMip - 3 : Int) : ℚ) ∧
    (((maxMip - 3) - m : Int) : ℚ) / ((maxMip - 3 : Int) : ℚ) < 1 ∧
    0 < 1 - Real.sqrt (((((maxMip - 3) - m : Int) : ℚ) / ((maxMip - 3 : Int) : ℚ) : ℚ) : ℝ) ∧
    1 - Real.sqrt (((((maxMip - 3) - m : Int) : ℚ) / ((maxMip - 3 : Int) : ℚ) : ℚ) : ℝ) ≤ 1 ∧
    ∀ (m2 : Int) (s : ℚ), 0 ≤ m2 → threadFunctionKernel m2 3 ≠ Kernel.specular s := by
  have hd : (0 : ℚ) < ((maxMip - 3 : Int) : ℚ) := by
    have : (0 : Int) < maxMip - 3 := by omega
    exact_mod_cast this
  have hn : (0 : ℚ) ≤ (((maxMip - 3) - m : Int) : ℚ) := by
    have : (0 : Int) ≤ (maxMip - 3) - m := by omega
    exact_mod_cast this
  have hlt : (((maxMip - 3) - m : Int) : ℚ) < ((maxMip - 3 : Int) : ℚ) := by
    have : (maxMip - 3) - m < maxMip - 3 := by omega
    exact_mod_cast this
  have hs0 : (0 : ℚ) ≤ (((maxMip - 3) - m : Int) : ℚ) / ((maxMip - 3 : Int) : ℚ) :=
    div_nonneg hn (le_of_lt hd)
  have hs1 : (((maxMip - 3) - m : Int) : ℚ) / ((maxMip - 3 : Int) : ℚ) < 1 :=
    (div_lt_one hd).mpr hlt
  have hr1 : ((((((maxMip - 3) - m : Int) : ℚ) / ((maxMip - 3 : Int) : ℚ) : ℚ) : ℝ)) < 1 := by
    exact_mod_cast hs1
  have hsq : Real.sqrt (((((maxMip - 3) - m : Int) : ℚ) / ((maxMip - 3 : Int) : ℚ) : ℚ) : ℝ)
      < 1 := by
    rw [Real.sqrt_lt' (by norm_num)]
    simpa using hr1
  have hsq0 := Real.sqrt_nonneg
    (((((maxMip - 3) - m : Int) : ℚ) / ((maxMip - 3 : Int) : ℚ) : ℚ) : ℝ)
  refine ⟨by omega, ?_, hs0, hs1, by linarith, by linarith, ?_⟩
  · unfold threadFunctionKernel
    rw [if_neg (by omega), if_pos h1]
  · intro m2 s hm2 h
    unfold threadFunctionKernel at h
    by_cases hz : m2 = 0
    · rw [if_pos hz] at h
      cases h
    · rw [if_neg hz, if_neg (by omega)] at h
      cases h

theorem specular_smoothness_witness :
    threadFunctionKernel 2 8 = Kernel.specular ((((8 - 3) - 2 : Int) : ℚ) / ((8 - 3 : Int) : ℚ)) ∧
    (((8 - 3) - 2 : Int) : ℚ) / ((8 - 3 : Int) : ℚ) < 1 :=
  ⟨(specular_smoothness 2 8 (by decide) (by decide)).2.1,
   (specular_smoothness 2 8 (by decide) (by decide)).2.2.2.1⟩

/-! ## The comparator of the alpha sort -/

theorem compareNodesAlpha_irrefl (a : Node) : compareNodesAlpha a a = false := by
  simp [compareNodesAlpha]

theorem compareNodesAlpha_asymm (a b : Node) (h : compareNodesAlpha a b = true) :
    compareNodesAlpha b a = false := by
  obtain ⟨pa, ia, aa, da⟩ := a
  obtain ⟨pb, ib, ab, db⟩ := b
  simp only [compareNodesAlpha] at h ⊢
  cases pa <;> cases pb <;> cases aa <;> cases ab <;> simp_all <;>
    first
    | omega
    | exact le_of_lt h

/-- Among nodes that are all presorted, or of which no two are presorted, the comparator is
transitive. -/
theorem compareNodesAlpha_trans_of_flags (a b c : Node)
    (hf : (a.presorted = true ∧ b.presorted = true ∧ c.presorted = true) ∨
      ((a.presorted && b.presorted) = false ∧ (b.presorted && c.presorted) = false ∧
        (a.presorted && c.presorted) = false))
    (hab : compareNodesAlpha a b = true) (hbc : compareNodesAlpha b c = true) :
    compareNodesAlpha a c = true := by
  obtain ⟨pa, ia, aa, da⟩ := a
  obtain ⟨pb, ib, ab, db⟩ := b
  obtain ⟨pc, ic, ac, dc⟩ := c
  simp only [compareNodesAlpha] at hab hbc ⊢
  rcases hf with ⟨h1, h2, h3⟩ | ⟨h1, h2, h3⟩
  · simp only at h1 h2 h3
    subst h1 h2 h3
    simp only [Bool.and_self, if_true, decide_eq_true_eq] at hab hbc ⊢
    omega
  · simp only at h1 h2 h3
    rw [h1] at hab
    rw [h2] at hbc
    rw [h3]
    simp only [Bool.false_eq_true, if_false] at hab hbc ⊢
    cases aa <;> cases ab <;> cases ac <;> simp_all
    all_goals exact lt_trans hab hbc

/-- C30 (failing input): with the presorted nodes `a` (id 5, depth 1) and `c` (id 3, depth 3)
and the node `b` (id 4, depth 2) that is not presorted, none of them with an alpha property,
the comparator puts `a` before `b` and `b` before `c`, but not `a` before `c`: it puts `c`
before `a`. -/
theorem compareNodesAlpha_not_transitive :
    compareNodesAlpha ⟨true, 5, false, 1⟩ ⟨false, 4, false, 2⟩ = true ∧
    compareNodesAlpha ⟨false, 4, false, 2⟩ ⟨true, 3, false, 3⟩ = true ∧
    compareNodesAlpha ⟨true, 5, false, 1⟩ ⟨true, 3, false, 3⟩ = false ∧
    compareNodesAlpha ⟨true, 3, false, 3⟩ ⟨true, 5, false, 1⟩ = true := by
  refine ⟨by decide!, by decide!, by decide!, by decide!⟩

/-! ## The worker bands -/

/-- The mip step runs `nextThreadCnt` workers on the row bands `rowBand`. -/
theorem mipStep_bands (E : CubeEnv) (input : List Nat) (w0 h0 : Nat) (S : MipSizes)
    (faceDataSize : Nat) (st : FillState) (m : Nat)
    (hp : fixZero (w0 >>> m) ≤ E.width ∧ fixZero (h0 >>> m) ≤ E.height) :
    mipStep E input w0 h0 S faceDataSize st m =
      (((List.range (nextThreadCnt (fixZero (h0 >>> m)) st.threadCnt)).foldlM (fun b i =>
        threadFunction E input faceDataSize st.outBufP (fixZero (w0 >>> m)) m
          ((m : Int) + S.maxMip - ((S.mipCnt : Int) - 1)) S.maxMip
          (rowBand i (fixZero (h0 >>> m)) (nextThreadCnt (fixZero (h0 >>> m)) st.threadCnt)).1
          (rowBand i (fixZero (h0 >>> m)) (nextThreadCnt (fixZero (h0 >>> m)) st.threadCnt)).2
          b) st.buf).map
        fun b => { st with buf := b,
                           threadCnt := nextThreadCnt (fixZero (h0 >>> m)) st.threadCnt }).map
        fun st => { st with outBufP := st.outBufP
          + 4 * (fixZero (w0 >>> m) * fixZero (h0 >>> m)) } := by
  unfold mipStep
  simp only [hp, and_self, if_true]
  rfl

theorem nextThreadCnt_range (h t : Nat) (ht : 1 ≤ t) (ht16 : t ≤ 16) :
    1 ≤ nextThreadCnt h t ∧ nextThreadCnt h t ≤ 16 := by
  unfold nextThreadCnt
  rw [Nat.shiftRight_eq_div_pow]
  split
  · omega
  · split <;> omega

theorem threadCntAfter_range (hc : Nat) (hs : List Nat) :
    1 ≤ threadCntAfter hc hs ∧ threadCntAfter hc hs ≤ 16 := by
  unfold threadCntAfter
  have h0 : 1 ≤ min (max hc 1) 16 ∧ min (max hc 1) 16 ≤ 16 := by omega
  generalize min (max hc 1) 16 = t at h0
  induction hs generalizing t with
  | nil => exact h0
  | cons h hs ih => exact ih _ (nextThreadCnt_range h t h0.1 h0.2)

theorem rowBand_cover (h T : Nat) (j : Nat) (y : Nat) (hy : y < j * h / T) :
    ∃ i, i < j ∧ (rowBand i h T).1 ≤ y ∧ y < (rowBand i h T).2 := by
  induction j with
  | zero => simp at hy
  | succ j ih =>
    by_cases hlt : y < j * h / T
    · obtain ⟨i, hi, h1, h2⟩ := ih hlt
      exact ⟨i, by omega, h1, h2⟩
    · exact ⟨j, by omega, by simp only [rowBand]; omega, hy⟩

/-- C25: for a processed mip of `h >= 1` rows, whatever the hardware thread count and the
heights of the mips processed before, the number `T` of workers satisfies `1 <= T <= 16`,
`T = 1` when `h < 16` and `T <= h / 8` when `h >= 16`; the row bands of the workers
`i = 0 .. T - 1` start at row 0, end at row `h`, are non-empty, follow each other without
gap or overlap, are pairwise disjoint, and every row below `h` lies in one of them. -/
theorem thread_bands (hardwareConcurrency : Nat) (hs : List Nat) (h : Nat) (hh : 1 ≤ h) :
    1 ≤ nextThreadCnt h (threadCntAfter hardwareConcurrency hs) ∧
    nextThreadCnt h (threadCntAfter hardwareConcurrency hs) ≤ 16 ∧
    (h < 16 → nextThreadCnt h (threadCntAfter hardwareConcurrency hs) = 1) ∧
    (16 ≤ h → nextThreadCnt h (threadCntAfter hardwareConcurrency hs) ≤ h / 8) ∧
    (rowBand 0 h (nextThreadCnt h (threadCntAfter hardwareConcurrency hs))).1 = 0 ∧
    (∀ i, i + 1 = nextThreadCnt h (threadCntAfter hardwareConcurrency hs) →
      (rowBand i h (nextThreadCnt h (threadCntAfter hardwareConcurrency hs))).2 = h) ∧
    (∀ i, i < nextThreadCnt h (threadCntAfter hardwareConcurrency hs) →
      (rowBand i h (nextThreadCnt h (threadCntAfter hardwareConcurrency hs))).1
        < (rowBand i h (nextThreadCnt h (threadCntAfter hardwareConcurrency hs))).2 ∧
      (rowBand i h (nextThreadCnt h (threadCntAfter hardwareConcurrency hs))).2 ≤ h) ∧
    (∀ i j, i < j → j < nextThreadCnt h (threadCntAfter hardwareConcurrency hs) →
      (rowBand i h (nextThreadCnt h (threadCntAfter hardwareConcurrency hs))).2
        ≤ (rowBand j h (nextThreadCnt h (threadCntAfter hardwareConcurrency hs))).1) ∧
    ∀ y, y < h → ∃ i, i < nextThreadCnt h (threadCntAfter hardwareConcurrency hs) ∧
      (rowBand i h (nextThreadCnt h (threadCntAfter hardwareConcurrency hs))).1 ≤ y ∧
      y < (rowBand i h (nextThreadCnt h (threadCntAfter hardwareConcurrency hs))).2 := by
  obtain ⟨ht1, ht16⟩ := threadCntAfter_range hardwareConcurrency hs
  generalize threadCntAfter hardwareConcurrency hs = t at ht1 ht16
  obtain ⟨hT1, hT16⟩ := nextThreadCnt_range h t ht1 ht16
  have hsmall : h < 16 → nextThreadCnt h t = 1 := by
    intro hlt
    simp [nextThreadCnt, hlt]
  have hbig : 16 ≤ h → nextThreadCnt h t ≤ h / 8 := by
    intro hge
    unfold nextThreadCnt
    rw [Nat.shiftRight_eq_div_pow, if_neg (by omega)]
    split <;> omega
  have hTh : nextThreadCnt h t ≤ h := by
    by_cases hlt : h < 16
    · rw [hsmall hlt]
      exact hh
    · have := hbig (by omega)
      omega
  generalize nextThreadCnt h t = T at hT1 hT16 hsmall hbig hTh
  have hfull : T * h / T = h := Nat.mul_div_cancel_left h (by omega)
  refine ⟨hT1, hT16, hsmall, hbig, by simp [rowBand], ?_, ?_, ?_, ?_⟩
  · intro i hi
    simp only [rowBand]
    rw [hi, hfull]
  · intro i hi
    simp only [rowBand]
    constructor
    · have h1 : i * h / T + 1 = (i * h + T) / T := (Nat.add_div_right _ (by omega)).symm
      have h2 : (i * h + T) / T ≤ ((i + 1) * h) / T :=
        Nat.div_le_div_right (by rw [Nat.add_mul, Nat.one_mul]; omega)
      omega
    · calc (i + 1) * h / T ≤ T * h / T :=
            Nat.div_le_div_right (Nat.mul_le_mul_right h (by omega))
        _ = h := hfull
  · intro i j hij _
    simp only [rowBand]
    exact Nat.div_le_div_right (Nat.mul_le_mul_right h (by omega))
  · intro y hy
    exact rowBand_cover h T T y (by rw [hfull]; exact hy)

theorem thread_bands_witness :
    nextThreadCnt 64 (threadCntAfter 12 [256, 128]) = 8 ∧
    (rowBand 0 64 (nextThreadCnt 64 (threadCntAfter 12 [256, 128]))).1 = 0 ∧
    ∃ i, i < nextThreadCnt 64 (threadCntAfter 12 [256, 128]) ∧
      (rowBand i 64 (nextThreadCnt 64 (threadCntAfter 12 [256, 128]))).1 ≤ 63 ∧
      63 < (rowBand i 64 (nextThreadCnt 64 (threadCntAfter 12 [256, 128]))).2 :=
  ⟨by decide, (thread_bands 12 [256, 128] 64 (by decide)).2.2.2.2.1,
   (thread_bands 12 [256, 128] 64 (by decide)).2.2.2.2.2.2.2.2 63 (by decide)⟩

/-! ## The cube-map cache: stored entries -/

theorem cache_reachShort_reach (E : CubeEnv) (c c2 : CubeCache)
    (hr : CubeCache.ReachShort E c c2) : CubeCache.Reach E c c2 := by
  induction hr with
  | refl => exact CubeCache.Reach.refl _
  | step c1 c2 buf n out _ _ hcall ih => exact CubeCache.Reach.step _ c1 c2 buf n out ih hcall

theorem cache_call_sizes (E : CubeEnv) (c c1 : CubeCache) (buf out : List Nat) (n : Nat)
    (hlen : buf.length < 2 ^ 32)
    (h : CubeCache.convertImage E c buf = some (n, out, c1))
    (hinv : ∀ k, c.cachedTextures k ≠ [] → (c.cachedTextures k).length < k >>> 32) :
    ∀ k, c1.cachedTextures k ≠ [] → (c1.cachedTextures k).length < k >>> 32 := by
  rcases cache_call_cases E c c1 buf out n h with ⟨_, _, _, _, rfl⟩ | ⟨_, hconv, _, htex⟩
  · exact hinv
  · intro k hk
    rw [htex] at hk ⊢
    split at hk
    · rename_i hn
      rw [if_pos hn] 
      by_cases hkey : k = cacheKey E buf
      · simp only [hkey, if_true] at hk ⊢
        rw [Nat.shiftRight_eq_div_pow, cacheKey_div E buf hlen, List.length_take]
        have := convertImage_length E buf out n hconv
        omega
      · simp only [hkey, if_false] at hk ⊢
        exact hinv k hk
    · rename_i hn
      rw [if_neg hn]
      exact hinv k hk

theorem cache_reachShort_sizes (E : CubeEnv) (c0 c : CubeCache)
    (hr : CubeCache.ReachShort E c0 c)
    (h0 : ∀ k, c0.cachedTextures k ≠ [] → (c0.cachedTextures k).length < k >>> 32) :
    ∀ k, c.cachedTextures k ≠ [] → (c.cachedTextures k).length < k >>> 32 := by
  induction hr with
  | refl => exact h0
  | step c1 c2 buf n out _ hlen hcall ih =>
    exact cache_call_sizes E c1 c2 buf out n hlen hcall ih

/-- C28: on every cache that calls of `convertImage` on buffers shorter than 2^32 bytes lead
to from the empty cache, each non-empty entry is shorter than the high 32 bits of its key;
further such calls leave each non-empty entry as it is; and a call whose key has a non-empty
entry is a hit that returns the length of the entry, which is smaller than the length of the
buffer, copies the entry to the start of the buffer and leaves the cache unchanged. -/
theorem cache_entries_invariant (E : CubeEnv) (c1 c2 : CubeCache)
    (h1 : CubeCache.ReachShort E CubeCache.empty c1) (h2 : CubeCache.ReachShort E c1 c2) :
    (∀ k, c1.cachedTextures k ≠ [] → (c1.cachedTextures k).length < k >>> 32) ∧
    (∀ k, c1.cachedTextures k ≠ [] → c2.cachedTextures k = c1.cachedTextures k) ∧
    ∀ buf : List Nat, buf.length < 2 ^ 32 → c1.cachedTextures (cacheKey E buf) ≠ [] →
      (c1.cachedTextures (cacheKey E buf)).length < buf.length ∧
      CubeCache.convertImage E c1 buf = some ((c1.cachedTextures (cacheKey E buf)).length,
        c1.cachedTextures (cacheKey E buf)
          ++ buf.drop (c1.cachedTextures (cacheKey E buf)).length, c1) := by
  have hinv := cache_reachShort_sizes E CubeCache.empty c1 h1
    (fun k hk => absurd rfl hk)
  refine ⟨hinv, fun k hk => cache_reach_keeps E c1 c2 (cache_reachShort_reach E c1 c2 h2) k hk,
    ?_⟩
  intro buf hlen hne
  have hlt := hinv _ hne
  rw [Nat.shiftRight_eq_div_pow, cacheKey_div E buf hlen] at hlt
  exact ⟨hlt, cache_hit E c1 buf (List.length_pos.mpr hne) (le_of_lt hlt)⟩

theorem cache_entries_invariant_witness :
    ∃ out c1, CubeCache.convertImage sampleEnv CubeCache.empty
        (ddsHeader 4 4 10 ++ List.replicate 768 0) = some (268, out, c1) ∧
      (c1.cachedTextures (cacheKey sampleEnv (ddsHeader 4 4 10 ++ List.replicate 768 0))).length
        < (ddsHeader 4 4 10 ++ List.replicate 768 0).length := by
  obtain ⟨out, h, hl⟩ := sample_input_accepted
  have hc : CubeCache.convertImage sampleEnv CubeCache.empty
      (ddsHeader 4 4 10 ++ List.replicate 768 0) = some (268, out,
        { cachedTextures := fun k' =>
            if k' = cacheKey sampleEnv (ddsHeader 4 4 10 ++ List.replicate 768 0)
            then out.take 268 else [],
          filterCalls := 1 }) := by
    unfold CubeCache.convertImage
    simp only [CubeCache.empty, List.length_nil, Nat.lt_irrefl, if_false, h]
    rw [if_pos ⟨by norm_num, by decide!⟩]
  have hB : (ddsHeader 4 4 10 ++ List.replicate 768 0).length = 916 := by decide!
  refine ⟨_, _, hc, ?_⟩
  refine ((cache_entries_invariant sampleEnv _ _
    (CubeCache.ReachShort.step _ _ _ _ _ _ (CubeCache.ReachShort.refl _) (by rw [hB]; norm_num)
      hc)
    (CubeCache.ReachShort.refl _)).2.2 _ (by rw [hB]; norm_num) ?_).1
  simp only [if_true]
  intro e
  have : (out.take 268).length = 0 := by rw [e]; rfl
  rw [List.length_take, hl, hB] at this
  omega

/-! ## The decoding loop: reads of the input texels -/

theorem pow_two_of_land_pred (w : Nat) (hw : 0 < w) (h : w &&& (w - 1) = 0) :
    ∃ k, w = 2 ^ k := by
  by_contra hne
  push_neg at hne
  exact land_pred_ne_zero w hw hne h

/-- An accepted input whose decoded vector can be allocated declares faces of `2 ^ k` by
`2 ^ k` texels with `k <= 29`, and its length is `148 + 48 * M` for a number `M` of texels
of a face that is at least `4 ^ k`. -/
theorem accepted_sizes (E : CubeEnv) (buf : List Nat) (hb : IsBytes buf) (hw : 0 < E.width)
    (hacc : accepted E buf)
    (hres : readUInt32Fast buf 16 * readUInt32Fast buf 12 * 6 % 2 ^ 64 < 2 ^ 60) :
    ∃ k M, readUInt32Fast buf 16 = 2 ^ k ∧ readUInt32Fast buf 12 = 2 ^ k ∧ k ≤ 29 ∧
      4 ^ k ≤ M ∧ buf.length = 148 + 48 * M ∧ buf.length < 2 ^ 64 := by
  obtain ⟨⟨hlen, _, _, hwh, hge, hpow, _⟩, hl⟩ := hacc
  obtain ⟨k, hk⟩ := pow_two_of_land_pred _ (by omega) hpow
  have hlt := readUInt32Fast_lt buf hb 16
  rw [← hwh, hk] at hres
  rw [hk] at hlt
  have hk32 : k < 32 := (Nat.pow_lt_pow_iff_right (by norm_num)).mp hlt
  have hk29 : k ≤ 29 := by
    by_contra hgt
    have hc : k = 30 ∨ k = 31 := by omega
    rcases hc with rfl | rfl
    · norm_num at hres
    · norm_num at hres
  have hk4 : 4 ^ k ≤ 4 ^ 29 := Nat.pow_le_pow_right (by norm_num) hk29
  have h429 : (4 : Nat) ^ 29 = 288230376151711744 := by norm_num
  have hkp : 4 ^ (k + 1) = 4 * 4 ^ k := by ring
  have hG := geoSum4_closed k
  have hpk : 0 < 4 ^ k := Nat.pos_pow_of_pos k (by norm_num)
  obtain ⟨S, hS, e1, e2, _⟩ := mipSizeLoop_sizes E.width E.height k 64 ⟨0, 0, 0, -1, 0⟩
    (by omega) (by intro _; simp only []; omega) (by simp only []; omega)
  simp only [if_true, Nat.zero_add] at e1 e2
  have hA : acceptedLengths E (readUInt32Fast buf 16) (readUInt32Fast buf 12)
      = some ((4 ^ k * 8 * 6 + 148) % 2 ^ 64, (geoSum4 k * 8 * 6 + 148) % 2 ^ 64) := by
    rw [← hwh, hk]
    simp only [acceptedLengths, hS, Option.map_some', e1, e2]
  rw [lengthAccepted_iff E buf _ hA] at hl
  simp only [] at hl
  rw [Nat.mod_eq_of_lt (by omega)] at hl
  refine ⟨k, ?_⟩
  rcases hl with hl | hl
  · exact ⟨4 ^ k, hk, by rw [← hwh, hk], hk29, le_refl _, by omega, by omega⟩
  · by_cases hov : geoSum4 k * 8 * 6 + 148 < 2 ^ 64
    · rw [Nat.mod_eq_of_lt hov] at hl
      exact ⟨geoSum4 k, hk, by rw [← hwh, hk], hk29, by omega, by omega, by omega⟩
    · exfalso
      have h2 : geoSum4 k * 8 * 6 + 148 < 2 ^ 64 + 148 := by omega
      have h3 : (geoSum4 k * 8 * 6 + 148) % 2 ^ 64 = geoSum4 k * 8 * 6 + 148 - 2 ^ 64 := by
        rw [Nat.mod_eq_sub_mod (by omega), Nat.mod_eq_of_lt (by omega)]
      omega

theorem lex_index_inj (w y x y2 x2 : Nat) (hx : x < w) (hx2 : x2 < w)
    (h : y * w + x = y2 * w + x2) : y = y2 ∧ x = x2 := by
  have h1 : (y * w + x) / w = y := by
    rw [Nat.add_comm, Nat.add_mul_div_right _ _ (by omega), Nat.div_eq_of_lt hx, Nat.zero_add]
  have h2 : (y2 * w + x2) / w = y2 := by
    rw [Nat.add_comm, Nat.add_mul_div_right _ _ (by omega), Nat.div_eq_of_lt hx2, Nat.zero_add]
  have hy : y = y2 := by rw [← h1, ← h2, h]
  subst hy
  exact ⟨rfl, by omega⟩

theorem lex_index_lt (w y x : Nat) (hy : y < w) (hx : x < w) : y * w + x < w * w := by
  have : y * w ≤ (w - 1) * w := Nat.mul_le_mul_right w (by omega)
  have h2 : (w - 1) * w + w = w * w := by
    cases w with
    | zero => omega
    | succ w => simp only [Nat.add_sub_cancel]; ring
  omega

theorem decodeOffset_eq (L w0 M n y x : Nat) (hL : L = 148 + 48 * M) (hL64 : L < 2 ^ 64)
    (hM : w0 * w0 ≤ M) (hn : n < 6) (hy : y < w0) (hx : x < w0) :
    decodeOffset L w0 n y x = 148 + 8 * (y * w0 + x) + 8 * (n * M) := by
  have ht := lex_index_lt w0 y x hy hx
  have hs : (L - 148) / 6 = 8 * M := by omega
  have hnM : n * M ≤ 5 * M := Nat.mul_le_mul_right M (by omega)
  have hyw : y * w0 ≤ y * w0 + x := Nat.le_add_right _ _
  simp only [decodeOffset, hs]
  rw [Nat.mod_eq_of_lt (show y * w0 < 2 ^ 64 by omega),
    Nat.mod_eq_of_lt (show y * w0 + x < 2 ^ 64 by omega),
    Nat.mod_eq_of_lt (show (y * w0 + x) * 8 < 2 ^ 64 by omega)]
  have e : n * (8 * M) = 8 * (n * M) := by ring
  rw [e, Nat.mod_eq_of_lt (show 8 * (n * M) < 2 ^ 64 by omega),
    Nat.mod_eq_of_lt (show (y * w0 + x) * 8 + 8 * (n * M) < 2 ^ 64 by omega),
    Nat.mod_eq_of_lt (show (y * w0 + x) * 8 + 8 * (n * M) + 148 < 2 ^ 64 by omega)]
  omega

/-- C27: for an accepted input, in either layout, whose decoded vector can be allocated (a
vector of 16-byte elements holds fewer than 2^60 of them), the read of the texel of face
`n < 6`, row `y < h0`, column `x < w0` is at offset
`148 + n * ((bufSize - 148) / 6) + 8 * (y * w0 + x)`, its eight bytes lie inside the buffer,
and the reads of two different texels do not overlap. -/
theorem decode_reads_inside (E : CubeEnv) (buf : List Nat) (hb : IsBytes buf)
    (hw : 0 < E.width) (hacc : accepted E buf)
    (hres : readUInt32Fast buf 16 * readUInt32Fast buf 12 * 6 % 2 ^ 64 < 2 ^ 60) :
    ∀ n y x, n < 6 → y < readUInt32Fast buf 12 → x < readUInt32Fast buf 16 →
      decodeOffset buf.length (readUInt32Fast buf 16) n y x
        = 148 + n * ((buf.length - 148) / 6) + 8 * (y * readUInt32Fast buf 16 + x) ∧
      decodeOffset buf.length (readUInt32Fast buf 16) n y x + 8 ≤ buf.length ∧
      decodeRead buf (readUInt32Fast buf 16) n y x = some (readUInt64Fast buf
        (decodeOffset buf.length (readUInt32Fast buf 16) n y x)) ∧
      ∀ n2 y2 x2, n2 < 6 → y2 < readUInt32Fast buf 12 → x2 < readUInt32Fast buf 16 →
        (n2, y2, x2) ≠ (n, y, x) →
        decodeOffset buf.length (readUInt32Fast buf 16) n y x + 8
          ≤ decodeOffset buf.length (readUInt32Fast buf 16) n2 y2 x2 ∨
        decodeOffset buf.length (readUInt32Fast buf 16) n2 y2 x2 + 8
          ≤ decodeOffset buf.length (readUInt32Fast buf 16) n y x := by
  obtain ⟨k, M, hw0, hh0, _, hM, hL, hL64⟩ := accepted_sizes E buf hb hw hacc hres
  rw [hw0, hh0]
  have hMw : 2 ^ k * 2 ^ k ≤ M := by rw [two_pow_mul_self]; exact hM
  have hs : (buf.length - 148) / 6 = 8 * M := by omega
  intro n y x hn hy hx
  have e := decodeOffset_eq buf.length (2 ^ k) M n y x hL hL64 hMw hn hy hx
  have ht := lex_index_lt (2 ^ k) y x hy hx
  have hnM : n * M ≤ 5 * M := Nat.mul_le_mul_right M (by omega)
  have hin : decodeOffset buf.length (2 ^ k) n y x + 8 ≤ buf.length := by omega
  refine ⟨?_, hin, ?_, ?_⟩
  · rw [e, hs]
    have : n * (8 * M) = 8 * (n * M) := by ring
    omega
  · simp only [decodeRead]
    rw [if_pos hin]
  · intro n2 y2 x2 hn2 hy2 hx2 hne
    have e2 := decodeOffset_eq buf.length (2 ^ k) M n2 y2 x2 hL hL64 hMw hn2 hy2 hx2
    have ht2 := lex_index_lt (2 ^ k) y2 x2 hy2 hx2
    have hdiff : y2 * 2 ^ k + x2 + n2 * M ≠ y * 2 ^ k + x + n * M := by
      intro heq
      obtain ⟨hnn, htt⟩ := lex_index_inj M n2 (y2 * 2 ^ k + x2) n (y * 2 ^ k + x)
        (by omega) (by omega) (by omega)
      obtain ⟨hyy, hxx⟩ := lex_index_inj (2 ^ k) y2 x2 y x hx2 hx htt
      apply hne
      rw [hnn, hyy, hxx]
    rw [e, e2]
    omega

theorem decode_reads_inside_witness :
    decodeOffset 916 4 5 3 3 = 908 ∧
    decodeRead (ddsHeader 4 4 10 ++ List.replicate 768 0) 4 5 3 3 = some 0 := by
  have hB : (ddsHeader 4 4 10 ++ List.replicate 768 0).length = 916 := by decide!
  have hw16 : readUInt32Fast (ddsHeader 4 4 10 ++ List.replicate 768 0) 16 = 4 := by decide!
  have hh12 : readUInt32Fast (ddsHeader 4 4 10 ++ List.replicate 768 0) 12 = 4 := by decide!
  have h := decode_reads_inside sampleEnv (ddsHeader 4 4 10 ++ List.replicate 768 0)
    (IsBytes.append (isBytes_ddsHeader 4 4 10) (isBytes_replicate 768 0 (by norm_num)))
    (by decide) (by decide!) (by decide!) 5 3 3 (by norm_num) (by rw [hh12]; norm_num)
    (by rw [hw16]; norm_num)
  rw [hB, hw16] at h
  refine ⟨by rw [h.1], ?_⟩
  rw [h.2.2.1, h.1]
  decide!

/-! ## The downsampling step -/

theorem lex_index_lt2 (w h y x : Nat) (hy : y < h) (hx : x < w) : y * w + x < h * w := by
  have h1 : y * w ≤ (h - 1) * w := Nat.mul_le_mul_right w (by omega)
  have h2 : (h - 1) * w + w = h * w := by
    cases h with
    | zero => omega
    | succ h => simp only [Nat.add_sub_cancel]; ring
  omega

theorem getElem?_eq_some_getD (l : List ℚ) (i : Nat) (h : i < l.length) :
    l[i]? = some (l.getD i 0) := by
  simp [List.getD_eq_getElem?_getD, List.getElem?_eq_getElem h]

theorem downsample_rank_inj (W2 H2 n y x n2 y2 x2 : Nat) (hy : y < H2) (hx : x < W2)
    (hy2 : y2 < H2) (hx2 : x2 < W2)
    (h : n * W2 * H2 + (y * W2 + x) = n2 * W2 * H2 + (y2 * W2 + x2)) :
    n = n2 ∧ y = y2 ∧ x = x2 := by
  have hr := lex_index_lt2 W2 H2 y x hy hx
  have hr2 := lex_index_lt2 W2 H2 y2 x2 hy2 hx2
  rw [Nat.mul_assoc, Nat.mul_assoc, Nat.mul_comm W2 H2] at h
  obtain ⟨hn, hyx⟩ := lex_index_inj (H2 * W2) n (y * W2 + x) n2 (y2 * W2 + x2) hr hr2 h
  obtain ⟨hyy, hxx⟩ := lex_index_inj W2 y x y2 x2 hx hx2 hyx
  exact ⟨hn, hyy, hxx⟩

theorem downsampleStep_ok (w h : Nat) (old b : List ℚ) (n y x : Nat) (hw : 1 ≤ w) (hh : 1 ≤ h)
    (hL : old.length = 6 * w * h) (hn : n < 6) (hy : y < (h + 1) / 2) (hx : x < (w + 1) / 2)
    (hD : Downsampled w h old (n * ((w + 1) / 2) * ((h + 1) / 2) + (y * ((w + 1) / 2) + x)) b) :
    ∃ b', downsampleStep w h b n y x = some b' ∧
      Downsampled w h old (n * ((w + 1) / 2) * ((h + 1) / 2) + (y * ((w + 1) / 2) + x) + 1) b' := by
  obtain ⟨hlen, hnew, hold⟩ := hD
  have hW2 : (w + 1) / 2 ≤ w := by omega
  have hH2 : (h + 1) / 2 ≤ h := by omega
  have hA : n * ((w + 1) / 2) * ((h + 1) / 2) ≤ n * w * h :=
    Nat.mul_le_mul (Nat.mul_le_mul_left n hW2) hH2
  have hB : y * ((w + 1) / 2) ≤ y * w := Nat.mul_le_mul_left y hW2
  have hbase : n * w * h ≤ 5 * w * h :=
    Nat.mul_le_mul_right h (Nat.mul_le_mul_right w (by omega))
  have hx1 : 2 * x + (if 2 * x + 1 < w then 1 else 0) = min (2 * x + 1) (w - 1) := by
    split <;> omega
  have hy1 : 2 * y + (if 2 * y + 1 < h then 1 else 0) = min (2 * y + 1) (h - 1) := by
    split <;> omega
  have hx0 : x * 2 = 2 * x := Nat.mul_comm _ _
  have hy0 : y * 2 = 2 * y := Nat.mul_comm _ _
  have hxm : min (2 * x + 1) (w - 1) < w := by omega
  have hym : min (2 * y + 1) (h - 1) < h := by omega
  have hxm0 : 2 * x ≤ min (2 * x + 1) (w - 1) := by omega
  have hym0 : 2 * y ≤ min (2 * y + 1) (h - 1) := by omega
  have hx2w : 2 * x < w := by omega
  have hy2h : 2 * y < h := by omega
  have hyw0 : y * w ≤ 2 * y * w := Nat.mul_le_mul_right w (by omega)
  have hyw1 : 2 * y * w ≤ min (2 * y + 1) (h - 1) * w := Nat.mul_le_mul_right w hym0
  have hs00 := lex_index_lt2 w h (2 * y) (2 * x) hy2h hx2w
  have hs01 := lex_index_lt2 w h (2 * y) (min (2 * x + 1) (w - 1)) hy2h hxm
  have hs10 := lex_index_lt2 w h (min (2 * y + 1) (h - 1)) (2 * x) hym hx2w
  have hs11 := lex_index_lt2 w h (min (2 * y + 1) (h - 1)) (min (2 * x + 1) (w - 1)) hym hxm
  have hwh : 5 * w * h + h * w = 6 * w * h := by ring
  have hr (s : Nat) (h1 : n * ((w + 1) / 2) * ((h + 1) / 2) + (y * ((w + 1) / 2) + x) ≤ s)
      (h2 : s < old.length) : b[s]? = some (old.getD s 0) := by
    rw [hold s h1, getElem?_eq_some_getD old s h2]
  simp only [downsampleStep, Nat.shiftLeft_eq, Nat.shiftRight_eq_div_pow, pow_one, hx0, hy0]
  simp only [hx1, hy1]
  rw [hr _ (by omega) (by omega), Option.some_bind, hr _ (by omega) (by omega),
    Option.some_bind, hr _ (by omega) (by omega), Option.some_bind,
    hr _ (by omega) (by omega), Option.some_bind]
  have htl : n * ((w + 1) / 2) * ((h + 1) / 2) + (y * ((w + 1) / 2) + x) < b.length := by
    omega
  rw [if_pos htl]
  refine ⟨_, rfl, by simp [hlen], ?_, ?_⟩
  · intro n2 y2 x2 hn2 hy2 hx2 hlt
    by_cases heq : n2 * ((w + 1) / 2) * ((h + 1) / 2) + (y2 * ((w + 1) / 2) + x2)
        = n * ((w + 1) / 2) * ((h + 1) / 2) + (y * ((w + 1) / 2) + x)
    · obtain ⟨rfl, rfl, rfl⟩ := downsample_rank_inj _ _ _ _ _ _ _ _ hy2 hx2 hy hx heq
      rw [List.getElem?_set, if_pos rfl, if_pos htl]
      simp only [boxAverage, boxFilterSpec]
      congr 1
      ring
    · rw [List.getElem?_set, if_neg (fun e => heq e.symm)]
      exact hnew n2 y2 x2 hn2 hy2 hx2 (by omega)
  · intro i hi
    rw [List.getElem?_set, if_neg (by omega)]
    exact hold i (by omega)

theorem Downsampled.congr (w h : Nat) (old b : List ℚ) (t t2 : Nat) (e : t = t2)
    (hD : Downsampled w h old t b) : Downsampled w h old t2 b := by
  subst e
  exact hD

theorem downsample_loops (w h : Nat) (old : List ℚ) (hw : 1 ≤ w) (hh : 1 ≤ h)
    (hL : old.length = 6 * w * h) :
    ∃ b, (List.range 6).foldlM (fun b n =>
        (List.range ((h + 1) / 2)).foldlM (fun b y =>
          (List.range ((w + 1) / 2)).foldlM (fun b x => downsampleStep w h b n y x) b) b) old
        = some b ∧
      Downsampled w h old (6 * ((w + 1) / 2) * ((h + 1) / 2)) b := by
  refine foldlM_range_inv
    (fun n (b : List ℚ) => Downsampled w h old (n * ((w + 1) / 2) * ((h + 1) / 2)) b) _ 6 old
    ⟨rfl, fun n y x _ _ _ hlt => by omega, fun _ _ => rfl⟩ ?_
  intro n b hn hP
  obtain ⟨b1, hb1, hP1⟩ := foldlM_range_inv
    (fun y (b : List ℚ) => Downsampled w h old
      (n * ((w + 1) / 2) * ((h + 1) / 2) + y * ((w + 1) / 2)) b) _ ((h + 1) / 2) b
    (Downsampled.congr w h old b _ _ (by omega) hP)
    (by
      intro y b2 hy hP2
      obtain ⟨b3, hb3, hP3⟩ := foldlM_range_inv
        (fun x (b : List ℚ) => Downsampled w h old
          (n * ((w + 1) / 2) * ((h + 1) / 2) + (y * ((w + 1) / 2) + x)) b) _ ((w + 1) / 2) b2
        (Downsampled.congr w h old b2 _ _ (by omega) hP2)
        (by
          intro x b4 hx hP4
          obtain ⟨b5, hb5, hP5⟩ := downsampleStep_ok w h old b4 n y x hw hh hL hn hy hx hP4
          exact ⟨b5, hb5, Downsampled.congr w h old b5 _ _ (by omega) hP5⟩)
      exact ⟨b3, hb3, Downsampled.congr w h old b3 _ _ (by
        rw [Nat.add_mul, Nat.one_mul]) hP3⟩)
  exact ⟨b1, hb1, Downsampled.congr w h old b1 _ _ (by ring) hP1⟩

/-- C24: on a buffer of six faces of `w` by `h` texels the in-place downsampling returns the
2x2 box filter of the buffer as it was before the step: the texel `(n, y, x)` of the smaller
mip is a quarter of the sum of the old texels of face `n` at the rows `2 * y`,
`min (2 * y + 1) (h - 1)` and the columns `2 * x`, `min (2 * x + 1) (w - 1)`. The four
source indices lie inside the buffer, the index written is not above the smallest of them,
and the iterations that come earlier in the loop order write at smaller indices, so that no
texel is read after it has been overwritten. -/
theorem downsample_box_filter (w h : Nat) (inBuf : List ℚ) (hw : 1 ≤ w) (hh : 1 ≤ h)
    (hlen : inBuf.length = 6 * w * h) (hint : 6 * w * h < 2 ^ 31) :
    ∃ out, downsample w h inBuf = some out ∧
      out.length = (w + 1) / 2 * ((h + 1) / 2) * 6 ∧
      ∀ n y x, n < 6 → y < (h + 1) / 2 → x < (w + 1) / 2 →
        out[n * ((w + 1) / 2) * ((h + 1) / 2) + (y * ((w + 1) / 2) + x)]?
          = some (boxFilterSpec w h inBuf n y x) ∧
        n * w * h + (min (2 * y + 1) (h - 1) * w + min (2 * x + 1) (w - 1)) < inBuf.length ∧
        n * ((w + 1) / 2) * ((h + 1) / 2) + (y * ((w + 1) / 2) + x)
          ≤ n * w * h + (2 * y * w + 2 * x) ∧
        ∀ n2 y2 x2, n2 < 6 → y2 < (h + 1) / 2 → x2 < (w + 1) / 2 →
          (n2 < n ∨ (n2 = n ∧ (y2 < y ∨ (y2 = y ∧ x2 < x)))) →
          n2 * ((w + 1) / 2) * ((h + 1) / 2) + (y2 * ((w + 1) / 2) + x2)
            < n * ((w + 1) / 2) * ((h + 1) / 2) + (y * ((w + 1) / 2) + x) := by
  obtain ⟨b, hb, hlb, hnew, _⟩ := downsample_loops w h inBuf hw hh hlen
  have hW2 : (w + 1) / 2 ≤ w := by omega
  have hH2 : (h + 1) / 2 ≤ h := by omega
  have hsz : (w + 1) / 2 * ((h + 1) / 2) ≤ w * h := Nat.mul_le_mul hW2 hH2
  have hwh6 : 6 * w * h = w * h * 6 := by ring
  have hres : resize ((w + 1) / 2 * ((h + 1) / 2) * 6) b
      = b.take ((w + 1) / 2 * ((h + 1) / 2) * 6) := by
    have : (w + 1) / 2 * ((h + 1) / 2) * 6 - b.length = 0 := by omega
    simp [resize, this]
  refine ⟨b.take ((w + 1) / 2 * ((h + 1) / 2) * 6), ?_, ?_, ?_⟩
  · simp only [downsample, Nat.shiftRight_eq_div_pow, pow_one]
    rw [if_neg (by omega), hb, Option.map_some', hres]
  · rw [List.length_take]
    omega
  · intro n y x hn hy hx
    have hr := lex_index_lt2 ((w + 1) / 2) ((h + 1) / 2) y x hy hx
    have hbase2 : n * ((w + 1) / 2) * ((h + 1) / 2) ≤ 5 * ((w + 1) / 2) * ((h + 1) / 2) :=
      Nat.mul_le_mul_right _ (Nat.mul_le_mul_right _ (by omega))
    have e6 : 6 * ((w + 1) / 2) * ((h + 1) / 2)
        = 5 * ((w + 1) / 2) * ((h + 1) / 2) + (h + 1) / 2 * ((w + 1) / 2) := by ring
    have e6b : (w + 1) / 2 * ((h + 1) / 2) * 6 = 6 * ((w + 1) / 2) * ((h + 1) / 2) := by ring
    have hA : n * ((w + 1) / 2) * ((h + 1) / 2) ≤ n * w * h :=
      Nat.mul_le_mul (Nat.mul_le_mul_left n hW2) hH2
    have hB : y * ((w + 1) / 2) ≤ y * w := Nat.mul_le_mul_left y hW2
    have hyw0 : y * w ≤ 2 * y * w := Nat.mul_le_mul_right w (by omega)
    have hbase : n * w * h ≤ 5 * w * h :=
      Nat.mul_le_mul_right h (Nat.mul_le_mul_right w (by omega))
    have hs11 := lex_index_lt2 w h (min (2 * y + 1) (h - 1)) (min (2 * x + 1) (w - 1))
      (by omega) (by omega)
    have hwh : 5 * w * h + h * w = 6 * w * h := by ring
    refine ⟨?_, by omega, by omega, ?_⟩
    · rw [List.getElem?_take, if_pos (by omega)]
      exact hnew n y x hn hy hx (by omega)
    · intro n2 y2 x2 hn2 hy2 hx2 hord
      have hr2 := lex_index_lt2 ((w + 1) / 2) ((h + 1) / 2) y2 x2 hy2 hx2
      rcases hord with hlt | ⟨rfl, hlt | ⟨rfl, hlt⟩⟩
      · have h1 : (n2 + 1) * ((w + 1) / 2) * ((h + 1) / 2) ≤ n * ((w + 1) / 2) * ((h + 1) / 2) :=
          Nat.mul_le_mul_right _ (Nat.mul_le_mul_right _ (by omega))
        have h2 : (n2 + 1) * ((w + 1) / 2) * ((h + 1) / 2)
            = n2 * ((w + 1) / 2) * ((h + 1) / 2) + (h + 1) / 2 * ((w + 1) / 2) := by ring
        omega
      · have h1 : (y2 + 1) * ((w + 1) / 2) ≤ y * ((w + 1) / 2) :=
          Nat.mul_le_mul_right _ (by omega)
        have h2 : (y2 + 1) * ((w + 1) / 2) = y2 * ((w + 1) / 2) + (w + 1) / 2 := by ring
        omega
      · omega

theorem downsample_box_filter_witness :
    ∃ out, downsample 3 1 [1, 2, 3, 4, 5, 6, 7, 8, 9, 10, 11, 12, 13, 14, 15, 16, 17, 18]
        = some out ∧ out.length = 12 ∧
      out[1]? = some (boxFilterSpec 3 1
        [1, 2, 3, 4, 5, 6, 7, 8, 9, 10, 11, 12, 13, 14, 15, 16, 17, 18] 0 0 1) := by
  obtain ⟨out, h, hl, hi⟩ := downsample_box_filter 3 1
    [1, 2, 3, 4, 5, 6, 7, 8, 9, 10, 11, 12, 13, 14, 15, 16, 17, 18]
    (by decide) (by decide) (by decide) (by decide)
  exact ⟨out, h, hl, (hi 0 0 1 (by decide) (by decide) (by decide)).1⟩

/-! ## The cube-map filter: where the output is written -/

/-- C26 (failing input): for a target width of 2, the accepted input of 916 bytes with faces
of 4 by 4 texels is converted to the returned length 268 with `faceDataSize = 20`. The mip of
4 by 4 texels is not processed, but the output pointer moves past it: the first processed mip
is written from offset `148 + 64 = 212` on instead of 148, so the bytes 148 to 211 keep
their input value 0, and the texel of face 5 is written at offset 312, beyond the returned
length. -/
theorem convertImage_output_shifted :
    accepted sampleEnv (ddsHeader 4 4 10 ++ List.replicate 768 0) ∧
    (mipSizeLoop 2 2 64 4 4 ⟨0, 0, 0, -1, 0⟩).map (fun S => (S.mipCnt, S.maxMip, S.faceDataSize))
      = some (3, 1, 5) ∧
    (mipStep sampleEnv (ddsHeader 4 4 10 ++ List.replicate 768 0) 4 4 ⟨16, 21, 3, 1, 5⟩ 20
      ⟨ddsHeader 4 4 10 ++ List.replicate 768 0, 148, 4⟩ 0).map (fun st => st.outBufP)
      = some 212 ∧
    (convertImage sampleEnv (ddsHeader 4 4 10 ++ List.replicate 768 0)).map
      (fun r => (r.1, (r.2.drop 148).take 64, r.2.getD 212 0, r.2.getD 312 0))
      = some (268, List.replicate 64 0, 155, 180) ∧
    268 ≤ 312 := by
  refine ⟨by decide!, by decide!, by decide!, ?_, by decide⟩
  decide!

/-! ## The export of the UV data -/

/-- C22, counterexample: on a stream of 40 bytes with an index count of 4, which `readMesh`
parses with the result 1 and on which `exportSFMesh` gets to the store for a widget with one
texture coordinate, the exporter writes at offset 32, while the reader reads the first UV
word of channel 0 at position 36; the four bytes that the exporter replaces are those of the
UV count of the reader. -/
theorem exportSFMesh_offset_differs :
    (readMesh Codec.spec (MeshFile.fresh oddIndexStream)).map Prod.fst = some 1 ∧
    readUInt32Fast oddIndexStream 4 = 4 ∧
    exportOffset oddIndexStream 1 = some 32 ∧
    uvReadPosition oddIndexStream = some 36 ∧
    exportSFMesh (fun _ => 0x11223344) [⟨Flt.fin 0, Flt.fin 0⟩] oddIndexStream
      = some (oddIndexStream.take 32 ++ [0x44, 0x33, 0x22, 0x11] ++ oddIndexStream.drop 36) := by
  refine ⟨by decide!, by decide!, by decide!, by decide!, by decide!⟩

theorem readU32_drop_eq (data : List Nat) (k : Nat) (h : k + 4 ≤ data.length) :
    readU32 (data.drop k) = (readUInt32Fast data k, data.drop (k + 4)) := by
  simp only [readU32, readUInt, readUInt32Fast, List.length_drop]
  rw [if_pos (by omega), List.drop_drop]

theorem readFloat_drop (s : Stream) (h : 4 ≤ s.length) : (readFloat s).2 = s.drop 4 := by
  simp only [readFloat, readU32]
  exact readUInt_drop 4 s h

theorem readPosition_drop (scale : Flt) (s : Stream) (h : 6 ≤ s.length) :
    (readPosition scale s).2 = s.drop 6 := by
  simp only [readPosition, readI16, readU16]
  have h1 : (readUInt 2 s).2 = s.drop 2 := readUInt_drop 2 s (by omega)
  have h2 : (readUInt 2 (s.drop 2)).2 = (s.drop 2).drop 2 :=
    readUInt_drop 2 _ (by rw [List.length_drop]; omega)
  have h3 : (readUInt 2 ((s.drop 2).drop 2)).2 = ((s.drop 2).drop 2).drop 2 :=
    readUInt_drop 2 _ (by rw [List.length_drop, List.length_drop]; omega)
  rw [h1, h2, h3]
  simp

theorem fbReadUInt32_eq_some (data : List Nat) (pos : Nat) (r : Nat × Nat)
    (h : fbReadUInt32 data pos = some r) :
    pos + 4 ≤ data.length ∧ r = (readUInt32Fast data pos, pos + 4) := by
  unfold fbReadUInt32 at h
  split at h
  · rename_i hl
    cases h
    exact ⟨hl, rfl⟩
  · cases h

/-- What a successful search of the exporter has read: the index count at offset 4, the
vertex count behind the indices and the eight skipped bytes, the UV count behind the
vertices, and the offset of the UV data, whose words lie inside the file. -/
theorem exportOffset_eq_some (data : List Nat) (numTex q : Nat)
    (h : exportOffset data numTex = some q) :
    q = 4 + 4 + 2 * readUInt32Fast data 4 + 8 + 4
      + 6 * readUInt32Fast data (4 + 4 + 2 * readUInt32Fast data 4 + 8) + 4 ∧
    readUInt32Fast data (q - 4) = numTex ∧ q + 4 * numTex ≤ data.length := by
  unfold exportOffset at h
  cases h1 : fbReadUInt32 data 0 with
  | none => rw [h1] at h; cases h
  | some version =>
    rw [h1, Option.some_bind] at h
    obtain ⟨_, rfl⟩ := fbReadUInt32_eq_some _ _ _ h1
    split at h
    · cases h
    · cases h2 : fbReadUInt32 data (0 + 4) with
      | none => simp only [h2, Option.none_bind] at h; cases h
      | some numIndices =>
        simp only [h2, Option.some_bind] at h
        obtain ⟨_, rfl⟩ := fbReadUInt32_eq_some _ _ _ h2
        simp only [fbReadUInt64] at h
        split at h
        · simp only [Option.some_bind] at h
          cases h3 : fbReadUInt32 data (0 + 4 + 4 + readUInt32Fast data (0 + 4) * 2 + 8) with
          | none => simp only [h3, Option.none_bind] at h; cases h
          | some numVertices =>
            simp only [h3, Option.some_bind] at h
            obtain ⟨_, rfl⟩ := fbReadUInt32_eq_some _ _ _ h3
            cases h4 : fbReadUInt32 data (0 + 4 + 4 + readUInt32Fast data (0 + 4) * 2 + 8 + 4
                + readUInt32Fast data (0 + 4 + 4 + readUInt32Fast data (0 + 4) * 2 + 8) * 6) with
            | none => simp only [h4, Option.none_bind] at h; cases h
            | some numTexCoords =>
              simp only [h4, Option.some_bind] at h
              obtain ⟨_, rfl⟩ := fbReadUInt32_eq_some _ _ _ h4
              simp only [] at h
              split at h
              · cases h
              · rename_i hnt
                split at h
                · cases h
                · rename_i hfit
                  simp only [Option.some.injEq] at h
                  simp only [Nat.zero_add] at h hnt hfit
                  have e1 : 4 + 4 + readUInt32Fast data 4 * 2 + 8
                      = 4 + 4 + 2 * readUInt32Fast data 4 + 8 := by omega
                  rw [e1] at h hnt hfit
                  have hnt2 := not_not.mp hnt
                  subst h
                  refine ⟨by omega, ?_, by omega⟩
                  rw [← hnt2]
                  congr 1
        · simp only [Option.none_bind] at h
          cases h

/-- When the index count is a multiple of 3 and the file reaches as far as the UV count, the
reader gets to the first UV word of channel 0 at the offset
`4 + 4 + 2 * indexCount + 8 + 4 + 6 * positionCount + 4`. -/
theorem uvReadPosition_eq (data : List Nat) (p : Nat)
    (h3 : readUInt32Fast data 4 % 3 = 0)
    (hlen : 4 + 4 + 2 * readUInt32Fast data 4 + 8 + 4
      + 6 * readUInt32Fast data (4 + 4 + 2 * readUInt32Fast data 4 + 8) + 4 ≤ data.length)
    (hp : uvReadPosition data = some p) :
    p = 4 + 4 + 2 * readUInt32Fast data 4 + 8 + 4
      + 6 * readUInt32Fast data (4 + 4 + 2 * readUInt32Fast data 4 + 8) + 4 := by
  have hne : data ≠ [] := by
    intro e
    rw [e] at hlen
    simp at hlen
  have hd0 : readU32 data = (readUInt32Fast data 0, data.drop 4) := by
    have := readU32_drop_eq data 0 (by omega)
    simpa using this
  have hd4 : readU32 (data.drop 4) = (readUInt32Fast data 4, data.drop 8) :=
    readU32_drop_eq data 4 (by omega)
  have h6 : 6 * (readUInt32Fast data 4 / 3) = 2 * readUInt32Fast data 4 := by omega
  unfold uvReadPosition at hp
  rw [if_neg hne] at hp
  simp only [hd0, hd4] at hp
  split at hp
  · cases hp
  · have htr : (fillLoop (fun _ => readTriangle) (readUInt32Fast data 4 / 3) 0
        (resize (readUInt32Fast data 4 / 3) []) (data.drop 8)).2
        = data.drop (8 + 2 * readUInt32Fast data 4) := by
      rw [fillLoop_drop (fun _ => readTriangle) 6 (fun _ s hs => readTriangle_drop s hs) _ _ _ _
        (by rw [List.length_drop]; omega), List.drop_drop, h6]
    rw [htr] at hp
    have hfl : (readFloat (data.drop (8 + 2 * readUInt32Fast data 4))).2
        = data.drop (8 + 2 * readUInt32Fast data 4 + 4) := by
      rw [readFloat_drop _ (by rw [List.length_drop]; omega), List.drop_drop]
    split at hp
    · cases hp
    · rw [hfl] at hp
      have hwp := readU32_drop_eq data (8 + 2 * readUInt32Fast data 4 + 4) (by omega)
      have hnp := readU32_drop_eq data (8 + 2 * readUInt32Fast data 4 + 4 + 4) (by omega)
      have eidx : 8 + 2 * readUInt32Fast data 4 + 4 + 4
          = 4 + 4 + 2 * readUInt32Fast data 4 + 8 := by omega
      rw [eidx] at hnp
      simp only [hwp, hnp] at hp
      split at hp
      · cases hp
      · simp only [resize_nil_length] at hp
        have hpos : (fillLoop (fun _ => readPosition
            (readFloat (data.drop (8 + 2 * readUInt32Fast data 4))).1)
            (readUInt32Fast data (4 + 4 + 2 * readUInt32Fast data 4 + 8)) 0
            (resize (readUInt32Fast data (4 + 4 + 2 * readUInt32Fast data 4 + 8)) [])
            (data.drop (8 + 2 * readUInt32Fast data 4 + 4 + 4 + 4))).2
            = data.drop (8 + 2 * readUInt32Fast data 4 + 4 + 4 + 4
              + 6 * readUInt32Fast data (4 + 4 + 2 * readUInt32Fast data 4 + 8)) := by
          rw [fillLoop_drop _ 6 (fun _ s hs => readPosition_drop _ s hs) _ _ _ _
            (by rw [List.length_drop]; omega), List.drop_drop]
        rw [hpos] at hp
        have hnc := readU32_drop_eq data (8 + 2 * readUInt32Fast data 4 + 4 + 4 + 4
          + 6 * readUInt32Fast data (4 + 4 + 2 * readUInt32Fast data 4 + 8)) (by omega)
        rw [hnc] at hp
        simp only [Option.some.injEq, List.length_drop] at hp
        omega

theorem writeUInt32Fast_append (pre post : List Nat) (a b c d v : Nat) :
    writeUInt32Fast (pre ++ a :: b :: c :: d :: post) pre.length v = pre ++ (le32 v ++ post) := by
  simp [writeUInt32Fast, le32, List.set_append]

theorem storeWords_append (ws : List Nat) (pre mid post : List Nat)
    (h : mid.length = 4 * ws.length) :
    storeWords (pre ++ (mid ++ post)) pre.length ws = pre ++ (ws.flatMap le32 ++ post) := by
  induction ws generalizing pre mid with
  | nil =>
    have : mid = [] := List.length_eq_zero.mp (by simpa using h)
    subst this
    simp [storeWords]
  | cons v vs ih =>
    match mid, h with
    | a :: b :: c :: d :: mid2, h =>
      have hl : mid2.length = 4 * vs.length := by
        simp only [List.length_cons] at h
        omega
      simp only [storeWords, List.cons_append]
      rw [writeUInt32Fast_append]
      have e : pre.length + 4 = (pre ++ le32 v).length := by simp [le32]
      rw [e, ← List.append_assoc pre (le32 v), ih (pre ++ le32 v) mid2 hl]
      simp [List.flatMap_cons]

/-- When `readMesh` on a new `MeshFile` returns a positive count, it has reached the UV
block. -/
theorem uvReadPosition_of_readMesh (C : Codec) (data : List Nat) (r : Nat) (m : MeshFile)
    (h : readMesh C (MeshFile.fresh data) = some (r, m)) (hr : 0 < r) :
    ∃ p, uvReadPosition data = some p := by
  unfold readMesh at h
  unfold uvReadPosition
  simp only [MeshFile.fresh] at h
  by_cases hd : data = []
  · rw [if_pos hd] at h
    simp only [Option.some.injEq, Prod.mk.injEq] at h
    omega
  · rw [if_neg hd] at h
    rw [if_neg hd]
    simp only [] at h ⊢
    by_cases hm : (readU32 data).1 ≠ 1
    · rw [if_pos hm] at h
      simp only [Option.some.injEq, Prod.mk.injEq] at h
      omega
    · rw [if_neg hm] at h
      rw [if_neg hm]
      split at h
      · simp only [Option.some.injEq, Prod.mk.injEq] at h
        omega
      · rename_i hs
        rw [if_neg hs]
        unfold readMeshBody at h
        simp only [List.length_nil, Nat.add_zero] at h
        split at h
        · cases h
        · rename_i hg
          rw [if_neg hg]
          exact ⟨_, rfl⟩

/-- C22, amended: for a stream whose index count is a multiple of 3, on which `readMesh`
reaches the UV block and `exportSFMesh` gets to the store, the offset at which the exporter
writes is `4 + 4 + 2 * indexCount + 8 + 4 + 6 * positionCount + 4` and equals the stream
position at which the reader reads the first UV word of channel 0; the UV count stored in
front of it is the number of texture coordinates, and the exported file is the input with the
`4 * uvCount0` bytes from that offset on replaced by the packed words: every other byte and
the length are unchanged. -/
theorem exportSFMesh_uv_block (pack : Vector2 → Nat) (texcoords : List Vector2)
    (data : List Nat) (p q : Nat) (h3 : readUInt32Fast data 4 % 3 = 0)
    (hq : exportOffset data texcoords.length = some q) (hp : uvReadPosition data = some p) :
    p = q ∧
    q = 4 + 4 + 2 * readUInt32Fast data 4 + 8 + 4
      + 6 * readUInt32Fast data (4 + 4 + 2 * readUInt32Fast data 4 + 8) + 4 ∧
    readUInt32Fast data (q - 4) = texcoords.length ∧
    q + 4 * texcoords.length ≤ data.length ∧
    ∃ out, exportSFMesh pack texcoords data = some out ∧ out.length = data.length ∧
      out = data.take q ++ ((texcoords.map fun v => pack v % 2 ^ 32).flatMap le32
        ++ data.drop (q + 4 * texcoords.length)) := by
  obtain ⟨hq1, hq2, hq3⟩ := exportOffset_eq_some data texcoords.length q hq
  have hpq : p = q := by
    rw [hq1]
    exact uvReadPosition_eq data p h3 (by omega) hp
  have hdec : data = data.take q ++ ((data.drop q).take (4 * texcoords.length)
      ++ data.drop (q + 4 * texcoords.length)) := by
    have h1 : (data.drop q).take (4 * texcoords.length) ++ data.drop (q + 4 * texcoords.length)
        = data.drop q := by
      rw [← List.drop_drop, List.take_append_drop]
    rw [h1, List.take_append_drop]
  have hst := storeWords_append (texcoords.map fun v => pack v % 2 ^ 32) (data.take q)
    ((data.drop q).take (4 * texcoords.length)) (data.drop (q + 4 * texcoords.length))
    (by rw [List.length_take, List.length_drop, List.length_map]; omega)
  rw [← hdec, List.length_take, min_eq_left (by omega)] at hst
  have hflat : ∀ ws : List Nat, (ws.flatMap le32).length = 4 * ws.length := by
    intro ws
    induction ws with
    | nil => rfl
    | cons w ws ih =>
      rw [List.flatMap_cons, List.length_append, ih, List.length_cons]
      simp only [le32, List.length_cons, List.length_nil]
      omega
  refine ⟨hpq, hq1, hq2, hq3, _, ?_, ?_, rfl⟩
  · simp only [exportSFMesh, hq, Option.map_some', hst]
  · rw [List.length_append, List.length_append, List.length_take, List.length_drop, hflat,
      List.length_map]
    omega

theorem exportSFMesh_uv_block_witness :
    exportOffset skinnedStream.encode 1 = some 42 ∧
    uvReadPosition skinnedStream.encode = some 42 ∧
    ∃ out, exportSFMesh (fun _ => 0x11223344) [⟨Flt.fin 0, Flt.fin 0⟩] skinnedStream.encode
        = some out ∧ out.length = skinnedStream.encode.length ∧
      out = skinnedStream.encode.take 42 ++ (([⟨Flt.fin 0, Flt.fin 0⟩] : List Vector2).map
        (fun _ => 0x11223344 % 2 ^ 32)).flatMap le32 ++ skinnedStream.encode.drop (42 + 4 * 1) := by
  have hq : exportOffset skinnedStream.encode
      ([⟨Flt.fin 0, Flt.fin 0⟩] : List Vector2).length = some 42 := by decide!
  have hp : uvReadPosition skinnedStream.encode = some 42 := by decide!
  obtain ⟨_, _, _, _, out, h1, h2, h3⟩ := exportSFMesh_uv_block (fun _ => 0x11223344)
    [⟨Flt.fin 0, Flt.fin 0⟩] skinnedStream.encode 42 42 (by decide!) hq hp
  refine ⟨hq, hp, out, h1, h2, ?_⟩
  rw [h3]
  simp

end NifSkope
